import Mathlib

/-! Half-edge connectivity of a polygon mesh.

A shallow embedding of `src/core/HalfEdges.cpp`: the constructor
`HalfEdges::HalfEdges` and the corner and edge queries.

Conventions of the embedding.

* A C++ `int` is an `Int`; a `std::vector<int>` is a `List Int`.  The length of
  the corner array is assumed to fit an `int`, so no arithmetic wraps.
* Loop counters that only take non-negative values (`iC`, `iC0`, `iC1`, `iF`,
  `j`) are `Nat` and are cast when they are stored in a vector.
* The base class `Edges` is not part of the sources; it is modelled from the
  interface the specification gives for the graph collaborator.
* Inside the constructor a vector read is `List.getD` and a vector write is
  `List.set`.
* Inside the queries every vector read is checked: a query returns `none`
  exactly when the C++ code would index a vector outside `[0, size)`.

The three face scans of the constructor share one loop, `faceLoop`; the
section "Loops as folds" shows that it runs its body over the list `visits`,
and the later sections describe the arrays `_face`, `_twin`,
`_firstCornerEdge` and `_cornerEdge` in terms of that list.
-/

namespace Mesh

/-! ## The graph collaborator -/

/-- Modelled from the spec: the undirected-graph base class `Edges` (files
`Edges.hpp`, `Graph.hpp` are not part of the sources).  The spec gives its
contract: `insertEdge(v0, v1)` is idempotent per unordered pair and numbers
new pairs sequentially, `getEdge(v0, v1)` returns the id or an invalid
marker, and the graph reports its edge and vertex counts.  The pairs are kept
in order of insertion, the edge id being the position. -/
structure Edges where
  /-- Number of vertices the graph was created with. -/
  nV : Int
  /-- The unordered pairs, normalised as `(min, max)`, in order of insertion. -/
  pairs : List (Int × Int)
deriving Repr, DecidableEq

/-- Normal form of the unordered pair `{v0, v1}`. -/
def edgeKey (v0 v1 : Int) : Int × Int := (min v0 v1, max v0 v1)

/-- Position of the first occurrence of the pair `k` in `pairs`, or the length
of `pairs` when it does not occur. -/
def pairIndex (k : Int × Int) : List (Int × Int) → Nat
  | [] => 0
  | p :: ps => if p = k then 0 else pairIndex k ps + 1

/-- Modelled from the spec: `Edges::getNumberOfVertices`. -/
def Edges.getNumberOfVertices (g : Edges) : Int := g.nV

/-- Modelled from the spec: `Edges::getNumberOfEdges` (`edgeCount()`). -/
def Edges.getNumberOfEdges (g : Edges) : Int := g.pairs.length

/-- Modelled from the spec: `Edges::getEdge`, the id of the pair or `-1`. -/
def Edges.getEdge (g : Edges) (v0 v1 : Int) : Int :=
  if edgeKey v0 v1 ∈ g.pairs then (pairIndex (edgeKey v0 v1) g.pairs : Int) else -1

/-- Modelled from the spec: `Edges::insertEdge`, returning the updated graph
and the id of the (new or existing) edge. -/
def Edges.insertEdge (g : Edges) (v0 v1 : Int) : Edges × Int :=
  if edgeKey v0 v1 ∈ g.pairs then (g, (pairIndex (edgeKey v0 v1) g.pairs : Int))
  else ({ g with pairs := g.pairs ++ [edgeKey v0 v1] }, (g.pairs.length : Int))

/-! ## Vectors and loops -/

/-- The call `v.resize(n, x)` of `std::vector`. -/
def resize (v : List Int) (n : Nat) (x : Int) : List Int :=
  v.take n ++ List.replicate (n - v.length) x

/-- The value of an expression of type `int`: `x` wrapped to 32 bits in two's
complement. -/
def wrapInt (x : Int) : Int := (x + 2147483648) % 4294967296 - 2147483648

/-- A checked vector read `v[i]`: `none` when `i` is outside `[0, size)`. -/
def rd (v : List Int) (i : Int) : Option Int :=
  if i < 0 then none else v[i.toNat]?

/-- The counted loop `for (i = i0; i < i0 + n; ++i) body(i)`. -/
def forLoop {σ : Type} (body : Nat → σ → σ) : Nat → Nat → σ → σ
  | 0, _, s => s
  | n + 1, i, s => forLoop body n (i + 1) (body i s)

/-- The face scan shared by steps 2, 4 and 6 of the constructor:
`for (iF=iC0=iC1=0; iC1<nC; iC1++) { if (coordIndex[iC1]>=0) continue;
for (iC=iC0; iC<iC1; ++iC) body(iF,iC0,iC); iC0=iC1+1; iF++; }`.
The first argument is the part of `coordIndex` from position `iC1` on; the
result is the final `iF` and the final state. -/
def faceLoop {σ : Type} (body : Nat → Nat → Nat → σ → σ) :
    List Int → Nat → Nat → Nat → σ → Nat × σ
  | [], iF, _, _, s => (iF, s)
  | v :: rest, iF, iC0, iC1, s =>
    if v ≥ 0 then faceLoop body rest iF iC0 (iC1 + 1) s
    else faceLoop body rest (iF + 1) (iC1 + 1) (iC1 + 1)
      (forLoop (body iF iC0) (iC1 - iC0) iC0 s)

/-- The destination vertex computed in each of the three scans:
`iV1 = coordIndex[iC+1]; if (iV1 == -1) iV1 = coordIndex[iC0];`. -/
def cornerDst (coordIndex : List Int) (iC0 iC : Nat) : Int :=
  let iV1 := coordIndex.getD (iC + 1) 0
  if iV1 = -1 then coordIndex.getD iC0 0 else iV1

/-! ## The constructor -/

/-- The error thrown by the validation loop: the offending value and its position. -/
structure IndexRangeError where
  value : Int
  position : Nat
deriving Repr, DecidableEq

/-- The exceptions that leave the constructors: the `std::runtime_error` of the
validation loop, the `std::length_error` of `nFacesEdge.reserve(nV + 1)`
when the `int` value `nV + 1` is negative (with an empty corner array and
`nV < -1`, or when `nV + 1` wraps at the largest `int`), and, in
`PolygonMesh`, the `std::length_error` of `_isBoundaryVertex.resize(nV, false)`
when `nV` is negative. -/
inductive BuildError where
  | indexRange (err : IndexRangeError)
  | reserveLength
  | resizeLength
deriving Repr, DecidableEq

/-- Step 0 of the constructor: the first corner whose value is outside
`[-1, nV)`, scanning the rest of the array from position `iC`. -/
def firstViolation (nV : Int) : List Int → Nat → Option IndexRangeError
  | [], _ => none
  | iV :: rest, iC =>
    if -1 > iV ∨ iV ≥ nV then some ⟨iV, iC⟩ else firstViolation nV rest (iC + 1)

/-- State of step 2: the graph, the `_face` array and the tally `nFacesEdge`. -/
structure RegState where
  g : Edges
  face : List Int
  nFacesEdge : List Int
deriving Repr, DecidableEq

/-- Body of the inner loop of step 2. -/
def registerCorner (coordIndex : List Int) (iF iC0 iC : Nat) (s : RegState) : RegState :=
  let face := s.face.set iC (iF : Int)
  let iV0 := coordIndex.getD iC 0
  let iV1 := cornerDst coordIndex iC0 iC
  let r := s.g.insertEdge iV0 iV1
  let iE := r.2.toNat
  let nFacesEdge :=
    if iE ≥ s.nFacesEdge.length then resize s.nFacesEdge (iE + 1) 0 else s.nFacesEdge
  { g := r.1, face := face, nFacesEdge := nFacesEdge.set iE (nFacesEdge.getD iE 0 + 1) }

/-- State of step 4: the array `twinCorner` and the `_twin` array. -/
structure TwinState where
  twinCorner : List Int
  twin : List Int
deriving Repr, DecidableEq

/-- Body of the inner loop of step 4. -/
def twinStep (coordIndex : List Int) (g : Edges) (_iF iC0 iC : Nat) (s : TwinState) :
    TwinState :=
  let iV0 := coordIndex.getD iC 0
  let iV1 := cornerDst coordIndex iC0 iC
  let iE := (g.getEdge iV0 iV1).toNat
  if s.twinCorner.getD iE 0 < 0 then
    { s with twinCorner := s.twinCorner.set iE (iC : Int) }
  else
    let twin1 := s.twin.set iC (s.twinCorner.getD iE 0)
    { s with twin := twin1.set (twin1.getD iC 0).toNat (iC : Int) }

/-- Body of the loop of step 5:
`_firstCornerEdge[iE+1] = _firstCornerEdge[iE]+nFacesEdge[iE]`. -/
def prefixStep (nFacesEdge : List Int) (iE : Nat) (first : List Int) : List Int :=
  first.set (iE + 1) (first.getD iE 0 + nFacesEdge.getD iE 0)

/-- The search loop of step 6, `n` iterations being left:
`for (; j < nFacesEdge[iE]; ++j) if (_cornerEdge[start+j] < 0)
{ _cornerEdge[start+j] = iC; break; }`. -/
def fillSlot (iC : Int) (start : Nat) : Nat → Nat → List Int → List Int
  | 0, _, cornerEdge => cornerEdge
  | n + 1, j, cornerEdge =>
    if cornerEdge.getD (start + j) 0 < 0 then cornerEdge.set (start + j) iC
    else fillSlot iC start n (j + 1) cornerEdge

/-- Body of the inner loop of step 6. -/
def fillStep (coordIndex : List Int) (g : Edges) (nFacesEdge first : List Int)
    (_iF iC0 iC : Nat) (cornerEdge : List Int) : List Int :=
  let iV0 := coordIndex.getD iC 0
  let iV1 := cornerDst coordIndex iC0 iC
  let iE := (g.getEdge iV0 iV1).toNat
  let start := (first.getD iE 0).toNat
  fillSlot (iC : Int) start (nFacesEdge.getD iE 0).toNat 0 cornerEdge

/-- The class `HalfEdges`: the base class `Edges` and the protected members. -/
structure HalfEdges where
  edges : Edges
  coordIndex : List Int
  twin : List Int
  face : List Int
  firstCornerEdge : List Int
  cornerEdge : List Int
deriving Repr, DecidableEq

/-- State at the start of step 2: a graph with no edges, `_face` filled with
`-1`, an empty tally. -/
def regInit (nVertices : Int) (nC : Nat) : RegState :=
  { g := { nV := nVertices, pairs := [] }, face := resize [] nC (-1), nFacesEdge := [] }

/-- Result of step 2 of the constructor: the number of faces and the final state. -/
def regFinal (nVertices : Int) (coordIndex : List Int) : Nat × RegState :=
  faceLoop (registerCorner coordIndex) coordIndex 0 0 0 (regInit nVertices coordIndex.length)

/-- Result of steps 3 and 4 of the constructor on the graph `g` of step 2. -/
def twinFinal (coordIndex : List Int) (g : Edges) : Nat × TwinState :=
  faceLoop (twinStep coordIndex g) coordIndex 0 0 0
    { twinCorner := resize [] g.getNumberOfEdges.toNat (-1),
      twin := resize [] coordIndex.length (-1) }

/-- Result of step 5 of the constructor: the array `_firstCornerEdge`. -/
def firstFinal (nE : Nat) (nFacesEdge : List Int) : List Int :=
  forLoop (prefixStep nFacesEdge) nE 0 ((resize [] (nE + 1) (-1)).set 0 0)

/-- Result of step 6 of the constructor: the array `_cornerEdge`. -/
def fillFinal (coordIndex : List Int) (g : Edges) (nFacesEdge first : List Int) (nF : Nat) :
    Nat × List Int :=
  faceLoop (fillStep coordIndex g nFacesEdge first) coordIndex 0 0 0
    (resize [] (coordIndex.length - nF) (-1))

/-- Steps 1 to 6 of the constructor, run after the validation has passed. -/
def assemble (nVertices : Int) (coordIndex : List Int) : HalfEdges :=
  let r2 := regFinal nVertices coordIndex
  let nF := r2.1
  let g := r2.2.g
  let nFacesEdge := r2.2.nFacesEdge
  let nE := g.getNumberOfEdges.toNat
  let r4 := twinFinal coordIndex g
  let first := firstFinal nE nFacesEdge
  let r6 := fillFinal coordIndex g nFacesEdge first nF
  { edges := g, coordIndex := coordIndex, twin := r4.2.twin, face := r2.2.face,
    firstCornerEdge := first, cornerEdge := r6.2 }

/-- The constructor `HalfEdges::HalfEdges(nVertices, coordIndex)`: the
validation loop, which throws at the first bad corner, the call
`nFacesEdge.reserve(nV + 1)`, whose argument is computed in `int` and which
throws `std::length_error` when that value is negative, then steps 2 to 6. -/
def mkHalfEdges (nVertices : Int) (coordIndex : List Int) :
    Except BuildError HalfEdges :=
  match firstViolation nVertices coordIndex 0 with
  | some err => .error (.indexRange err)
  | none =>
    if wrapInt (nVertices + 1) < 0 then .error .reserveLength
    else .ok (assemble nVertices coordIndex)

/-! ## The queries -/

namespace HalfEdges

/-- The method `HalfEdges::getNumberOfCorners`. -/
def getNumberOfCorners (h : HalfEdges) : Int := h.coordIndex.length

/-- The inherited method `Edges::getNumberOfEdges`. -/
def getNumberOfEdges (h : HalfEdges) : Int := h.edges.getNumberOfEdges

/-- The inherited method `Edges::getEdge`. -/
def getEdge (h : HalfEdges) (iV0 iV1 : Int) : Int := h.edges.getEdge iV0 iV1

/-- The method `HalfEdges::getFace`. -/
def getFace (h : HalfEdges) (iC : Int) : Option Int :=
  if iC < 0 ∨ iC ≥ h.getNumberOfCorners then some (-1)
  else rd h.face iC

/-- The method `HalfEdges::getSrc`. -/
def getSrc (h : HalfEdges) (iC : Int) : Option Int :=
  if iC < 0 ∨ iC ≥ h.getNumberOfCorners then some (-1)
  else rd h.coordIndex iC

/-- The backward scan `while (iC1 >= 0 && _face[iC1] != -1) --iC1;` started at
`iC1 ≥ 0`; the result is the final value of `iC1`. -/
def scanBackward (face : List Int) : Nat → Option Int
  | 0 => (face[0]?).bind fun f => if f ≠ -1 then some (-1) else some 0
  | n + 1 => (face[n + 1]?).bind fun f =>
      if f ≠ -1 then scanBackward face n else some ((n : Int) + 1)

/-- The forward scan `while (iC1 < size && _face[iC1] != -1) ++iC1;`; the first
argument bounds the number of iterations and is `size - iC1` at the start. -/
def scanForward (face : List Int) (size : Nat) : Nat → Nat → Option Int
  | 0, iC1 => some (iC1 : Int)
  | n + 1, iC1 =>
    if iC1 < size then
      (face[iC1]?).bind fun f =>
        if f ≠ -1 then scanForward face size n (iC1 + 1) else some (iC1 : Int)
    else some (iC1 : Int)

/-- The method `HalfEdges::getDst`. -/
def getDst (h : HalfEdges) (iC : Int) : Option Int :=
  if iC < 0 ∨ iC ≥ h.getNumberOfCorners then some (-1)
  else if iC + 1 < h.getNumberOfCorners then
    (rd h.coordIndex (iC + 1)).bind fun v =>
      if v ≠ -1 then some v
      else (scanBackward h.face iC.toNat).bind fun iC1 => rd h.coordIndex (iC1 + 1)
  else (scanBackward h.face iC.toNat).bind fun iC1 => rd h.coordIndex (iC1 + 1)

/-- The method `HalfEdges::getNext`. -/
def getNext (h : HalfEdges) (iC : Int) : Option Int :=
  if iC < 0 ∨ iC ≥ h.getNumberOfCorners then some (-1)
  else (rd h.face (iC + 1)).bind fun f =>
    if f ≠ -1 then some (iC + 1)
    else (scanBackward h.face iC.toNat).bind fun iC1 => some (iC1 + 1)

/-- The method `HalfEdges::getPrev`. -/
def getPrev (h : HalfEdges) (iC : Int) : Option Int :=
  if iC < 0 ∨ iC ≥ h.getNumberOfCorners then some (-1)
  else if iC > 0 then
    (rd h.face (iC - 1)).bind fun f =>
      if f ≠ -1 then some (iC - 1)
      else (scanForward h.face h.coordIndex.length (h.coordIndex.length - iC.toNat)
        iC.toNat).bind fun iC1 => some (iC1 - 1)
  else (scanForward h.face h.coordIndex.length (h.coordIndex.length - iC.toNat)
        iC.toNat).bind fun iC1 => some (iC1 - 1)

/-- The method `HalfEdges::getTwin`. -/
def getTwin (h : HalfEdges) (iC : Int) : Option Int :=
  if iC < 0 ∨ iC ≥ h.getNumberOfCorners then some (-1)
  else rd h.twin iC

/-- The method `HalfEdges::getNumberOfEdgeHalfEdges`. -/
def getNumberOfEdgeHalfEdges (h : HalfEdges) (iE : Int) : Option Int :=
  if iE < 0 ∨ iE ≥ h.getNumberOfEdges then some 0
  else (rd h.firstCornerEdge (iE + 1)).bind fun a =>
    (rd h.firstCornerEdge iE).bind fun b => some (a - b)

/-- The method `HalfEdges::getEdgeHalfEdge`. -/
def getEdgeHalfEdge (h : HalfEdges) (iE j : Int) : Option Int :=
  if iE < 0 ∨ iE ≥ h.getNumberOfEdges then some (-1)
  else if j < 0 then some (-1)
  else (h.getNumberOfEdgeHalfEdges iE).bind fun n =>
    if j ≥ n then some (-1)
    else (rd h.firstCornerEdge iE).bind fun start => rd h.cornerEdge (start + j)

end HalfEdges

/-! ## Views of the scans used to state the properties of the constructor -/

/-- The triples `(iF, iC0, iC)` on which the face scan runs its body, in order. -/
def visits : List Int → Nat → Nat → Nat → List (Nat × Nat × Nat)
  | [], _, _, _ => []
  | v :: rest, iF, iC0, iC1 =>
    if v ≥ 0 then visits rest iF iC0 (iC1 + 1)
    else (List.range' iC0 (iC1 - iC0)).map (fun iC => (iF, iC0, iC))
      ++ visits rest (iF + 1) (iC1 + 1) (iC1 + 1)

/-- Number of negative entries (face separators) of a list. -/
def countNeg (l : List Int) : Nat := (l.filter (fun v => decide (v < 0))).length


/-- A corner of a face closed by a separator: the entry is a vertex and a
separator follows further on. -/
def ClosedCorner (ci : List Int) (c : Nat) : Prop :=
  0 ≤ ci.getD c 0 ∧ ∃ e, c < e ∧ e < ci.length ∧ ci.getD e 0 < 0

/-- The corner array is empty or ends with the separator `-1`, so that every
face is closed. -/
def SentinelTerminated (ci : List Int) : Prop := ci = [] ∨ ci.getLast? = some (-1)

/-- A face occupying the corners `s..l`: vertices at `s..l`, a separator at
`l + 1`, and the start of the array or a separator just before `s`. -/
structure FaceRange (ci : List Int) (s l : Nat) : Prop where
  le : s ≤ l
  lt : l + 1 < ci.length
  nonneg : ∀ i, s ≤ i → i ≤ l → 0 ≤ ci.getD i 0
  start : s = 0 ∨ (1 ≤ s ∧ ci.getD (s - 1) 0 < 0)
  stop : ci.getD (l + 1) 0 < 0

/-- The result of applying `getNext` `n` times, starting at `iC`. -/
def iterNext (h : HalfEdges) : Nat → Int → Option Int
  | 0, iC => some iC
  | n + 1, iC => (h.getNext iC).bind (iterNext h n)

/-- The normalised vertex pair of the half-edge at a visited corner. -/
def visitKey (ci : List Int) (x : Nat × Nat × Nat) : Int × Int :=
  edgeKey (ci.getD x.2.2 0) (cornerDst ci x.2.1 x.2.2)

/-- The edge index that steps 4 and 6 compute at a visited corner:
`iE = getEdge(iV0, iV1)`. -/
def visitEdge (ci : List Int) (g : Edges) (x : Nat × Nat × Nat) : Nat :=
  (g.getEdge (ci.getD x.2.2 0) (cornerDst ci x.2.1 x.2.2)).toNat

/-- The half-edges in scan order, each as the pair of its corner and its edge index. -/
def halfEdgeList (ci : List Int) (g : Edges) : List (Nat × Nat) :=
  (visits ci 0 0 0).map (fun x => (x.2.2, visitEdge ci g x))

/-- The corners of the half-edges of `p` that lie on edge `e`, in scan order. -/
def cornersOf (p : List (Nat × Nat)) (e : Nat) : List Nat :=
  (p.filter (fun x => decide (x.2 = e))).map (fun x => x.1)

/-- What holds of the graph and the tally of step 2 once the half-edges with
the vertex pairs `keys` have been registered. -/
structure RegInv (keys : List (Int × Int)) (s : RegState) : Prop where
  nodup : s.g.pairs.Nodup
  len : s.nFacesEdge.length = s.g.pairs.length
  mem : ∀ k, k ∈ s.g.pairs ↔ k ∈ keys
  cnt : ∀ k ∈ s.g.pairs, s.nFacesEdge.getD (pairIndex k s.g.pairs) 0 = (keys.count k : Int)

/-- Body of the inner loop of step 4 on a half-edge given by its corner `x.1`
and its edge index `x.2`. -/
def twinStepOn (x : Nat × Nat) (s : TwinState) : TwinState :=
  if s.twinCorner.getD x.2 0 < 0 then
    { s with twinCorner := s.twinCorner.set x.2 (x.1 : Int) }
  else
    let twin1 := s.twin.set x.1 (s.twinCorner.getD x.2 0)
    { s with twin := twin1.set (twin1.getD x.1 0).toNat (x.1 : Int) }

/-- What holds of `twinCorner` and `_twin` once step 4 has run over the
half-edges `p`: `twinCorner[e]` is the first half-edge of `e`; `_twin` is `-1`
at a corner not yet seen and at the only half-edge of an edge; the first
half-edge of an edge is linked to the last one seen, every later half-edge to
the first. -/
structure TwinInv (p : List (Nat × Nat)) (nC nE : Nat) (s : TwinState) : Prop where
  lenT : s.twin.length = nC
  lenC : s.twinCorner.length = nE
  firstNone : ∀ e, e < nE → cornersOf p e = [] → s.twinCorner.getD e 0 = -1
  firstSome : ∀ e f rest, e < nE → cornersOf p e = f :: rest → s.twinCorner.getD e 0 = (f : Int)
  unseen : ∀ c, c < nC → (∀ x ∈ p, x.1 ≠ c) → s.twin.getD c 0 = -1
  head : ∀ x ∈ p, ∀ rest, cornersOf p x.2 = x.1 :: rest →
    s.twin.getD x.1 0 = if rest = [] then -1 else ((rest.getLastD 0 : Nat) : Int)
  tail : ∀ x ∈ p, ∀ f rest, cornersOf p x.2 = f :: rest → x.1 ≠ f →
    s.twin.getD x.1 0 = (f : Int)

/-- Number of half-edges of `p` whose edge index is below `e`: the position of
the first slot of edge `e` in `_cornerEdge`. -/
def slotStart (p : List (Nat × Nat)) (e : Nat) : Nat :=
  (p.filter (fun x => decide (x.2 < e))).length

/-- Body of the inner loop of step 6 on a half-edge given by its corner `x.1`
and its edge index `x.2`. -/
def fillStepOn (nFacesEdge first : List Int) (x : Nat × Nat) (cornerEdge : List Int) :
    List Int :=
  fillSlot (x.1 : Int) (first.getD x.2 0).toNat (nFacesEdge.getD x.2 0).toNat 0 cornerEdge

/-- What holds of `_cornerEdge` once step 6 has run over the half-edges `p`
of the scan `all`: slot `j` of edge `e` holds the `j`-th half-edge of `e` seen
so far, and `-1` when fewer have been seen. -/
structure FillInv (all p : List (Nat × Nat)) (nE N : Nat) (ce : List Int) : Prop where
  len : ce.length = N
  slot : ∀ e j, e < nE → j < (cornersOf all e).length →
    ce.getD (slotStart all e + j) 0
      = if j < (cornersOf p e).length then (((cornersOf p e).getD j 0 : Nat) : Int) else -1

/-- What holds at the head of the face scan. -/
structure ScanInv (ci l : List Int) (iF iC0 iC1 : Nat) : Prop where
  drop : ci.drop iC1 = l
  le : iC0 ≤ iC1
  run : ∀ i, iC0 ≤ i → i < iC1 → 0 ≤ ci.getD i 0
  start : iC0 = 0 ∨ (1 ≤ iC0 ∧ ci.getD (iC0 - 1) 0 < 0)
  face : iF = countNeg (ci.take iC1)

/-- What holds of a triple `(f, a, c)` on which the scan runs its body. -/
structure FaceCorner (ci : List Int) (f a c : Nat) : Prop where
  le : a ≤ c
  start : a = 0 ∨ (1 ≤ a ∧ ci.getD (a - 1) 0 < 0)
  close : ∃ e, c < e ∧ e < ci.length ∧ ci.getD e 0 < 0 ∧ ∀ i, a ≤ i → i < e → 0 ≤ ci.getD i 0
  face : f = countNeg (ci.take c)

/-! ## The class `Faces` (`src/core/Faces.cpp`) -/

/-- The value type of `_faceMap`, declared in `Faces.hpp` (not part of the
sources): the two members `start` and `end` that `Faces.cpp` reads and
writes; `stop` stands for `end`. -/
structure FaceCornerIndexes where
  start : Nat
  stop : Nat
deriving Repr, DecidableEq

/-- The call `_faceMap.insert_or_assign(k, v)` on a map kept as a list of
key-value pairs. -/
def mapInsertOrAssign (m : List (Nat × FaceCornerIndexes)) (k : Nat) (v : FaceCornerIndexes) :
    List (Nat × FaceCornerIndexes) :=
  if m.any (fun p => decide (p.1 = k)) then m.map (fun p => if p.1 = k then (k, v) else p)
  else m ++ [(k, v)]

/-- The call `_faceMap.find(iF)`: the value stored under the key, if any. -/
def mapFind (m : List (Nat × FaceCornerIndexes)) (iF : Int) : Option FaceCornerIndexes :=
  (m.find? (fun p => decide ((p.1 : Int) = iF))).map (fun p => p.2)

/-- The local variables of the scan of `Faces::Faces`. -/
structure FacesScan where
  uniqueIndexes : List Int
  faceMap : List (Nat × FaceCornerIndexes)
  faceIndex : Nat
  coordIndexStart : Nat
  coordIndexEnd : Nat
deriving Repr, DecidableEq

/-- Body of the loop `for(int i : _coordIndex)` of `Faces::Faces`; the
`std::unordered_set` is a list without repetitions. -/
def facesStep (s : FacesScan) (i : Int) : FacesScan :=
  if i ≥ 0 then
    { s with
      uniqueIndexes := if i ∈ s.uniqueIndexes then s.uniqueIndexes else s.uniqueIndexes ++ [i],
      coordIndexEnd := s.coordIndexEnd + 1 }
  else
    { s with
      faceMap := mapInsertOrAssign s.faceMap s.faceIndex ⟨s.coordIndexStart, s.coordIndexEnd⟩,
      faceIndex := s.faceIndex + 1,
      coordIndexStart := s.coordIndexEnd + 1,
      coordIndexEnd := s.coordIndexEnd + 1 }

/-- The local variables of `Faces::Faces` before the scan. -/
def facesScanInit : FacesScan :=
  { uniqueIndexes := [], faceMap := [], faceIndex := 0, coordIndexStart := 0,
    coordIndexEnd := 0 }

/-- The scan of `Faces::Faces` over the whole corner array. -/
def facesScan (coordIndex : List Int) : FacesScan :=
  coordIndex.foldl facesStep facesScanInit

/-- The class `Faces`: its three members. -/
structure Faces where
  coordIndex : List Int
  faceMap : List (Nat × FaceCornerIndexes)
  numbOfVertices : Int
deriving Repr, DecidableEq

/-- The exception of `Faces::Faces`: "number of vertices and number of indices
must be equal". -/
inductive FacesError where
  | countMismatch
deriving Repr, DecidableEq

/-- The constructor `Faces::Faces(nV, coordIndex)`.  The test
`nV != uniqueIndexes.size()` compares an `int` with a `size_t`; a negative
`nV` converts to a value above every possible size, so the comparison is the
one of the integers. -/
def mkFaces (nV : Int) (coordIndex : List Int) : Except FacesError Faces :=
  if nV ≠ ((facesScan coordIndex).uniqueIndexes.length : Int) then .error .countMismatch
  else .ok { coordIndex := coordIndex, faceMap := (facesScan coordIndex).faceMap,
             numbOfVertices := nV }

namespace Faces

/-- The method `Faces::isValidFace`. -/
def isValidFace (f : Faces) (iF : Int) : Prop := iF ≥ 0 ∧ iF < (f.faceMap.length : Int)

/-- The method `Faces::isValidCorner`. -/
def isValidCorner (f : Faces) (iC : Int) : Prop := iC ≥ 0 ∧ iC < (f.coordIndex.length : Int)

instance (f : Faces) (iF : Int) : Decidable (f.isValidFace iF) := by
  unfold isValidFace; infer_instance

instance (f : Faces) (iC : Int) : Decidable (f.isValidCorner iC) := by
  unfold isValidCorner; infer_instance

/-- The method `Faces::getNumberOfVertices`. -/
def getNumberOfVertices (f : Faces) : Int := f.numbOfVertices

/-- The method `Faces::getNumberOfFaces`. -/
def getNumberOfFaces (f : Faces) : Int := f.faceMap.length

/-- The method `Faces::getNumberOfCorners`. -/
def getNumberOfCorners (f : Faces) : Int := (f.faceMap.length : Int) * 3

/-- The method `Faces::getFaceSize`. -/
def getFaceSize (f : Faces) (iF : Int) : Int :=
  if ¬ f.isValidFace iF then -1
  else match mapFind f.faceMap iF with
    | some r => (r.stop : Int) - (r.start : Int)
    | none => -1

/-- The method `Faces::getFaceFirstCorner`. -/
def getFaceFirstCorner (f : Faces) (iF : Int) : Int :=
  if ¬ f.isValidFace iF then -1
  else match mapFind f.faceMap iF with
    | some r => (r.start : Int)
    | none => -1

/-- The method `Faces::getFaceVertex`; `none` stands for a read of
`_coordIndex` outside the array. -/
def getFaceVertex (f : Faces) (iF iC : Int) : Option Int :=
  if ¬ f.isValidFace iF then some (-1)
  else if ¬ f.isValidCorner iC then some (-1)
  else match mapFind f.faceMap iF with
    | some r => if (r.start : Int) ≤ iC ∧ iC ≤ (r.stop : Int) then rd f.coordIndex iC
                else some (-1)
    | none => some (-1)

/-- The loop `for (const auto& [iF, face] : _faceMap)` of
`Faces::getCornerFace`, followed by `return -1`. -/
def cornerFaceLoop (iC : Int) : List (Nat × FaceCornerIndexes) → Int
  | [] => -1
  | p :: rest =>
    if (p.2.start : Int) ≤ iC ∧ iC < (p.2.stop : Int) then (p.1 : Int)
    else cornerFaceLoop iC rest

/-- The method `Faces::getCornerFace`; `none` stands for a read of
`_coordIndex` outside the array. -/
def getCornerFace (f : Faces) (iC : Int) : Option Int :=
  if ¬ f.isValidCorner iC then some (-1)
  else (rd f.coordIndex iC).bind fun v =>
    if v = -1 then some (-1) else some (cornerFaceLoop iC f.faceMap)

/-- The loop `for (const auto& [iF, face] : _faceMap)` of
`Faces::getNextCorner`, followed by `return -1`; `none` stands for the
exception of `_faceMap.at` on a missing key. -/
def nextCornerLoop (m : List (Nat × FaceCornerIndexes)) (iC : Int) :
    List (Nat × FaceCornerIndexes) → Option Int
  | [] => some (-1)
  | p :: rest =>
    if (p.2.start : Int) ≤ iC ∧ iC < (p.2.stop : Int) then
      if iC + 1 < (p.2.stop : Int) then some (iC + 1)
      else if (p.1 : Int) + 1 < (m.length : Int) then
        (mapFind m ((p.1 : Int) + 1)).map fun r => (r.start : Int)
      else nextCornerLoop m iC rest
    else nextCornerLoop m iC rest

/-- The method `Faces::getNextCorner`; `none` stands for a read of
`_coordIndex` outside the array or the exception of `_faceMap.at`. -/
def getNextCorner (f : Faces) (iC : Int) : Option Int :=
  if ¬ f.isValidCorner iC then some (-1)
  else (rd f.coordIndex iC).bind fun v =>
    if v = -1 then some (-1) else nextCornerLoop f.faceMap iC f.faceMap

end Faces

/-! ## The face count of `PolygonMesh` (`src/core/PolygonMesh.cpp`) -/

/-- The loop of `PolygonMesh::PolygonMesh` that sets `_numberOfFaces`:
`for (iC = 0; iC < nC; ++iC) { if (_coordIndex[iC] >= 0) continue;
++_numberOfFaces; }`, run over the rest of the array. -/
def countFacesLoop : List Int → Int → Int
  | [], n => n
  | v :: rest, n => if v ≥ 0 then countFacesLoop rest n else countFacesLoop rest (n + 1)

/-- The value that `PolygonMesh::PolygonMesh` stores in `_numberOfFaces` and
`PolygonMesh::getNumberOfFaces` returns, for the mesh whose base object is `h`. -/
def polygonMeshNumberOfFaces (h : HalfEdges) : Int := countFacesLoop h.coordIndex 0

/-- What holds of a `_faceMap` entry with key `k` and range `[s, e)`: `e` is
the position of the separator number `k`, the corners `s..e-1` hold vertices,
and `s` is the start of the array or follows a separator. -/
structure FaceSpan (ci : List Int) (k s e : Nat) : Prop where
  le : s ≤ e
  lt : e < ci.length
  neg : ci.getD e 0 < 0
  nonneg : ∀ i, s ≤ i → i < e → 0 ≤ ci.getD i 0
  start : s = 0 ∨ (1 ≤ s ∧ ci.getD (s - 1) 0 < 0)
  index : k = countNeg (ci.take e)

/-- What holds of the scan of `Faces::Faces` after `n` corners. -/
structure FacesInv (ci : List Int) (n : Nat) (s : FacesScan) : Prop where
  stop : s.coordIndexEnd = n
  index : s.faceIndex = countNeg (ci.take n)
  le : s.coordIndexStart ≤ n
  nonneg : ∀ i, s.coordIndexStart ≤ i → i < n → 0 ≤ ci.getD i 0
  start : s.coordIndexStart = 0 ∨ (1 ≤ s.coordIndexStart ∧ ci.getD (s.coordIndexStart - 1) 0 < 0)
  keys : s.faceMap.map (fun p => p.1) = List.range s.faceIndex
  spans : ∀ p ∈ s.faceMap, FaceSpan ci p.1 p.2.start p.2.stop
  nodup : s.uniqueIndexes.Nodup
  mem : ∀ v, v ∈ s.uniqueIndexes ↔ (v ∈ ci.take n ∧ 0 ≤ v)

/-- The corner array of two triangles `0 1 2` and `0 2 3`, used as a concrete
input. -/
def twoTriangles : List Int := [0, 1, 2, -1, 0, 2, 3, -1]

/-- The object that `Faces::Faces(4, twoTriangles)` builds. -/
def twoTrianglesFaces : Faces :=
  { coordIndex := twoTriangles, faceMap := [(0, ⟨0, 3⟩), (1, ⟨4, 7⟩)], numbOfVertices := 4 }

/-! ## The half-edges of an edge, read through the queries -/

/-- Whether `c` is a non-separator corner whose half-edge lies on edge `e`:
`getSrc(c) >= 0` and `getEdge(getSrc(c), getDst(c)) = e` (false when a query
reads out of bounds). -/
def HalfEdges.cornerOnEdge (h : HalfEdges) (e : Int) (c : Nat) : Bool :=
  match h.getSrc c, h.getDst c with
  | some v, some d => decide (0 ≤ v ∧ h.getEdge v d = e)
  | _, _ => false

/-- The non-separator corners whose half-edge lies on edge `e`, in increasing
corner order. -/
def HalfEdges.cornersOnEdge (h : HalfEdges) (e : Int) : List Nat :=
  (List.range h.coordIndex.length).filter (h.cornerOnEdge e)

/-- The corner array of a closed, consistently oriented tetrahedron, used as a
concrete input. -/
def tetrahedron : List Int := [0, 1, 2, -1, 0, 3, 1, -1, 1, 3, 2, -1, 2, 3, 0, -1]

/-! ## The class `PolygonMesh` (`src/core/PolygonMesh.cpp`) -/

/-- A checked vector write `v[i] = x`: `none` when `i` is outside `[0, size)`. -/
def wr {α : Type} (v : List α) (i : Int) (x : α) : Option (List α) :=
  if 0 ≤ i ∧ i < v.length then some (v.set i.toNat x) else none

/-- A checked read `v[i]` of a `std::vector<bool>`: `none` when `i` is outside
`[0, size)`. -/
def rdBool (v : List Bool) (i : Int) : Option Bool :=
  if i < 0 then none else v[i.toNat]?

/-- The counted loop `for (i = i0; i < i0 + n; ++i) body(i)` whose body may
read or write out of bounds (`none`), which ends the run. -/
def forLoopM {σ : Type} (body : Nat → σ → Option σ) : Nat → Nat → σ → Option σ
  | 0, _, s => some s
  | n + 1, i, s => (body i s).bind (forLoopM body n (i + 1))

/-- Modelled from the spec: the union-find collaborator `Partition` is not
among the sources; the spec gives its interface as `new(n)`, `join(a, b)`,
`classSizeOf(representative)`. The constructor of `PolygonMesh` only reads it
through `getSize(i)` after all the joins, so the collaborator enters as the
function giving the value of `getSize(i)` from the number of elements `n` it
was created with and the list of the calls `join(a, b)` made on it, in order. -/
abbrev PartitionSizes : Type := Nat → List (Int × Int) → Int → Int

/-- Modelled from the spec: `join(a, b)` on the table `rep` that gives the
representative of every element; the class of `b` takes the representative of
the class of `a`. -/
def quickFindJoin (rep : List Int) (a b : Int) : List Int :=
  rep.map fun r => if r = rep.getD b.toNat b then rep.getD a.toNat a else r

/-- Modelled from the spec: the table of representatives after `new(n)` and the
calls `join(a, b)` of `joins`. -/
def quickFindReps (n : Nat) (joins : List (Int × Int)) : List Int :=
  joins.foldl (fun rep p => quickFindJoin rep p.1 p.2) ((List.range n).map fun i => (i : Int))

/-- Modelled from the spec: one implementation of the collaborator, in which
`getSize(i)` is the size of the class of `i` when `i` is the representative of
its class and `0` otherwise. -/
def quickFind : PartitionSizes := fun n joins i =>
  if 0 ≤ i ∧ (quickFindReps n joins)[i.toNat]? = some i then
    ((quickFindReps n joins).count i : Int)
  else 0

/-- The class `PolygonMesh`: its base class `HalfEdges` and the members
`_nPartsVertex`, `_isBoundaryVertex` and `_numberOfFaces`. -/
structure PolygonMesh extends HalfEdges where
  nPartsVertex : List Int
  /-- The member `_isBoundaryVertex`. -/
  boundaryVertex : List Bool
  numberOfFaces : Int
deriving Repr, DecidableEq

/-- Body of the loop of step 1 of `PolygonMesh::PolygonMesh`:
`if (coordIndex[iC] < 0) continue; iV0 = getSrc(iC); iV1 = getDst(iC);
iE = getEdge(iV0, iV1); if (getNumberOfEdgeHalfEdges(iE) == 1)
{ _isBoundaryVertex[iV0] = true; _isBoundaryVertex[iV1] = true; }`. -/
def boundaryStep (h : HalfEdges) (iC : Nat) (flags : List Bool) : Option (List Bool) :=
  (rd h.coordIndex iC).bind fun v =>
    if v < 0 then some flags
    else (h.getSrc iC).bind fun iV0 =>
      (h.getDst iC).bind fun iV1 =>
        (h.getNumberOfEdgeHalfEdges (h.getEdge iV0 iV1)).bind fun n =>
          if n = 1 then (wr flags iV0 true).bind fun flags1 => wr flags1 iV1 true
          else some flags

/-- Body of the loop of step 3 of `PolygonMesh::PolygonMesh`, which records the
call made on the partition: `if (getNumberOfEdgeHalfEdges(iE) == 2)
{ iC1 = getEdgeHalfEdge(iE, 0); iC2 = getEdgeHalfEdge(iE, 1);
partition.join(std::min(iC1, iC2), std::max(iC1, iC2)); }`. -/
def joinStep (h : HalfEdges) (iE : Nat) (joins : List (Int × Int)) :
    Option (List (Int × Int)) :=
  (h.getNumberOfEdgeHalfEdges iE).bind fun n =>
    if n = 2 then
      (h.getEdgeHalfEdge iE 0).bind fun iC1 =>
        (h.getEdgeHalfEdge iE 1).bind fun iC2 =>
          some (joins ++ [(min iC1 iC2, max iC1 iC2)])
    else some joins

/-- Body of the loop of step 4 of `PolygonMesh::PolygonMesh`:
`if (coordIndex[iC] < 0) continue; iV = getSrc(iC);
_nPartsVertex[iV] += partition.getSize(iC);`. -/
def partsStep (P : PartitionSizes) (h : HalfEdges) (joins : List (Int × Int)) (iC : Nat)
    (parts : List Int) : Option (List Int) :=
  (rd h.coordIndex iC).bind fun v =>
    if v < 0 then some parts
    else (h.getSrc iC).bind fun iV =>
      (rd parts iV).bind fun old => wr parts iV (old + P h.coordIndex.length joins iC)

/-- The body of `PolygonMesh::PolygonMesh` after the base object `h` is built
and the two vectors can be sized: the count of the faces, step 1 (boundary
vertices), steps 2 and 3 (the joins on a partition of the `nC` corners) and
step 4 (the parts of the vertices); `none` when a read or write is out of
bounds. -/
def assemblePolygonMesh (P : PartitionSizes) (h : HalfEdges) : Option PolygonMesh :=
  let nC := h.coordIndex.length
  let nV := h.edges.getNumberOfVertices.toNat
  let nE := h.getNumberOfEdges.toNat
  (forLoopM (boundaryStep h) nC 0 (List.replicate nV false)).bind fun flags =>
    (forLoopM (joinStep h) nE 0 []).bind fun joins =>
      (forLoopM (partsStep P h joins) nC 0 (resize [] nV 0)).bind fun parts =>
        some { toHalfEdges := h, nPartsVertex := parts, boundaryVertex := flags,
               numberOfFaces := polygonMeshNumberOfFaces h }

/-- The constructor `PolygonMesh::PolygonMesh(nVertices, coordIndex)` with the
partition collaborator `P`: the base constructor, whose exceptions pass
through; `_isBoundaryVertex.resize(nV, false)`, which throws
`std::length_error` when `nV` is negative; then the body. The result
`.ok none` stands for a run that reads or writes a vector out of bounds. -/
def mkPolygonMesh (P : PartitionSizes) (nVertices : Int) (coordIndex : List Int) :
    Except BuildError (Option PolygonMesh) :=
  match mkHalfEdges nVertices coordIndex with
  | .error err => .error err
  | .ok h =>
    if h.edges.getNumberOfVertices < 0 then .error .resizeLength
    else .ok (assemblePolygonMesh P h)

namespace PolygonMesh

/-- The method `PolygonMesh::getNumberOfFaces`. -/
def getNumberOfFaces (m : PolygonMesh) : Int := m.numberOfFaces

/-- The method `PolygonMesh::getNumberOfEdgeFaces`. -/
def getNumberOfEdgeFaces (m : PolygonMesh) (iE : Int) : Option Int :=
  m.getNumberOfEdgeHalfEdges iE

/-- The method `PolygonMesh::isBoundaryEdge`: `getNumberOfEdgeFaces(iE) == 1`. -/
def isBoundaryEdge (m : PolygonMesh) (iE : Int) : Option Bool :=
  (m.getNumberOfEdgeFaces iE).map fun n => decide (n = 1)

/-- The method `PolygonMesh::isRegularEdge`: `getNumberOfEdgeFaces(iE) == 2`. -/
def isRegularEdge (m : PolygonMesh) (iE : Int) : Option Bool :=
  (m.getNumberOfEdgeFaces iE).map fun n => decide (n = 2)

/-- The method `PolygonMesh::isSingularEdge`: `getNumberOfEdgeFaces(iE) > 1`. -/
def isSingularEdge (m : PolygonMesh) (iE : Int) : Option Bool :=
  (m.getNumberOfEdgeFaces iE).map fun n => decide (n > 1)

/-- The method `PolygonMesh::isBoundaryVertex`:
`(0<=iV && iV<nV) ? _isBoundaryVertex[iV] : false`. -/
def isBoundaryVertex (m : PolygonMesh) (iV : Int) : Option Bool :=
  if 0 ≤ iV ∧ iV < m.edges.getNumberOfVertices then rdBool m.boundaryVertex iV else some false

/-- The method `PolygonMesh::isSingularVertex`:
`0<=iV && iV<nV && _nPartsVertex[iV]>1`. -/
def isSingularVertex (m : PolygonMesh) (iV : Int) : Option Bool :=
  if 0 ≤ iV ∧ iV < m.edges.getNumberOfVertices then
    (rd m.nPartsVertex iV).map fun n => decide (n > 1)
  else some false

/-- The search loop `for (i = i0; i < i0 + n; ++i) if (p(i)) return true;`
followed by `return false`. -/
def anyLoop (p : Int → Option Bool) : Nat → Nat → Option Bool
  | 0, _ => some false
  | n + 1, i => (p i).bind fun b => if b then some true else anyLoop p n (i + 1)

/-- The method `PolygonMesh::isRegular`: false at the first singular edge,
else false at the first singular vertex, else true. -/
def isRegular (m : PolygonMesh) : Option Bool :=
  (anyLoop m.isSingularEdge m.getNumberOfEdges.toNat 0).bind fun e =>
    if e then some false
    else (anyLoop m.isSingularVertex m.edges.getNumberOfVertices.toNat 0).bind fun v =>
      some (!v)

/-- The method `PolygonMesh::hasBoundary`: true at the first boundary edge,
else false. -/
def hasBoundary (m : PolygonMesh) : Option Bool :=
  anyLoop m.isBoundaryEdge m.getNumberOfEdges.toNat 0

end PolygonMesh

/-- The corner array of the closed, consistently oriented triangulated cube. -/
def cube : List Int :=
  [0, 2, 3, -1, 0, 3, 1, -1, 4, 5, 7, -1, 4, 7, 6, -1, 0, 1, 5, -1, 0, 5, 4, -1,
   2, 6, 7, -1, 2, 7, 3, -1, 0, 4, 6, -1, 0, 6, 2, -1, 1, 3, 7, -1, 1, 7, 5, -1]

/-- The corner array of two fans of two triangles each that share vertex `0`. -/
def bowtie : List Int := [0, 1, 2, -1, 0, 2, 3, -1, 0, 4, 5, -1, 0, 5, 6, -1]

/-- Corner `c` is a non-separator corner on an edge with exactly one incident
half-edge, and `v` is `getSrc(c)` or `getDst(c)`. -/
def HalfEdges.marksBoundary (h : HalfEdges) (c : Nat) (v : Int) : Prop :=
  ∃ s d, h.getSrc c = some s ∧ 0 ≤ s ∧ h.getDst c = some d
    ∧ h.getNumberOfEdgeHalfEdges (h.getEdge s d) = some 1 ∧ (v = s ∨ v = d)

/-- The class of corner `c` in the partition of the corners that joins the two
corners of each pair of `joins`, named by the first corner of the pair; the
pairs are taken disjoint, as are the pairs of half-edges of the edges with two
incident half-edges. This follows the wording of the spec, not the code. -/
def specClassOf (joins : List (Int × Int)) (c : Int) : Int :=
  match joins.find? (fun p => decide (p.1 = c ∨ p.2 = c)) with
  | some p => p.1
  | none => c

/-- The part count of vertex `v` in the wording of the spec: the number of
distinct classes among the corners whose vertex is `v`. -/
def specPartCount (ci : List Int) (joins : List (Int × Int)) (v : Int) : Nat :=
  (((List.range ci.length).filter fun c => decide (ci.getD c 0 = v)).map
    fun c => specClassOf joins (c : Int)).dedup.length

/-- The object that `PolygonMesh(4, twoTriangles)` builds with the partition
`quickFind`. -/
def twoTrianglesMesh : PolygonMesh :=
  { toHalfEdges := assemble 4 twoTriangles, nPartsVertex := [1, 1, 3, 1],
    boundaryVertex := [true, true, true, true], numberOfFaces := 2 }

/-- The corner array of three triangles that share the edge `{0, 1}`. -/
def threeFaces : List Int := [0, 1, 2, -1, 0, 1, 3, -1, 0, 1, 4, -1]

/-- The corner array of the smallest bowtie: two triangles that share vertex `0`. -/
def smallBowtie : List Int := [0, 1, 2, -1, 0, 3, 4, -1]

/-! ## The edge classification loop of the test (`src/core/PolygonMeshTest.cpp`) -/

/-- The counters `nE_boundary`, `nE_regular`, `nE_singular`, `nE_other` of the
test. -/
structure EdgeTally where
  nE_boundary : Int
  nE_regular : Int
  nE_singular : Int
  nE_other : Int
deriving Repr, DecidableEq

/-- Body of the loop of the test that classifies the edges:
`if (isBoundaryEdge(iE)) nE_boundary++; else if (isRegularEdge(iE))
nE_regular++; else if (isSingularEdge(iE)) nE_singular++; else nE_other++;`. -/
def tallyStep (m : PolygonMesh) (iE : Nat) (t : EdgeTally) : Option EdgeTally :=
  (m.isBoundaryEdge iE).bind fun b =>
    if b then some { t with nE_boundary := t.nE_boundary + 1 }
    else (m.isRegularEdge iE).bind fun r =>
      if r then some { t with nE_regular := t.nE_regular + 1 }
      else (m.isSingularEdge iE).bind fun s =>
        if s then some { t with nE_singular := t.nE_singular + 1 }
        else some { t with nE_other := t.nE_other + 1 }

/-- The loop `for (iE = 0; iE < nE; iE++)` of the test over the edges of the
mesh, started with all counters at 0. -/
def edgeTally (m : PolygonMesh) : Option EdgeTally :=
  forLoopM (tallyStep m) m.getNumberOfEdges.toNat 0 ⟨0, 0, 0, 0⟩

/-! ## The order in which the edges are numbered -/

open HalfEdges

theorem forLoop_eq_foldl {σ : Type} (body : Nat → σ → σ) (n i : Nat) (s : σ) :
    forLoop body n i s = (List.range' i n).foldl (fun s i => body i s) s := by
  induction n generalizing i s with
  | zero => rfl
  | succ n ih => simp [forLoop, List.range', ih]

theorem faceLoop_snd {σ : Type} (body : Nat → Nat → Nat → σ → σ) (l : List Int)
    (iF iC0 iC1 : Nat) (s : σ) :
    (faceLoop body l iF iC0 iC1 s).2
      = (visits l iF iC0 iC1).foldl (fun s x => body x.1 x.2.1 x.2.2 s) s := by
  induction l generalizing iF iC0 iC1 s with
  | nil => rfl
  | cons v rest ih =>
    simp only [faceLoop, visits]
    split_ifs
    · exact ih _ _ _ _
    · rw [ih, List.foldl_append, List.foldl_map, forLoop_eq_foldl]

theorem faceLoop_fst {σ : Type} (body : Nat → Nat → Nat → σ → σ) (l : List Int)
    (iF iC0 iC1 : Nat) (s : σ) :
    (faceLoop body l iF iC0 iC1 s).1 = iF + countNeg l := by
  induction l generalizing iF iC0 iC1 s with
  | nil => simp [faceLoop, countNeg]
  | cons v rest ih =>
    simp only [faceLoop]
    split_ifs with hv
    · rw [ih]; simp [countNeg, List.filter_cons, not_lt.mpr hv]
    · rw [ih]; simp [countNeg, List.filter_cons, not_le.mp hv]; omega

/-! ## Vector lemmas -/

theorem getD_set_eq (l : List Int) (i j : Nat) (a d : Int) :
    (l.set i a).getD j d = if i = j ∧ i < l.length then a else l.getD j d := by
  simp only [List.getD_eq_getElem?_getD, List.getElem?_set]
  by_cases h : i = j
  · subst h
    by_cases h2 : i < l.length
    · simp [h2]
    · simp [h2, List.getElem?_eq_none (not_lt.mp h2)]
  · simp [h]

theorem getD_resize_nil (n i : Nat) (x d : Int) :
    (resize [] n x).getD i d = if i < n then x else d := by
  simp only [resize, List.take_nil, List.nil_append, List.length_nil, Nat.sub_zero,
    List.getD_eq_getElem?_getD, List.getElem?_replicate]
  split_ifs <;> rfl

theorem length_resize_nil (n : Nat) (x : Int) : (resize [] n x).length = n := by
  simp [resize]

theorem countNeg_append (l₁ l₂ : List Int) : countNeg (l₁ ++ l₂) = countNeg l₁ + countNeg l₂ := by
  simp [countNeg]

theorem countNeg_take_succ (ci : List Int) (i : Nat) (h : i < ci.length) :
    countNeg (ci.take (i + 1))
      = countNeg (ci.take i) + if ci.getD i 0 < 0 then 1 else 0 := by
  rw [List.take_succ, countNeg_append]
  simp only [List.getD_eq_getElem?_getD, List.getElem?_eq_getElem h, Option.toList,
    Option.getD_some]
  by_cases hv : ci[i] < 0 <;> simp [countNeg, hv]

theorem countNeg_take_run (ci : List Int) (c e : Nat) (hce : c ≤ e) (he : e ≤ ci.length)
    (hrun : ∀ i, c ≤ i → i < e → 0 ≤ ci.getD i 0) :
    countNeg (ci.take e) = countNeg (ci.take c) := by
  induction e with
  | zero => simp at hce; subst hce; rfl
  | succ e ih =>
    rcases Nat.eq_or_lt_of_le hce with h | h
    · rw [h]
    · have h1 : c ≤ e := by omega
      rw [countNeg_take_succ ci e (by omega), ih h1 (by omega)
        (fun i hi hi2 => hrun i hi (by omega))]
      have := hrun e h1 (by omega)
      rw [if_neg (not_lt.mpr this)]; rfl

/-! ## The corners visited by the face scan -/

theorem ScanInv.scanInit (ci : List Int) : ScanInv ci ci 0 0 0 :=
  ⟨rfl, le_refl _, fun i _ h => absurd h (Nat.not_lt_zero i), Or.inl rfl, by simp [countNeg]⟩

theorem ScanInv.head {ci : List Int} {v : Int} {rest : List Int} {iF iC0 iC1 : Nat}
    (h : ScanInv ci (v :: rest) iF iC0 iC1) :
    iC1 < ci.length ∧ ci.getD iC1 0 = v ∧ ci.drop (iC1 + 1) = rest := by
  have hlt : iC1 < ci.length := by
    by_contra hc
    have := h.drop
    rw [List.drop_eq_nil_of_le (not_lt.mp hc)] at this
    exact List.noConfusion this
  have hd := h.drop
  rw [List.drop_eq_getElem_cons hlt] at hd
  injection hd with h1 h2
  refine ⟨hlt, ?_, h2⟩
  simp [List.getElem?_eq_getElem hlt, h1]

theorem ScanInv.skip {ci : List Int} {v : Int} {rest : List Int} {iF iC0 iC1 : Nat}
    (h : ScanInv ci (v :: rest) iF iC0 iC1) (hv : v ≥ 0) :
    ScanInv ci rest iF iC0 (iC1 + 1) := by
  obtain ⟨hlt, hget, hdrop⟩ := h.head
  refine ⟨hdrop, Nat.le_succ_of_le h.le, ?_, h.start, ?_⟩
  · intro i hi hi2
    rcases Nat.eq_or_lt_of_le (Nat.lt_succ_iff.mp hi2) with e | e
    · rw [e, hget]; exact hv
    · exact h.run i hi e
  · rw [countNeg_take_succ ci iC1 hlt, hget, ← h.face]
    simp [not_lt.mpr hv]

theorem ScanInv.close {ci : List Int} {v : Int} {rest : List Int} {iF iC0 iC1 : Nat}
    (h : ScanInv ci (v :: rest) iF iC0 iC1) (hv : ¬ v ≥ 0) :
    ScanInv ci rest (iF + 1) (iC1 + 1) (iC1 + 1) := by
  obtain ⟨hlt, hget, hdrop⟩ := h.head
  refine ⟨hdrop, le_refl _, fun i hi hi2 => absurd hi2 (by omega), Or.inr ⟨by omega, ?_⟩, ?_⟩
  · simp only [Nat.add_sub_cancel]; rw [hget]; exact not_le.mp hv
  · rw [countNeg_take_succ ci iC1 hlt, hget, ← h.face]
    simp [not_le.mp hv]

theorem visits_faceCorner (ci l : List Int) (iF iC0 iC1 : Nat)
    (h : ScanInv ci l iF iC0 iC1) (x : Nat × Nat × Nat) (hx : x ∈ visits l iF iC0 iC1) :
    FaceCorner ci x.1 x.2.1 x.2.2 := by
  induction l generalizing iF iC0 iC1 with
  | nil => simp [visits] at hx
  | cons v rest ih =>
    obtain ⟨hlt, hget, _⟩ := h.head
    simp only [visits] at hx
    split_ifs at hx with hv
    · exact ih _ _ _ (h.skip hv) hx
    · rcases List.mem_append.mp hx with hx | hx
      · obtain ⟨c, hc, rfl⟩ := List.mem_map.mp hx
        rw [List.mem_range'_1] at hc
        have hle := h.le
        have hc1 : c < iC1 := by omega
        refine ⟨hc.1, h.start, ⟨iC1, hc1, hlt, ?_, h.run⟩, ?_⟩
        · rw [hget]; exact not_le.mp hv
        · show iF = countNeg (ci.take c)
          rw [h.face]
          exact countNeg_take_run ci c iC1 (by omega) (le_of_lt hlt)
            (fun i hi hi2 => h.run i (by omega) hi2)
      · exact ih _ _ _ (h.close hv) hx

theorem visits_ge (l : List Int) (iF iC0 iC1 : Nat) (hle : iC0 ≤ iC1)
    (x : Nat × Nat × Nat) (hx : x ∈ visits l iF iC0 iC1) : iC0 ≤ x.2.2 := by
  induction l generalizing iF iC0 iC1 with
  | nil => simp [visits] at hx
  | cons v rest ih =>
    simp only [visits] at hx
    split_ifs at hx with hv
    · exact ih _ _ _ (by omega) hx
    · rcases List.mem_append.mp hx with hx | hx
      · obtain ⟨c, hc, rfl⟩ := List.mem_map.mp hx
        rw [List.mem_range'_1] at hc
        exact hc.1
      · have := ih _ _ _ (le_refl _) hx
        omega

theorem visits_sorted (l : List Int) (iF iC0 iC1 : Nat) (hle : iC0 ≤ iC1) :
    (visits l iF iC0 iC1).Pairwise (fun x y => x.2.2 < y.2.2) := by
  induction l generalizing iF iC0 iC1 with
  | nil => simp [visits]
  | cons v rest ih =>
    simp only [visits]
    split_ifs with hv
    · exact ih _ _ _ (by omega)
    · rw [List.pairwise_append]
      refine ⟨?_, ih _ _ _ (le_refl _), ?_⟩
      · rw [List.pairwise_map]
        exact (List.pairwise_lt_range' iC0 (iC1 - iC0)).imp (fun h => h)
      · intro x hx y hy
        obtain ⟨c, hc, rfl⟩ := List.mem_map.mp hx
        rw [List.mem_range'_1] at hc
        have := visits_ge _ _ _ _ (le_refl _) y hy
        show c < y.2.2
        omega

theorem visits_complete (ci l : List Int) (iF iC0 iC1 : Nat)
    (h : ScanInv ci l iF iC0 iC1) (c : Nat) (hc0 : iC0 ≤ c) (hc : 0 ≤ ci.getD c 0)
    (hclose : ∃ e, c < e ∧ e < ci.length ∧ ci.getD e 0 < 0) :
    ∃ f a, (f, a, c) ∈ visits l iF iC0 iC1 := by
  induction l generalizing iF iC0 iC1 with
  | nil =>
    exfalso
    obtain ⟨e, hce, he, hneg⟩ := hclose
    have hd := h.drop
    have hlen : ci.length ≤ iC1 := by
      have := congrArg List.length hd
      simp at this; omega
    have := h.run e (by omega) (by omega)
    omega
  | cons v rest ih =>
    obtain ⟨hlt, hget, _⟩ := h.head
    simp only [visits]
    split_ifs with hv
    · exact ih _ _ _ (h.skip hv) hc0
    · rcases Nat.lt_trichotomy c iC1 with h1 | h1 | h1
      · refine ⟨iF, iC0, List.mem_append.mpr (Or.inl ?_)⟩
        exact List.mem_map.mpr ⟨c, by rw [List.mem_range'_1]; omega, rfl⟩
      · exfalso; rw [h1, hget] at hc; exact hv hc
      · obtain ⟨f, a, hfa⟩ := ih _ _ _ (h.close hv) (by omega)
        exact ⟨f, a, List.mem_append.mpr (Or.inr hfa)⟩

/-! ## The `_face` array -/

theorem register_face (ci : List Int) (vs : List (Nat × Nat × Nat)) (s : RegState) :
    (vs.foldl (fun s x => registerCorner ci x.1 x.2.1 x.2.2 s) s).face
      = vs.foldl (fun fa x => fa.set x.2.2 (x.1 : Int)) s.face := by
  induction vs generalizing s with
  | nil => rfl
  | cons x rest ih => simp only [List.foldl_cons]; rw [ih]; rfl

theorem setAll_length (vs : List (Nat × Nat × Nat)) (fa : List Int) :
    (vs.foldl (fun fa x => fa.set x.2.2 (x.1 : Int)) fa).length = fa.length := by
  induction vs generalizing fa with
  | nil => rfl
  | cons x rest ih => simp only [List.foldl_cons]; rw [ih, List.length_set]

theorem setAll_getD_of_not_mem (vs : List (Nat × Nat × Nat)) (fa : List Int) (c : Nat) (d : Int)
    (h : ∀ x ∈ vs, x.2.2 ≠ c) :
    (vs.foldl (fun fa x => fa.set x.2.2 (x.1 : Int)) fa).getD c d = fa.getD c d := by
  induction vs generalizing fa with
  | nil => rfl
  | cons x rest ih =>
    simp only [List.foldl_cons]
    rw [ih _ (fun y hy => h y (List.mem_cons_of_mem _ hy)), getD_set_eq,
      if_neg (fun hh => h x (List.mem_cons_self _ _) hh.1)]

theorem setAll_getD_of_mem (vs : List (Nat × Nat × Nat)) (fa : List Int) (d : Int)
    (hp : vs.Pairwise (fun x y => x.2.2 < y.2.2)) (x : Nat × Nat × Nat) (hx : x ∈ vs)
    (hlt : x.2.2 < fa.length) :
    (vs.foldl (fun fa x => fa.set x.2.2 (x.1 : Int)) fa).getD x.2.2 d = (x.1 : Int) := by
  induction vs generalizing fa with
  | nil => simp at hx
  | cons y rest ih =>
    simp only [List.foldl_cons]
    rw [List.pairwise_cons] at hp
    rcases List.mem_cons.mp hx with rfl | hx
    · rw [setAll_getD_of_not_mem _ _ _ _ (fun z hz => (Nat.ne_of_lt (hp.1 z hz)).symm),
        getD_set_eq, if_pos ⟨rfl, hlt⟩]
    · exact ih _ hp.2 hx (by rw [List.length_set]; exact hlt)

/-! ## Unfolding the constructor -/

theorem firstViolation_none (nV : Int) (l : List Int) (iC : Nat) :
    firstViolation nV l iC = none ↔ ∀ v ∈ l, -1 ≤ v ∧ v < nV := by
  induction l generalizing iC with
  | nil => simp [firstViolation]
  | cons v rest ih =>
    simp only [firstViolation, List.mem_cons, forall_eq_or_imp]
    split_ifs with hv
    · constructor
      · intro h; exact absurd h (by simp)
      · intro h; omega
    · rw [ih]
      constructor
      · intro h; exact ⟨by omega, h⟩
      · intro h; exact h.2

theorem mkHalfEdges_ok {nV : Int} {ci : List Int} {h : HalfEdges}
    (hok : mkHalfEdges nV ci = .ok h) :
    firstViolation nV ci 0 = none ∧ h = assemble nV ci := by
  unfold mkHalfEdges at hok
  split at hok
  · exact Except.noConfusion hok
  · rename_i hv
    refine ⟨hv, ?_⟩
    split_ifs at hok
    injection hok with hok
    exact hok.symm

theorem wrapInt_add_one_neg (nV : Int) (hlo : -2147483648 ≤ nV) (hhi : nV ≤ 2147483647) :
    wrapInt (nV + 1) < 0 ↔ (nV < -1 ∨ nV = 2147483647) := by
  unfold wrapInt
  omega

theorem mkHalfEdges_of_valid {nV : Int} {ci : List Int}
    (hv : ∀ v ∈ ci, -1 ≤ v ∧ v < nV) (hn : -1 ≤ nV) (hmax : nV < 2147483647) :
    mkHalfEdges nV ci = .ok (assemble nV ci) := by
  have := (firstViolation_none nV ci 0).mpr hv
  have hw : ¬ wrapInt (nV + 1) < 0 := by
    rw [wrapInt_add_one_neg nV (by omega) (by omega)]
    omega
  unfold mkHalfEdges
  rw [this]
  simp only []
  rw [if_neg hw]

theorem mkHalfEdges_valid {nV : Int} {ci : List Int} {h : HalfEdges}
    (hok : mkHalfEdges nV ci = .ok h) (c : Nat) (hc : c < ci.length) :
    -1 ≤ ci.getD c 0 ∧ ci.getD c 0 < nV := by
  have hv := (firstViolation_none nV ci 0).mp (mkHalfEdges_ok hok).1
  rw [List.getD_eq_getElem _ _ hc]
  exact hv _ (List.getElem_mem hc)

theorem assemble_coordIndex (nV : Int) (ci : List Int) : (assemble nV ci).coordIndex = ci := rfl

theorem assemble_face_length (nV : Int) (ci : List Int) :
    (assemble nV ci).face.length = ci.length := by
  show (regFinal nV ci).2.face.length = _
  unfold regFinal
  rw [faceLoop_snd, register_face, setAll_length]
  exact length_resize_nil _ _

theorem assemble_face_closed (nV : Int) (ci : List Int) (c : Nat) (hc : ClosedCorner ci c) :
    (assemble nV ci).face.getD c 0 = (countNeg (ci.take c) : Int) := by
  show (regFinal nV ci).2.face.getD c 0 = _
  unfold regFinal
  rw [faceLoop_snd, register_face]
  show (List.foldl _ (resize [] ci.length (-1)) _).getD c 0 = _
  obtain ⟨f, a, hfa⟩ := visits_complete ci ci 0 0 0 (ScanInv.scanInit ci) c (Nat.zero_le _) hc.1 hc.2
  have hfc := visits_faceCorner ci ci 0 0 0 (ScanInv.scanInit ci) _ hfa
  obtain ⟨e, hce, he, _, _⟩ := hfc.close
  have := setAll_getD_of_mem _ (resize [] ci.length (-1)) 0
    (visits_sorted ci 0 0 0 (le_refl _)) _ hfa
    (by rw [length_resize_nil]; exact lt_trans hce he)
  rw [this, hfc.face]

theorem assemble_face_open (nV : Int) (ci : List Int) (c : Nat) (hlt : c < ci.length)
    (hc : ¬ ClosedCorner ci c) :
    (assemble nV ci).face.getD c 0 = -1 := by
  show (regFinal nV ci).2.face.getD c 0 = _
  unfold regFinal
  rw [faceLoop_snd, register_face, setAll_getD_of_not_mem]
  show (resize [] ci.length (-1)).getD c 0 = _
  rw [getD_resize_nil, if_pos hlt]
  intro x hx hxc
  have hfc := visits_faceCorner ci ci 0 0 0 (ScanInv.scanInit ci) _ hx
  apply hc
  obtain ⟨e, hce, he, hneg, hrun⟩ := hfc.close
  rw [hxc] at hce
  exact ⟨by rw [← hxc]; exact hrun _ hfc.le (by rw [hxc]; exact hce), e, hce, he, hneg⟩

/-! ## The scans of the queries -/

theorem getElem?_eq_some_getD (l : List Int) (i : Nat) (d : Int) (h : i < l.length) :
    l[i]? = some (l.getD i d) := by
  simp [List.getElem?_eq_getElem h]

theorem rd_natCast (v : List Int) (n : Nat) (h : n < v.length) :
    rd v (n : Int) = some (v.getD n 0) := by
  unfold rd
  rw [if_neg (by omega), Int.toNat_ofNat, getElem?_eq_some_getD v n 0 h]

theorem scanBackward_stop (face : List Int) (c : Nat) (hc : c < face.length)
    (h : face.getD c 0 = -1) : scanBackward face c = some (c : Int) := by
  cases c with
  | zero =>
    unfold scanBackward
    rw [getElem?_eq_some_getD face 0 0 hc, Option.some_bind, if_neg (fun hn => hn h)]
    rfl
  | succ n =>
    unfold scanBackward
    rw [getElem?_eq_some_getD face (n + 1) 0 hc, Option.some_bind, if_neg (fun hn => hn h)]
    rfl

theorem scanBackward_run (face : List Int) (s c : Nat) (hs : s ≤ c) (hc : c < face.length)
    (hrun : ∀ i, s ≤ i → i ≤ c → face.getD i 0 ≠ -1)
    (hstart : s = 0 ∨ (1 ≤ s ∧ face.getD (s - 1) 0 = -1)) :
    scanBackward face c = some ((s : Int) - 1) := by
  induction c with
  | zero =>
    have : s = 0 := by omega
    subst this
    have := hrun 0 (le_refl _) (le_refl _)
    unfold scanBackward
    rw [getElem?_eq_some_getD face 0 0 hc, Option.some_bind, if_pos this]
    rfl
  | succ n ih =>
    have h1 := hrun (n + 1) hs (le_refl _)
    unfold scanBackward
    rw [getElem?_eq_some_getD face (n + 1) 0 hc, Option.some_bind, if_pos h1]
    rcases Nat.eq_or_lt_of_le hs with e | e
    · subst e
      rcases hstart with h0 | ⟨_, h0⟩
      · omega
      · simp only [Nat.add_sub_cancel] at h0
        rw [scanBackward_stop face n (by omega) h0]
        congr 1
        push_cast
        omega
    · exact ih (by omega) (by omega) (fun i hi hi2 => hrun i hi (by omega))

theorem scanBackward_isSome (face : List Int) (c : Nat) (hc : c < face.length) :
    (scanBackward face c).isSome = true := by
  induction c with
  | zero =>
    simp only [scanBackward, getElem?_eq_some_getD face 0 0 hc, Option.some_bind]
    split_ifs <;> rfl
  | succ n ih =>
    simp only [scanBackward, getElem?_eq_some_getD face (n + 1) 0 hc, Option.some_bind]
    split_ifs
    · exact ih (by omega)
    · rfl

theorem scanForward_run (face : List Int) (size fuel c e : Nat) (hce : c ≤ e)
    (he : e < face.length) (hes : e < size) (hstop : face.getD e 0 = -1)
    (hrun : ∀ i, c ≤ i → i < e → face.getD i 0 ≠ -1) (hfuel : e - c < fuel) :
    scanForward face size fuel c = some (e : Int) := by
  induction fuel generalizing c with
  | zero => omega
  | succ n ih =>
    simp only [scanForward, if_pos (lt_of_le_of_lt hce hes),
      getElem?_eq_some_getD face c 0 (lt_of_le_of_lt hce he), Option.some_bind]
    rcases Nat.eq_or_lt_of_le hce with h | h
    · subst h; rw [if_neg (fun hn => hn hstop)]
    · rw [if_pos (hrun c (le_refl _) h)]
      exact ih (c + 1) (by omega) (fun i hi hi2 => hrun i (by omega) hi2) (by omega)

theorem scanForward_isSome (face : List Int) (size fuel c : Nat) (hsz : size ≤ face.length) :
    (scanForward face size fuel c).isSome = true := by
  induction fuel generalizing c with
  | zero => rfl
  | succ n ih =>
    simp only [scanForward]
    split_ifs with h
    · simp only [getElem?_eq_some_getD face c 0 (lt_of_lt_of_le h hsz), Option.some_bind]
      split_ifs
      · exact ih _
      · rfl
    · rfl

/-! ## The `_face` array over a face -/

theorem FaceRange.closed {ci : List Int} {s l : Nat} (hr : FaceRange ci s l) (i : Nat)
    (h1 : s ≤ i) (h2 : i ≤ l) : ClosedCorner ci i :=
  ⟨hr.nonneg i h1 h2, l + 1, by omega, hr.lt, hr.stop⟩

theorem FaceRange.face_eq {ci : List Int} {s l : Nat} (hr : FaceRange ci s l) (nV : Int)
    (i : Nat) (h1 : s ≤ i) (h2 : i ≤ l) :
    (assemble nV ci).face.getD i 0 = (countNeg (ci.take s) : Int) := by
  rw [assemble_face_closed nV ci i (hr.closed i h1 h2),
    countNeg_take_run ci s i h1 (by have := hr.lt; omega)
      (fun j hj hj2 => hr.nonneg j hj (by omega))]

theorem FaceRange.face_ne {ci : List Int} {s l : Nat} (hr : FaceRange ci s l) (nV : Int)
    (i : Nat) (h1 : s ≤ i) (h2 : i ≤ l) : (assemble nV ci).face.getD i 0 ≠ -1 := by
  rw [hr.face_eq nV i h1 h2]; omega

theorem FaceRange.face_stop {ci : List Int} {s l : Nat} (hr : FaceRange ci s l) (nV : Int) :
    (assemble nV ci).face.getD (l + 1) 0 = -1 :=
  assemble_face_open nV ci (l + 1) hr.lt (fun h => absurd h.1 (not_le.mpr hr.stop))

theorem FaceRange.face_start {ci : List Int} {s l : Nat} (hr : FaceRange ci s l) (nV : Int) :
    s = 0 ∨ (1 ≤ s ∧ (assemble nV ci).face.getD (s - 1) 0 = -1) := by
  rcases hr.start with h | ⟨h1, h2⟩
  · exact Or.inl h
  · exact Or.inr ⟨h1, assemble_face_open nV ci (s - 1) (by have := hr.lt; have := hr.le; omega)
      (fun h => absurd h.1 (not_le.mpr h2))⟩

theorem closedCorner_faceRange {ci : List Int} {c : Nat} (hc : ClosedCorner ci c) :
    ∃ s l, FaceRange ci s l ∧ s ≤ c ∧ c ≤ l := by
  obtain ⟨f, a, hfa⟩ := visits_complete ci ci 0 0 0 (ScanInv.scanInit ci) c (Nat.zero_le _) hc.1 hc.2
  have hfc := visits_faceCorner ci ci 0 0 0 (ScanInv.scanInit ci) _ hfa
  obtain ⟨e, hce, he, hneg, hrun⟩ := hfc.close
  have hle : a ≤ c := hfc.le
  have hce' : c < e := hce
  refine ⟨a, e - 1, ⟨by omega, by omega, fun i hi hi2 => hrun i hi (by omega), hfc.start, ?_⟩,
    hle, by omega⟩
  have : e - 1 + 1 = e := by omega
  rw [this]; exact hneg

theorem sentinelTerminated_closed {ci : List Int} (hst : SentinelTerminated ci) (c : Nat)
    (hlt : c < ci.length) (hc : 0 ≤ ci.getD c 0) : ClosedCorner ci c := by
  rcases hst with h | h
  · subst h; simp at hlt
  · rw [List.getLast?_eq_getElem?] at h
    have hlast : ci.getD (ci.length - 1) 0 = -1 := by simp [h]
    refine ⟨hc, ci.length - 1, ?_, by omega, by rw [hlast]; decide⟩
    by_contra hh
    have : c = ci.length - 1 := by omega
    rw [this, hlast] at hc
    exact absurd hc (by decide)

/-! ## The corner queries over a face -/

theorem getSrc_natCast (nV : Int) (ci : List Int) (c : Nat) (hc : c < ci.length) :
    (assemble nV ci).getSrc (c : Int) = some (ci.getD c 0) := by
  unfold getSrc getNumberOfCorners
  rw [assemble_coordIndex, if_neg (by omega), rd_natCast ci c hc]

theorem getFace_natCast (nV : Int) (ci : List Int) (c : Nat) (hc : c < ci.length) :
    (assemble nV ci).getFace (c : Int) = some ((assemble nV ci).face.getD c 0) := by
  unfold getFace getNumberOfCorners
  rw [assemble_coordIndex, if_neg (by omega),
    rd_natCast _ c (by rw [assemble_face_length]; exact hc)]

theorem FaceRange.getNext_eq {ci : List Int} {s l : Nat} (hr : FaceRange ci s l) (nV : Int)
    (c : Nat) (h1 : s ≤ c) (h2 : c ≤ l) :
    (assemble nV ci).getNext (c : Int) = some (if c < l then (c : Int) + 1 else (s : Int)) := by
  have hlt := hr.lt
  have hcast : ((c : Int) + 1) = ((c + 1 : Nat) : Int) := by push_cast; rfl
  unfold getNext getNumberOfCorners
  rw [assemble_coordIndex, if_neg (by omega), hcast,
    rd_natCast _ (c + 1) (by rw [assemble_face_length]; omega), Option.some_bind]
  by_cases hcl : c < l
  · rw [if_pos (hr.face_ne nV (c + 1) (by omega) (by omega)), if_pos hcl]
  · have hcl' : c = l := by omega
    subst hcl'
    rw [if_neg (fun hn => hn (hr.face_stop nV)), if_neg hcl, Int.toNat_ofNat,
      scanBackward_run _ s c h1 (by rw [assemble_face_length]; omega)
        (fun i hi hi2 => hr.face_ne nV i hi hi2) (hr.face_start nV), Option.some_bind]
    congr 1
    omega

theorem FaceRange.getPrev_eq {ci : List Int} {s l : Nat} (hr : FaceRange ci s l) (nV : Int)
    (c : Nat) (h1 : s ≤ c) (h2 : c ≤ l) :
    (assemble nV ci).getPrev (c : Int) = some (if s < c then (c : Int) - 1 else (l : Int)) := by
  have hlt := hr.lt
  have hfwd : s = c →
      (scanForward (assemble nV ci).face ci.length (ci.length - c) c).bind
        (fun iC1 => some (iC1 - 1)) = some (l : Int) := by
    intro hsc
    subst hsc
    rw [scanForward_run _ ci.length (ci.length - s) s (l + 1) (by omega)
      (by rw [assemble_face_length]; omega) hlt (hr.face_stop nV)
      (fun i hi hi2 => hr.face_ne nV i hi (by omega)) (by omega), Option.some_bind]
    congr 1
    push_cast
    omega
  unfold getPrev getNumberOfCorners
  rw [assemble_coordIndex, if_neg (by omega), Int.toNat_ofNat]
  by_cases hc0 : (c : Int) > 0
  · rw [if_pos hc0]
    have hcast : ((c : Int) - 1) = ((c - 1 : Nat) : Int) := by omega
    rw [hcast, rd_natCast _ (c - 1) (by rw [assemble_face_length]; omega), Option.some_bind]
    by_cases hsc : s < c
    · rw [if_pos (hr.face_ne nV (c - 1) (by omega) (by omega)), if_pos hsc]
    · have hsc' : s = c := by omega
      rw [if_neg hsc]
      rcases hr.face_start nV with h0 | ⟨_, h0⟩
      · omega
      · rw [hsc'] at h0
        rw [if_neg (fun hn => hn h0)]
        exact hfwd hsc'
  · rw [if_neg hc0, if_neg (by omega)]
    exact hfwd (by omega)

theorem FaceRange.getDst_eq {ci : List Int} {s l : Nat} (hr : FaceRange ci s l) (nV : Int)
    (hv : ∀ v ∈ ci, -1 ≤ v ∧ v < nV) (c : Nat) (h1 : s ≤ c) (h2 : c ≤ l) :
    (assemble nV ci).getDst (c : Int)
      = some (if c < l then ci.getD (c + 1) 0 else ci.getD s 0) := by
  have hlt := hr.lt
  have hcast : ((c : Int) + 1) = ((c + 1 : Nat) : Int) := by push_cast; rfl
  unfold getDst getNumberOfCorners
  rw [assemble_coordIndex, if_neg (by omega), if_pos (by omega), hcast,
    rd_natCast _ (c + 1) (by omega), Option.some_bind]
  by_cases hcl : c < l
  · have := hr.nonneg (c + 1) (by omega) (by omega)
    rw [if_pos (by omega), if_pos hcl]
  · have hcl' : c = l := by omega
    subst hcl'
    have hstop := hr.stop
    have hge : -1 ≤ ci.getD (c + 1) 0 := by
      rw [List.getD_eq_getElem _ _ hlt]
      exact (hv _ (List.getElem_mem hlt)).1
    rw [if_neg (by omega), if_neg hcl, Int.toNat_ofNat,
      scanBackward_run _ s c h1 (by rw [assemble_face_length]; omega)
        (fun i hi hi2 => hr.face_ne nV i hi hi2) (hr.face_start nV), Option.some_bind]
    have hcast2 : ((s : Int) - 1 + 1) = (s : Int) := by omega
    rw [hcast2, rd_natCast _ s (by omega)]

theorem cornerDst_eq {ci : List Int} {s l : Nat} (hr : FaceRange ci s l) (nV : Int)
    (hv : ∀ v ∈ ci, -1 ≤ v ∧ v < nV) (c : Nat) (h1 : s ≤ c) (h2 : c ≤ l) :
    cornerDst ci s c = if c < l then ci.getD (c + 1) 0 else ci.getD s 0 := by
  have hlt := hr.lt
  unfold cornerDst
  by_cases hcl : c < l
  · have := hr.nonneg (c + 1) (by omega) (by omega)
    simp only []
    rw [if_neg (by omega), if_pos hcl]
  · have hcl' : c = l := by omega
    subst hcl'
    have hstop := hr.stop
    have hge : -1 ≤ ci.getD (c + 1) 0 := by
      rw [List.getD_eq_getElem _ _ hlt]
      exact (hv _ (List.getElem_mem hlt)).1
    simp only []
    rw [if_pos (by omega), if_neg hcl]

theorem iterNext_eq {ci : List Int} {s l : Nat} (hr : FaceRange ci s l) (nV : Int)
    (j c : Nat) (h1 : s ≤ c) (h2 : c ≤ l) :
    iterNext (assemble nV ci) j (c : Int)
      = some ((s + (c - s + j) % (l - s + 1) : Nat) : Int) := by
  induction j generalizing c with
  | zero =>
    rw [Nat.add_zero, Nat.mod_eq_of_lt (by omega)]
    have : s + (c - s) = c := by omega
    rw [this]; rfl
  | succ j ih =>
    unfold iterNext
    rw [hr.getNext_eq nV c h1 h2, Option.some_bind]
    by_cases hcl : c < l
    · rw [if_pos hcl]
      have hcast : ((c : Int) + 1) = ((c + 1 : Nat) : Int) := by push_cast; rfl
      rw [hcast, ih (c + 1) (by omega) (by omega)]
      have : c + 1 - s + j = c - s + (j + 1) := by omega
      rw [this]
    · rw [if_neg hcl, ih s (le_refl _) hr.le]
      have hcl' : c = l := by omega
      have e1 : s - s + j = j := by omega
      have e2 : c - s + (j + 1) = (l - s + 1) + j := by omega
      rw [e1, e2, Nat.add_mod_left]

/-! ## Loop closure and inverse laws of `getNext` and `getPrev` -/

/-- C7: over a face occupying the corners `s..l` (vertices at `s..l`, the
separator at `l + 1`), `getNext c` is `c + 1` below `l` and `s` at `l`,
`getPrev c` is `c - 1` above `s` and `l` at `s`, and both results have the
face of `c`, which is a valid face index. -/
theorem getNext_getPrev_within_face (nV : Int) (ci : List Int) (h : HalfEdges)
    (hok : mkHalfEdges nV ci = .ok h) (s l c : Nat) (hr : FaceRange ci s l)
    (h1 : s ≤ c) (h2 : c ≤ l) :
    h.getNext (c : Int) = some (if c < l then (c : Int) + 1 else (s : Int))
      ∧ h.getPrev (c : Int) = some (if s < c then (c : Int) - 1 else (l : Int))
      ∧ ∃ f : Int, 0 ≤ f ∧ h.getFace (c : Int) = some f
          ∧ (h.getNext (c : Int)).bind h.getFace = some f
          ∧ (h.getPrev (c : Int)).bind h.getFace = some f := by
  obtain ⟨_, rfl⟩ := mkHalfEdges_ok hok
  have hlt := hr.lt
  have hface : ∀ i : Nat, s ≤ i → i ≤ l →
      (assemble nV ci).getFace (i : Int) = some (countNeg (ci.take s) : Int) := by
    intro i hi hi2
    rw [getFace_natCast nV ci i (by omega), hr.face_eq nV i hi hi2]
  refine ⟨hr.getNext_eq nV c h1 h2, hr.getPrev_eq nV c h1 h2, (countNeg (ci.take s) : Int),
    Int.natCast_nonneg _, hface c h1 h2, ?_, ?_⟩
  · rw [hr.getNext_eq nV c h1 h2, Option.some_bind]
    by_cases hcl : c < l
    · rw [if_pos hcl]
      have hcast : ((c : Int) + 1) = ((c + 1 : Nat) : Int) := by push_cast; rfl
      rw [hcast]; exact hface (c + 1) (by omega) (by omega)
    · rw [if_neg hcl]; exact hface s (le_refl _) hr.le
  · rw [hr.getPrev_eq nV c h1 h2, Option.some_bind]
    by_cases hsc : s < c
    · rw [if_pos hsc]
      have hcast : ((c : Int) - 1) = ((c - 1 : Nat) : Int) := by omega
      rw [hcast]; exact hface (c - 1) (by omega) (by omega)
    · rw [if_neg hsc]; exact hface l hr.le (le_refl _)

theorem getNext_getPrev_within_face_witness :
    (assemble 4 [0, 1, 2, -1, 0, 2, 3, -1]).getNext ((6 : Nat) : Int)
        = some (if 6 < 6 then ((6 : Nat) : Int) + 1 else ((4 : Nat) : Int))
      ∧ (assemble 4 [0, 1, 2, -1, 0, 2, 3, -1]).getPrev ((6 : Nat) : Int)
        = some (if 4 < 6 then ((6 : Nat) : Int) - 1 else ((6 : Nat) : Int))
      ∧ ∃ f : Int, 0 ≤ f ∧ (assemble 4 [0, 1, 2, -1, 0, 2, 3, -1]).getFace ((6 : Nat) : Int) = some f
          ∧ ((assemble 4 [0, 1, 2, -1, 0, 2, 3, -1]).getNext ((6 : Nat) : Int)).bind
              (assemble 4 [0, 1, 2, -1, 0, 2, 3, -1]).getFace = some f
          ∧ ((assemble 4 [0, 1, 2, -1, 0, 2, 3, -1]).getPrev ((6 : Nat) : Int)).bind
              (assemble 4 [0, 1, 2, -1, 0, 2, 3, -1]).getFace = some f :=
  getNext_getPrev_within_face 4 [0, 1, 2, -1, 0, 2, 3, -1] _
    (mkHalfEdges_of_valid (by decide) (by decide) (by decide)) 4 6 6
    ⟨by decide, by decide, fun i h1 h2 => by interval_cases i <;> decide,
      Or.inr ⟨by decide, by decide⟩, by decide⟩
    (by decide) (by decide)

/-- C6: over a face of `k = l - s + 1` corners `s..l`, applying `getNext` `k`
times to a corner of the face returns that corner, and applying it `j` times
with `0 < j < k` never does. -/
theorem getNext_loop_closure (nV : Int) (ci : List Int) (h : HalfEdges)
    (hok : mkHalfEdges nV ci = .ok h) (s l c : Nat) (hr : FaceRange ci s l)
    (h1 : s ≤ c) (h2 : c ≤ l) :
    iterNext h (l - s + 1) (c : Int) = some (c : Int)
      ∧ ∀ j, 0 < j → j < l - s + 1 → iterNext h j (c : Int) ≠ some (c : Int) := by
  obtain ⟨_, rfl⟩ := mkHalfEdges_ok hok
  constructor
  · rw [iterNext_eq hr nV _ c h1 h2, Nat.add_mod_right, Nat.mod_eq_of_lt (by omega)]
    have : s + (c - s) = c := by omega
    rw [this]
  · intro j hj0 hjk heq
    rw [iterNext_eq hr nV j c h1 h2] at heq
    injection heq with heq
    have heq' : s + (c - s + j) % (l - s + 1) = c := by exact_mod_cast heq
    by_cases hlt : c - s + j < l - s + 1
    · rw [Nat.mod_eq_of_lt hlt] at heq'
      omega
    · rw [Nat.mod_eq_sub_mod (not_lt.mp hlt), Nat.mod_eq_of_lt (by omega)] at heq'
      omega

theorem getNext_loop_closure_witness :
    iterNext (assemble 4 [0, 1, 2, -1, 0, 2, 3, -1]) (6 - 4 + 1) ((5 : Nat) : Int)
        = some ((5 : Nat) : Int)
      ∧ ∀ j, 0 < j → j < 6 - 4 + 1 →
          iterNext (assemble 4 [0, 1, 2, -1, 0, 2, 3, -1]) j ((5 : Nat) : Int)
            ≠ some ((5 : Nat) : Int) :=
  getNext_loop_closure 4 [0, 1, 2, -1, 0, 2, 3, -1] _
    (mkHalfEdges_of_valid (by decide) (by decide) (by decide)) 4 6 5
    ⟨by decide, by decide, fun i h1 h2 => by interval_cases i <;> decide,
      Or.inr ⟨by decide, by decide⟩, by decide⟩
    (by decide) (by decide)

/-- C5: for a mesh built from a sentinel-terminated corner array (its values
are in `[-1, nVertices)` since the construction succeeded) and every corner
`c` that holds a vertex, `getNext (getPrev c) = c` and `getPrev (getNext c) = c`. -/
theorem getNext_getPrev_inverse (nV : Int) (ci : List Int) (h : HalfEdges)
    (hok : mkHalfEdges nV ci = .ok h) (hst : SentinelTerminated ci)
    (c : Nat) (hc : c < ci.length) (hnn : 0 ≤ ci.getD c 0) :
    (h.getPrev (c : Int)).bind h.getNext = some (c : Int)
      ∧ (h.getNext (c : Int)).bind h.getPrev = some (c : Int) := by
  obtain ⟨_, rfl⟩ := mkHalfEdges_ok hok
  obtain ⟨s, l, hr, h1, h2⟩ := closedCorner_faceRange (sentinelTerminated_closed hst c hc hnn)
  constructor
  · rw [hr.getPrev_eq nV c h1 h2, Option.some_bind]
    by_cases hsc : s < c
    · rw [if_pos hsc]
      have hcast : ((c : Int) - 1) = ((c - 1 : Nat) : Int) := by omega
      rw [hcast, hr.getNext_eq nV (c - 1) (by omega) (by omega), if_pos (by omega)]
      congr 1; omega
    · rw [if_neg hsc, hr.getNext_eq nV l hr.le (le_refl _), if_neg (lt_irrefl _)]
      congr 1; omega
  · rw [hr.getNext_eq nV c h1 h2, Option.some_bind]
    by_cases hcl : c < l
    · rw [if_pos hcl]
      have hcast : ((c : Int) + 1) = ((c + 1 : Nat) : Int) := by push_cast; rfl
      rw [hcast, hr.getPrev_eq nV (c + 1) (by omega) (by omega), if_pos (by omega)]
      congr 1; omega
    · rw [if_neg hcl, hr.getPrev_eq nV s (le_refl _) hr.le, if_neg (lt_irrefl _)]
      congr 1; omega

theorem getNext_getPrev_inverse_witness :
    ((assemble 4 [0, 1, 2, -1, 0, 2, 3, -1]).getPrev ((4 : Nat) : Int)).bind
        (assemble 4 [0, 1, 2, -1, 0, 2, 3, -1]).getNext = some ((4 : Nat) : Int)
      ∧ ((assemble 4 [0, 1, 2, -1, 0, 2, 3, -1]).getNext ((4 : Nat) : Int)).bind
        (assemble 4 [0, 1, 2, -1, 0, 2, 3, -1]).getPrev = some ((4 : Nat) : Int) :=
  getNext_getPrev_inverse 4 [0, 1, 2, -1, 0, 2, 3, -1] _
    (mkHalfEdges_of_valid (by decide) (by decide) (by decide)) (Or.inr (by decide)) 4 (by decide) (by decide)

/-- C8: for a mesh built from a sentinel-terminated corner array and every
corner `c` that holds a vertex, `c` lies in a face `s..l`, `getDst c` is the
vertex of corner `c + 1` below `l` and of the first corner `s` at `l`, and
`getDst c = getSrc (getNext c)`. -/
theorem getDst_eq_getSrc_getNext (nV : Int) (ci : List Int) (h : HalfEdges)
    (hok : mkHalfEdges nV ci = .ok h) (hst : SentinelTerminated ci)
    (c : Nat) (hc : c < ci.length) (hnn : 0 ≤ ci.getD c 0) :
    ∃ s l, FaceRange ci s l ∧ s ≤ c ∧ c ≤ l
      ∧ h.getDst (c : Int) = some (if c < l then ci.getD (c + 1) 0 else ci.getD s 0)
      ∧ h.getDst (c : Int) = (h.getNext (c : Int)).bind h.getSrc := by
  obtain ⟨hfv, rfl⟩ := mkHalfEdges_ok hok
  have hv := (firstViolation_none nV ci 0).mp hfv
  obtain ⟨s, l, hr, h1, h2⟩ := closedCorner_faceRange (sentinelTerminated_closed hst c hc hnn)
  have hlt := hr.lt
  refine ⟨s, l, hr, h1, h2, hr.getDst_eq nV hv c h1 h2, ?_⟩
  rw [hr.getDst_eq nV hv c h1 h2, hr.getNext_eq nV c h1 h2, Option.some_bind]
  by_cases hcl : c < l
  · rw [if_pos hcl, if_pos hcl]
    have hcast : ((c : Int) + 1) = ((c + 1 : Nat) : Int) := by push_cast; rfl
    rw [hcast, getSrc_natCast nV ci (c + 1) (by omega)]
  · rw [if_neg hcl, if_neg hcl, getSrc_natCast nV ci s (by omega)]

theorem getDst_eq_getSrc_getNext_witness :
    ∃ s l, FaceRange [0, 1, 2, -1, 0, 2, 3, -1] s l ∧ s ≤ 6 ∧ 6 ≤ l
      ∧ (assemble 4 [0, 1, 2, -1, 0, 2, 3, -1]).getDst ((6 : Nat) : Int)
        = some (if 6 < l then ([0, 1, 2, -1, 0, 2, 3, -1] : List Int).getD (6 + 1) 0
            else ([0, 1, 2, -1, 0, 2, 3, -1] : List Int).getD s 0)
      ∧ (assemble 4 [0, 1, 2, -1, 0, 2, 3, -1]).getDst ((6 : Nat) : Int)
        = ((assemble 4 [0, 1, 2, -1, 0, 2, 3, -1]).getNext ((6 : Nat) : Int)).bind
            (assemble 4 [0, 1, 2, -1, 0, 2, 3, -1]).getSrc :=
  getDst_eq_getSrc_getNext 4 [0, 1, 2, -1, 0, 2, 3, -1] _
    (mkHalfEdges_of_valid (by decide) (by decide) (by decide)) (Or.inr (by decide)) 6 (by decide) (by decide)

/-! ## Evaluations of the queries on small meshes -/

set_option maxRecDepth 16384

/-- C9: on the two triangles `[0,1,2,-1, 0,1,3,-1]` corner 3 is a face
separator, `getSrc 3` is `-1`, but `getDst 3` is vertex `0` (the value of the
corner after the separator) and not `-1`; at the last separator, corner 7,
`getDst` reads `_coordIndex[8]`, outside the array. -/
theorem getDst_of_separator :
    mkHalfEdges 4 [0, 1, 2, -1, 0, 1, 3, -1] = .ok (assemble 4 [0, 1, 2, -1, 0, 1, 3, -1])
      ∧ (assemble 4 [0, 1, 2, -1, 0, 1, 3, -1]).coordIndex.getD 3 0 = -1
      ∧ (assemble 4 [0, 1, 2, -1, 0, 1, 3, -1]).getSrc 3 = some (-1)
      ∧ (assemble 4 [0, 1, 2, -1, 0, 1, 3, -1]).getDst 3 = some 0
      ∧ (assemble 4 [0, 1, 2, -1, 0, 1, 3, -1]).getDst 7 = none :=
  ⟨mkHalfEdges_of_valid (by decide) (by decide) (by decide), by decide, by decide, by decide, by decide⟩

/-- C10: on the single triangle `[0,1,2,-1]` (four corners) the queries
`getNext 3` and `getDst 3` index `_face[4]` and `_coordIndex[4]`, outside
the arrays, while `getFace`, `getSrc`, `getPrev` and `getTwin` return. -/
theorem getNext_getDst_last_corner :
    mkHalfEdges 3 [0, 1, 2, -1] = .ok (assemble 3 [0, 1, 2, -1])
      ∧ (assemble 3 [0, 1, 2, -1]).getNumberOfCorners = 4
      ∧ (assemble 3 [0, 1, 2, -1]).face.length = 4
      ∧ (assemble 3 [0, 1, 2, -1]).getNext 3 = none
      ∧ (assemble 3 [0, 1, 2, -1]).getDst 3 = none
      ∧ (assemble 3 [0, 1, 2, -1]).getFace 3 = some (-1)
      ∧ (assemble 3 [0, 1, 2, -1]).getSrc 3 = some (-1)
      ∧ (assemble 3 [0, 1, 2, -1]).getPrev 3 = some 2
      ∧ (assemble 3 [0, 1, 2, -1]).getTwin 3 = some (-1) :=
  ⟨mkHalfEdges_of_valid (by decide) (by decide) (by decide), by decide, by decide, by decide, by decide, by decide,
    by decide, by decide, by decide⟩

/-- C1: on three triangles sharing the edge `{0,1}`,
`[0,1,2,-1, 0,1,3,-1, 0,1,4,-1]`, `getTwin 4 = 0` is valid but
`getTwin (getTwin 4) = getTwin 0 = 8`, not `4`. -/
theorem getTwin_not_involutive :
    mkHalfEdges 5 [0, 1, 2, -1, 0, 1, 3, -1, 0, 1, 4, -1]
        = .ok (assemble 5 [0, 1, 2, -1, 0, 1, 3, -1, 0, 1, 4, -1])
      ∧ (assemble 5 [0, 1, 2, -1, 0, 1, 3, -1, 0, 1, 4, -1]).getTwin 4 = some 0
      ∧ ((assemble 5 [0, 1, 2, -1, 0, 1, 3, -1, 0, 1, 4, -1]).getTwin 4).bind
          (assemble 5 [0, 1, 2, -1, 0, 1, 3, -1, 0, 1, 4, -1]).getTwin = some 8 :=
  ⟨mkHalfEdges_of_valid (by decide) (by decide) (by decide), by decide, by decide⟩

/-- C2: on three triangles sharing the edge `{0,1}`,
`[0,1,2,-1, 0,1,3,-1, 0,1,4,-1]`, edge 0 has the three half-edges 0, 4, 8 and
the third one, corner 8, has `getTwin 8 = 0`, not `-1`. -/
theorem getTwin_third_halfEdge :
    mkHalfEdges 5 [0, 1, 2, -1, 0, 1, 3, -1, 0, 1, 4, -1]
        = .ok (assemble 5 [0, 1, 2, -1, 0, 1, 3, -1, 0, 1, 4, -1])
      ∧ (assemble 5 [0, 1, 2, -1, 0, 1, 3, -1, 0, 1, 4, -1]).getNumberOfEdgeHalfEdges 0 = some 3
      ∧ (assemble 5 [0, 1, 2, -1, 0, 1, 3, -1, 0, 1, 4, -1]).getEdgeHalfEdge 0 0 = some 0
      ∧ (assemble 5 [0, 1, 2, -1, 0, 1, 3, -1, 0, 1, 4, -1]).getEdgeHalfEdge 0 1 = some 4
      ∧ (assemble 5 [0, 1, 2, -1, 0, 1, 3, -1, 0, 1, 4, -1]).getEdgeHalfEdge 0 2 = some 8
      ∧ (assemble 5 [0, 1, 2, -1, 0, 1, 3, -1, 0, 1, 4, -1]).getTwin 8 = some 0 :=
  ⟨mkHalfEdges_of_valid (by decide) (by decide) (by decide), by decide, by decide, by decide, by decide, by decide⟩

/-! ## Step 2: the graph and the tally -/

theorem pairIndex_lt_length (k : Int × Int) (l : List (Int × Int)) :
    pairIndex k l < l.length ↔ k ∈ l := by
  induction l with
  | nil => simp [pairIndex]
  | cons p ps ih =>
    unfold pairIndex
    by_cases h : p = k
    · simp [h]
    · rw [if_neg h, List.length_cons, Nat.add_lt_add_iff_right, ih, List.mem_cons]
      constructor
      · intro hm; exact Or.inr hm
      · rintro (hm | hm)
        · exact absurd hm.symm h
        · exact hm

theorem pairIndex_append_of_mem (k : Int × Int) (l₁ l₂ : List (Int × Int)) (h : k ∈ l₁) :
    pairIndex k (l₁ ++ l₂) = pairIndex k l₁ := by
  induction l₁ with
  | nil => simp at h
  | cons p ps ih =>
    rw [List.cons_append]
    unfold pairIndex
    by_cases hp : p = k
    · rw [if_pos hp, if_pos hp]
    · rw [if_neg hp, if_neg hp, ih]
      rcases List.mem_cons.mp h with hm | hm
      · exact absurd hm.symm hp
      · exact hm

theorem pairIndex_append_self (k : Int × Int) (l : List (Int × Int)) (h : k ∉ l) :
    pairIndex k (l ++ [k]) = l.length := by
  induction l with
  | nil => simp [pairIndex]
  | cons p ps ih =>
    rw [List.cons_append]
    unfold pairIndex
    have hp : p ≠ k := fun e => h (e ▸ List.mem_cons_self _ _)
    rw [if_neg hp, ih (fun hm => h (List.mem_cons_of_mem _ hm)), List.length_cons]

theorem getD_pairIndex (k d : Int × Int) (l : List (Int × Int)) (h : k ∈ l) :
    l.getD (pairIndex k l) d = k := by
  induction l with
  | nil => simp at h
  | cons p ps ih =>
    unfold pairIndex
    by_cases hp : p = k
    · rw [if_pos hp]; exact hp
    · rw [if_neg hp]
      rcases List.mem_cons.mp h with hm | hm
      · exact absurd hm.symm hp
      · exact ih hm

theorem pairIndex_inj (k k' : Int × Int) (l : List (Int × Int)) (h : k ∈ l) (h' : k' ∈ l)
    (he : pairIndex k l = pairIndex k' l) : k = k' := by
  rw [← getD_pairIndex k (0, 0) l h, he, getD_pairIndex k' (0, 0) l h']

theorem getD_append_singleton (l : List Int) (a d : Int) (i : Nat) :
    (l ++ [a]).getD i d = if i < l.length then l.getD i d else if i = l.length then a else d := by
  by_cases h : i < l.length
  · rw [if_pos h, List.getD_append _ _ _ _ h]
  · rw [if_neg h, List.getD_append_right _ _ _ _ (not_lt.mp h)]
    by_cases h2 : i = l.length
    · rw [if_pos h2, h2, Nat.sub_self]; rfl
    · rw [if_neg h2]
      have : i - l.length = (i - l.length - 1) + 1 := by omega
      rw [this]; rfl

theorem registerCorner_old (ci : List Int) (f a c : Nat) (s : RegState)
    (hk : visitKey ci (f, a, c) ∈ s.g.pairs) (hlen : s.nFacesEdge.length = s.g.pairs.length) :
    (registerCorner ci f a c s).g = s.g
      ∧ (registerCorner ci f a c s).nFacesEdge
        = s.nFacesEdge.set (pairIndex (visitKey ci (f, a, c)) s.g.pairs)
            (s.nFacesEdge.getD (pairIndex (visitKey ci (f, a, c)) s.g.pairs) 0 + 1) := by
  have hk' : edgeKey (ci.getD c 0) (cornerDst ci a c) ∈ s.g.pairs := hk
  have hlt := (pairIndex_lt_length _ _).mpr hk'
  unfold registerCorner Edges.insertEdge visitKey
  simp only [if_pos hk', Int.toNat_ofNat]
  refine ⟨trivial, ?_⟩
  rw [if_neg (by omega)]

theorem registerCorner_new (ci : List Int) (f a c : Nat) (s : RegState)
    (hk : visitKey ci (f, a, c) ∉ s.g.pairs) (hlen : s.nFacesEdge.length = s.g.pairs.length) :
    (registerCorner ci f a c s).g.pairs = s.g.pairs ++ [visitKey ci (f, a, c)]
      ∧ (registerCorner ci f a c s).nFacesEdge = s.nFacesEdge ++ [1] := by
  have hk' : edgeKey (ci.getD c 0) (cornerDst ci a c) ∉ s.g.pairs := hk
  have hres : resize s.nFacesEdge (s.g.pairs.length + 1) 0 = s.nFacesEdge ++ [0] := by
    unfold resize
    rw [List.take_of_length_le (by omega), hlen]
    simp
  unfold registerCorner Edges.insertEdge visitKey
  simp only [if_neg hk', Int.toNat_ofNat]
  refine ⟨trivial, ?_⟩
  rw [if_pos (by omega), hres, getD_append_singleton, if_neg (by omega), if_pos hlen.symm,
    ← hlen]
  simp

theorem RegInv.regStep {keys : List (Int × Int)} {s : RegState} (h : RegInv keys s)
    (ci : List Int) (x : Nat × Nat × Nat) :
    RegInv (keys ++ [visitKey ci x]) (registerCorner ci x.1 x.2.1 x.2.2 s) := by
  obtain ⟨f, a, c⟩ := x
  by_cases hk : visitKey ci (f, a, c) ∈ s.g.pairs
  · obtain ⟨hg, hn⟩ := registerCorner_old ci f a c s hk h.len
    have hlt := (pairIndex_lt_length _ _).mpr hk
    refine ⟨by rw [hg]; exact h.nodup, by rw [hg, hn, List.length_set]; exact h.len, ?_, ?_⟩
    · intro k
      rw [hg, List.mem_append, List.mem_singleton, h.mem]
      constructor
      · intro hm; exact Or.inl hm
      · rintro (hm | rfl)
        · exact hm
        · exact (h.mem _).mp hk
    · intro k hkm
      rw [hg] at hkm ⊢
      rw [hn, getD_set_eq, List.count_append, List.count_singleton]
      by_cases he : visitKey ci (f, a, c) = k
      · subst he
        rw [if_pos ⟨rfl, by rw [h.len]; exact hlt⟩, h.cnt _ hk]
        simp
      · have hne : ¬ (pairIndex (visitKey ci (f, a, c)) s.g.pairs = pairIndex k s.g.pairs
            ∧ pairIndex (visitKey ci (f, a, c)) s.g.pairs < s.nFacesEdge.length) := by
          intro hh
          exact he (pairIndex_inj _ _ _ hk hkm hh.1)
        rw [if_neg hne, h.cnt _ hkm]
        simp [he]
  · obtain ⟨hg, hn⟩ := registerCorner_new ci f a c s hk h.len
    refine ⟨?_, by rw [hg, hn]; simp [h.len], ?_, ?_⟩
    · rw [hg]
      exact List.Nodup.append h.nodup (List.nodup_singleton _)
        (by simpa [List.disjoint_singleton] using hk)
    · intro k
      rw [hg, List.mem_append, List.mem_append, h.mem]
    · intro k hkm
      rw [hg] at hkm ⊢
      rw [hn, List.count_append, List.count_singleton]
      rcases List.mem_append.mp hkm with hm | hm
      · have hne : visitKey ci (f, a, c) ≠ k := fun he => hk (he ▸ hm)
        rw [pairIndex_append_of_mem _ _ _ hm, getD_append_singleton,
          if_pos (by rw [h.len]; exact (pairIndex_lt_length _ _).mpr hm), h.cnt _ hm]
        simp [hne]
      · rw [List.mem_singleton] at hm
        subst hm
        rw [pairIndex_append_self _ _ hk,
          getD_append_singleton, if_neg (by rw [h.len]; omega), if_pos h.len.symm,
          List.count_eq_zero_of_not_mem (fun hm => hk ((h.mem _).mpr hm))]
        simp

theorem RegInv.regFoldl (ci : List Int) (vs : List (Nat × Nat × Nat)) (keys : List (Int × Int))
    (s : RegState) (h : RegInv keys s) :
    RegInv (keys ++ vs.map (visitKey ci))
      (vs.foldl (fun s x => registerCorner ci x.1 x.2.1 x.2.2 s) s) := by
  induction vs generalizing keys s with
  | nil => simpa using h
  | cons x rest ih =>
    have := ih _ _ (h.regStep ci x)
    simpa [List.append_assoc] using this

theorem regFinal_inv (nV : Int) (ci : List Int) :
    RegInv ((visits ci 0 0 0).map (visitKey ci)) (regFinal nV ci).2 := by
  unfold regFinal
  rw [faceLoop_snd]
  have h0 : RegInv [] (regInit nV ci.length) :=
    ⟨List.nodup_nil, rfl, fun k => Iff.rfl, fun k hk => absurd hk (List.not_mem_nil k)⟩
  simpa using RegInv.regFoldl ci (visits ci 0 0 0) [] _ h0

/-! ## Step 4: the twins -/

theorem cornersOf_concat (p : List (Nat × Nat)) (c0 e0 e : Nat) :
    cornersOf (p ++ [(c0, e0)]) e = cornersOf p e ++ (if e0 = e then [c0] else []) := by
  unfold cornersOf
  rw [List.filter_append, List.map_append]
  by_cases h : e0 = e <;> simp [List.filter_cons, h]

theorem mem_cornersOf (p : List (Nat × Nat)) (c e : Nat) : c ∈ cornersOf p e ↔ (c, e) ∈ p := by
  unfold cornersOf
  simp only [List.mem_map, List.mem_filter, decide_eq_true_eq]
  constructor
  · rintro ⟨⟨c', e'⟩, ⟨hm, he⟩, hc⟩
    simp only at he hc
    subst he; subst hc; exact hm
  · intro hm
    exact ⟨(c, e), ⟨hm, rfl⟩, rfl⟩

theorem corner_unique (p : List (Nat × Nat)) (hp : p.Pairwise (fun x y => x.1 < y.1))
    (c e e' : Nat) (h : (c, e) ∈ p) (h' : (c, e') ∈ p) : e = e' := by
  induction p with
  | nil => simp at h
  | cons y rest ih =>
    rw [List.pairwise_cons] at hp
    rcases List.mem_cons.mp h with h1 | h1 <;> rcases List.mem_cons.mp h' with h2 | h2
    · rw [← h1] at h2; injection h2 with _ h3; exact h3.symm
    · have := hp.1 _ h2; rw [← h1] at this; exact absurd this (lt_irrefl _)
    · have := hp.1 _ h1; rw [← h2] at this; exact absurd this (lt_irrefl _)
    · exact ih hp.2 h1 h2

theorem twinStepOn_first (c0 e0 : Nat) (s : TwinState) (h : s.twinCorner.getD e0 0 < 0) :
    (twinStepOn (c0, e0) s).twin = s.twin
      ∧ (twinStepOn (c0, e0) s).twinCorner = s.twinCorner.set e0 (c0 : Int) := by
  unfold twinStepOn
  simp only [if_pos h]
  exact ⟨trivial, trivial⟩

theorem twinStepOn_later (c0 e0 f0 : Nat) (s : TwinState) (h : s.twinCorner.getD e0 0 = (f0 : Int))
    (hc0 : c0 < s.twin.length) :
    (twinStepOn (c0, e0) s).twin = (s.twin.set c0 (f0 : Int)).set f0 (c0 : Int)
      ∧ (twinStepOn (c0, e0) s).twinCorner = s.twinCorner := by
  unfold twinStepOn
  simp only [h]
  rw [if_neg (by omega)]
  simp only [getD_set_eq]
  rw [if_pos (And.intro trivial hc0), Int.toNat_ofNat]
  exact ⟨rfl, trivial⟩

theorem TwinInv.twinStepInv {p : List (Nat × Nat)} {nC nE : Nat} {s : TwinState}
    (hinv : TwinInv p nC nE s) (c0 e0 : Nat)
    (hp : (p ++ [(c0, e0)]).Pairwise (fun x y => x.1 < y.1))
    (hb : ∀ x ∈ p, x.1 < nC) (hc0 : c0 < nC) (he0 : e0 < nE) :
    TwinInv (p ++ [(c0, e0)]) nC nE (twinStepOn (c0, e0) s) := by
  rw [List.pairwise_append] at hp
  obtain ⟨hpp, _, hlt⟩ := hp
  have hlt0 : ∀ y ∈ p, y.1 < c0 := fun y hy => hlt y hy (c0, e0) (List.mem_singleton.mpr rfl)
  have hmem : ∀ x, x ∈ p ++ [(c0, e0)] → x ∈ p ∨ x = (c0, e0) := by
    intro x hx
    rcases List.mem_append.mp hx with h | h
    · exact Or.inl h
    · exact Or.inr (List.mem_singleton.mp h)
  rcases hL : cornersOf p e0 with _ | ⟨f0, r0⟩
  · -- the first half-edge of its edge
    have htc := hinv.firstNone e0 he0 hL
    obtain ⟨ht, htc2⟩ := twinStepOn_first c0 e0 s (by rw [htc]; decide)
    have hnot : ∀ c, (c, e0) ∉ p := by
      intro c hc
      have := (mem_cornersOf p c e0).mpr hc
      rw [hL] at this
      exact absurd this (List.not_mem_nil c)
    refine ⟨by rw [ht]; exact hinv.lenT, by rw [htc2, List.length_set]; exact hinv.lenC,
      ?_, ?_, ?_, ?_, ?_⟩
    · intro e he hLe
      rw [cornersOf_concat] at hLe
      by_cases hee : e0 = e
      · rw [if_pos hee] at hLe; simp at hLe
      · rw [if_neg hee, List.append_nil] at hLe
        rw [htc2, getD_set_eq, if_neg (fun hh => hee hh.1)]
        exact hinv.firstNone e he hLe
    · intro e f rest he hLe
      rw [cornersOf_concat] at hLe
      by_cases hee : e0 = e
      · subst hee
        rw [if_pos rfl, hL, List.nil_append] at hLe
        injection hLe with h1 _
        rw [htc2, getD_set_eq, if_pos ⟨rfl, by rw [hinv.lenC]; exact he0⟩, h1]
      · rw [if_neg hee, List.append_nil] at hLe
        rw [htc2, getD_set_eq, if_neg (fun hh => hee hh.1)]
        exact hinv.firstSome e f rest he hLe
    · intro c hc hx
      rw [ht]
      exact hinv.unseen c hc (fun x hxp => hx x (List.mem_append.mpr (Or.inl hxp)))
    · intro x hx rest hLe
      rw [ht]
      rcases hmem x hx with hxp | rfl
      · obtain ⟨c, e⟩ := x
        rw [cornersOf_concat] at hLe
        by_cases hee : e0 = e
        · exact absurd (hee ▸ hxp) (hnot c)
        · rw [if_neg hee, List.append_nil] at hLe
          exact hinv.head (c, e) hxp rest hLe
      · rw [cornersOf_concat, if_pos rfl, hL, List.nil_append] at hLe
        injection hLe with _ h2
        rw [← h2, if_pos rfl]
        exact hinv.unseen c0 hc0 (fun y hy => Nat.ne_of_lt (hlt0 y hy))
    · intro x hx f rest hLe hne
      rw [ht]
      rcases hmem x hx with hxp | rfl
      · obtain ⟨c, e⟩ := x
        rw [cornersOf_concat] at hLe
        by_cases hee : e0 = e
        · exact absurd (hee ▸ hxp) (hnot c)
        · rw [if_neg hee, List.append_nil] at hLe
          exact hinv.tail (c, e) hxp f rest hLe hne
      · rw [cornersOf_concat, if_pos rfl, hL, List.nil_append] at hLe
        injection hLe with h1 _
        exact absurd h1 hne
  · -- a later half-edge of its edge
    have htc := hinv.firstSome e0 f0 r0 he0 hL
    have hf0 : (f0, e0) ∈ p := (mem_cornersOf p f0 e0).mp (by rw [hL]; exact List.mem_cons_self _ _)
    have hf0c : f0 < c0 := hlt0 _ hf0
    have hf0n : f0 < nC := hb _ hf0
    obtain ⟨ht, htc2⟩ := twinStepOn_later c0 e0 f0 s htc (by rw [hinv.lenT]; exact hc0)
    have hget : ∀ c, (twinStepOn (c0, e0) s).twin.getD c 0
        = if f0 = c then (c0 : Int) else if c0 = c then (f0 : Int) else s.twin.getD c 0 := by
      intro c
      rw [ht, getD_set_eq, getD_set_eq, List.length_set]
      by_cases h1 : f0 = c
      · rw [if_pos ⟨h1, by rw [hinv.lenT]; exact hf0n⟩, if_pos h1]
      · rw [if_neg (fun hh => h1 hh.1), if_neg h1]
        by_cases h2 : c0 = c
        · rw [if_pos ⟨h2, by rw [hinv.lenT]; exact hc0⟩, if_pos h2]
        · rw [if_neg (fun hh => h2 hh.1), if_neg h2]
    have hother : ∀ c e, (c, e) ∈ p → e0 ≠ e → f0 ≠ c := by
      intro c e hce hee hfc
      exact hee (corner_unique p hpp f0 e0 e hf0 (hfc ▸ hce))
    refine ⟨by rw [ht, List.length_set, List.length_set]; exact hinv.lenT,
      by rw [htc2]; exact hinv.lenC, ?_, ?_, ?_, ?_, ?_⟩
    · intro e he hLe
      rw [cornersOf_concat] at hLe
      by_cases hee : e0 = e
      · rw [if_pos hee] at hLe; simp at hLe
      · rw [if_neg hee, List.append_nil] at hLe
        rw [htc2]
        exact hinv.firstNone e he hLe
    · intro e f rest he hLe
      rw [cornersOf_concat] at hLe
      rw [htc2]
      by_cases hee : e0 = e
      · subst hee
        rw [if_pos rfl, hL, List.cons_append] at hLe
        injection hLe with h1 _
        rw [htc, h1]
      · rw [if_neg hee, List.append_nil] at hLe
        exact hinv.firstSome e f rest he hLe
    · intro c hc hx
      have h1 : f0 ≠ c := hx _ (List.mem_append.mpr (Or.inl hf0))
      have h2 : c0 ≠ c := hx (c0, e0) (List.mem_append.mpr (Or.inr (List.mem_singleton.mpr rfl)))
      rw [hget, if_neg h1, if_neg h2]
      exact hinv.unseen c hc (fun x hxp => hx x (List.mem_append.mpr (Or.inl hxp)))
    · intro x hx rest hLe
      rcases hmem x hx with hxp | rfl
      · obtain ⟨c, e⟩ := x
        rw [cornersOf_concat] at hLe
        by_cases hee : e0 = e
        · subst hee
          rw [if_pos rfl, hL, List.cons_append] at hLe
          injection hLe with h1 h2
          have h1' : f0 = c := h1
          rw [hget, if_pos h1', ← h2, if_neg (by simp)]
          simp
        · rw [if_neg hee, List.append_nil] at hLe
          have hcc : c0 ≠ c := (Nat.ne_of_lt (hlt0 _ hxp)).symm
          rw [hget, if_neg (hother c e hxp hee), if_neg hcc]
          exact hinv.head (c, e) hxp rest hLe
      · rw [cornersOf_concat, if_pos rfl, hL, List.cons_append] at hLe
        injection hLe with h1 _
        exact absurd h1 (Nat.ne_of_lt hf0c)
    · intro x hx f rest hLe hne
      rcases hmem x hx with hxp | rfl
      · obtain ⟨c, e⟩ := x
        have hcc : c0 ≠ c := (Nat.ne_of_lt (hlt0 _ hxp)).symm
        rw [cornersOf_concat] at hLe
        by_cases hee : e0 = e
        · subst hee
          rw [if_pos rfl, hL, List.cons_append] at hLe
          injection hLe with h1 _
          have hne' : c ≠ f0 := by rw [h1]; exact hne
          rw [hget, if_neg (fun h => hne' h.symm), if_neg hcc, ← h1]
          exact hinv.tail (c, e0) hxp f0 r0 hL hne'
        · rw [if_neg hee, List.append_nil] at hLe
          rw [hget, if_neg (hother c e hxp hee), if_neg hcc]
          exact hinv.tail (c, e) hxp f rest hLe hne
      · rw [cornersOf_concat, if_pos rfl, hL, List.cons_append] at hLe
        injection hLe with h1 _
        rw [hget, if_neg (Nat.ne_of_lt hf0c), if_pos rfl, h1]

theorem TwinInv.twinInit (nC nE : Nat) :
    TwinInv [] nC nE { twinCorner := resize [] nE (-1), twin := resize [] nC (-1) } := by
  refine ⟨length_resize_nil _ _, length_resize_nil _ _, ?_, ?_, ?_, ?_, ?_⟩
  · intro e he _
    show (resize [] nE (-1)).getD e 0 = -1
    rw [getD_resize_nil, if_pos he]
  · intro e f rest _ h
    exact List.noConfusion h
  · intro c hc _
    show (resize [] nC (-1)).getD c 0 = -1
    rw [getD_resize_nil, if_pos hc]
  · intro x hx
    exact absurd hx (List.not_mem_nil x)
  · intro x hx
    exact absurd hx (List.not_mem_nil x)

theorem TwinInv.twinFoldl (q p : List (Nat × Nat)) (nC nE : Nat) (s : TwinState)
    (hinv : TwinInv p nC nE s) (hp : (p ++ q).Pairwise (fun x y => x.1 < y.1))
    (hb : ∀ x ∈ p ++ q, x.1 < nC ∧ x.2 < nE) :
    TwinInv (p ++ q) nC nE (q.foldl (fun s x => twinStepOn x s) s) := by
  induction q generalizing p s with
  | nil => simpa using hinv
  | cons x rest ih =>
    obtain ⟨c0, e0⟩ := x
    have happ : p ++ (c0, e0) :: rest = (p ++ [(c0, e0)]) ++ rest := by simp
    rw [happ] at hp hb ⊢
    have hx := hb (c0, e0) (List.mem_append.mpr (Or.inl (List.mem_append.mpr
      (Or.inr (List.mem_singleton.mpr rfl)))))
    have hstep := hinv.twinStepInv c0 e0 (List.Pairwise.sublist (List.sublist_append_left _ _) hp)
      (fun y hy => (hb y (List.mem_append.mpr (Or.inl (List.mem_append.mpr (Or.inl hy))))).1)
      hx.1 hx.2
    exact ih _ _ hstep hp hb

/-! ## The half-edges of the final graph -/

theorem pairIndex_getD_of_nodup (l : List (Int × Int)) (hl : l.Nodup) (e : Nat)
    (he : e < l.length) (d : Int × Int) : pairIndex (l.getD e d) l = e := by
  induction l generalizing e with
  | nil => simp at he
  | cons p ps ih =>
    rw [List.nodup_cons] at hl
    cases e with
    | zero => simp [pairIndex]
    | succ n =>
      have hn : n < ps.length := by simpa using he
      rw [List.getD_cons_succ]
      unfold pairIndex
      have hmem : ps.getD n d ∈ ps := by
        rw [List.getD_eq_getElem _ _ hn]; exact List.getElem_mem hn
      have hne : ¬ p = ps.getD n d := fun h => hl.1 (h ▸ hmem)
      rw [if_neg hne, ih hl.2 n hn]

theorem getEdge_of_mem (g : Edges) (v0 v1 : Int) (h : edgeKey v0 v1 ∈ g.pairs) :
    g.getEdge v0 v1 = (pairIndex (edgeKey v0 v1) g.pairs : Int) := by
  unfold Edges.getEdge
  rw [if_pos h]

theorem visitEdge_eq (nV : Int) (ci : List Int) (x : Nat × Nat × Nat)
    (hx : x ∈ visits ci 0 0 0) :
    visitKey ci x ∈ (regFinal nV ci).2.g.pairs
      ∧ visitEdge ci (regFinal nV ci).2.g x = pairIndex (visitKey ci x) (regFinal nV ci).2.g.pairs := by
  have hm : visitKey ci x ∈ (regFinal nV ci).2.g.pairs :=
    ((regFinal_inv nV ci).mem _).mpr (List.mem_map.mpr ⟨x, hx, rfl⟩)
  refine ⟨hm, ?_⟩
  unfold visitEdge
  rw [getEdge_of_mem _ _ _ hm, Int.toNat_ofNat]
  rfl

theorem halfEdgeList_sorted (ci : List Int) (g : Edges) :
    (halfEdgeList ci g).Pairwise (fun x y => x.1 < y.1) := by
  unfold halfEdgeList
  rw [List.pairwise_map]
  exact visits_sorted ci 0 0 0 (le_refl _)

theorem halfEdgeList_bounds (nV : Int) (ci : List Int) :
    ∀ x ∈ halfEdgeList ci (regFinal nV ci).2.g,
      x.1 < ci.length ∧ x.2 < (regFinal nV ci).2.g.pairs.length := by
  intro x hx
  unfold halfEdgeList at hx
  obtain ⟨y, hy, rfl⟩ := List.mem_map.mp hx
  have hfc := visits_faceCorner ci ci 0 0 0 (ScanInv.scanInit ci) _ hy
  obtain ⟨e, hce, he, _, _⟩ := hfc.close
  obtain ⟨hm, heq⟩ := visitEdge_eq nV ci y hy
  refine ⟨lt_trans hce he, ?_⟩
  show visitEdge ci _ y < _
  rw [heq]
  exact (pairIndex_lt_length _ _).mpr hm

theorem length_cornersOf (nV : Int) (ci : List Int) (e : Nat)
    (he : e < (regFinal nV ci).2.g.pairs.length) :
    (regFinal nV ci).2.nFacesEdge.getD e 0
      = ((cornersOf (halfEdgeList ci (regFinal nV ci).2.g) e).length : Int) := by
  have hinv := regFinal_inv nV ci
  have hk : (regFinal nV ci).2.g.pairs.getD e (0, 0) ∈ (regFinal nV ci).2.g.pairs := by
    rw [List.getD_eq_getElem _ _ he]; exact List.getElem_mem he
  have h1 := hinv.cnt _ hk
  rw [pairIndex_getD_of_nodup _ hinv.nodup e he] at h1
  rw [h1]
  congr 1
  unfold cornersOf halfEdgeList
  rw [List.length_map, List.filter_map, List.length_map, List.count_eq_countP,
    List.countP_map, List.countP_eq_length_filter]
  congr 1
  apply List.filter_congr
  intro x hx
  obtain ⟨hm, heq⟩ := visitEdge_eq nV ci x hx
  simp only [Function.comp, heq, beq_iff_eq, decide_eq_true_eq]
  rw [Bool.eq_iff_iff]
  simp only [beq_iff_eq, decide_eq_true_eq]
  constructor
  · intro h
    rw [h]
    exact pairIndex_getD_of_nodup _ hinv.nodup e he _
  · intro h
    rw [← h]
    exact (getD_pairIndex _ _ _ hm).symm

theorem twinStep_eq (ci : List Int) (g : Edges) (x : Nat × Nat × Nat) (s : TwinState) :
    twinStep ci g x.1 x.2.1 x.2.2 s = twinStepOn (x.2.2, visitEdge ci g x) s := rfl

theorem twinFinal_inv (nV : Int) (ci : List Int) :
    TwinInv (halfEdgeList ci (regFinal nV ci).2.g) ci.length (regFinal nV ci).2.g.pairs.length
      (twinFinal ci (regFinal nV ci).2.g).2 := by
  unfold twinFinal
  rw [faceLoop_snd]
  have h0 := TwinInv.twinInit ci.length (regFinal nV ci).2.g.pairs.length
  have h1 := TwinInv.twinFoldl (halfEdgeList ci (regFinal nV ci).2.g) [] _ _ _ h0
    (by rw [List.nil_append]; exact halfEdgeList_sorted ci _)
    (by rw [List.nil_append]; exact halfEdgeList_bounds nV ci)
  rw [List.nil_append] at h1
  unfold halfEdgeList at h1
  rw [List.foldl_map] at h1
  unfold Edges.getNumberOfEdges
  rw [Int.toNat_ofNat]
  exact h1

/-! ## Step 5: the offsets -/

theorem slotStart_succ (p : List (Nat × Nat)) (e : Nat) :
    slotStart p (e + 1) = slotStart p e + (cornersOf p e).length := by
  unfold slotStart cornersOf
  rw [List.length_map]
  induction p with
  | nil => rfl
  | cons x rest ih =>
    simp only [List.filter_cons, decide_eq_true_eq]
    split_ifs <;> (try simp only [List.length_cons]) <;> omega

theorem slotStart_zero (p : List (Nat × Nat)) : slotStart p 0 = 0 := by
  unfold slotStart
  induction p with
  | nil => rfl
  | cons x rest ih =>
    simp only [List.filter_cons, decide_eq_true_eq]
    rw [if_neg (Nat.not_lt_zero _)]
    exact ih

theorem slotStart_mono (p : List (Nat × Nat)) (e e' : Nat) (h : e ≤ e') :
    slotStart p e ≤ slotStart p e' := by
  induction e' with
  | zero => have : e = 0 := by omega
            rw [this]
  | succ n ih =>
    rcases Nat.eq_or_lt_of_le h with h1 | h1
    · rw [h1]
    · have := ih (by omega)
      rw [slotStart_succ]
      omega

theorem slotStart_le_length (p : List (Nat × Nat)) (e : Nat) : slotStart p e ≤ p.length :=
  List.length_filter_le _ _

theorem prefix_loop (nfe : List Int) (S : Nat → Int) (N : Nat)
    (hS : ∀ e, e < N → S (e + 1) = S e + nfe.getD e 0) (n i : Nat) (first : List Int)
    (hlen : first.length = N + 1) (hi : i + n ≤ N) (hinv : ∀ e, e ≤ i → first.getD e 0 = S e) :
    (forLoop (prefixStep nfe) n i first).length = N + 1
      ∧ ∀ e, e ≤ i + n → (forLoop (prefixStep nfe) n i first).getD e 0 = S e := by
  induction n generalizing i first with
  | zero => exact ⟨hlen, fun e he => hinv e he⟩
  | succ n ih =>
    unfold forLoop
    have h := ih (i + 1) (prefixStep nfe i first)
      (by unfold prefixStep; rw [List.length_set]; exact hlen) (by omega)
      (by
        intro e he
        unfold prefixStep
        rw [getD_set_eq]
        by_cases hei : i + 1 = e
        · rw [if_pos ⟨hei, by omega⟩, hinv i (le_refl _), ← hei, hS i (by omega)]
        · rw [if_neg (fun hh => hei hh.1)]
          exact hinv e (by omega))
    refine ⟨h.1, fun e he => h.2 e (by omega)⟩

theorem firstFinal_spec (nV : Int) (ci : List Int) :
    (firstFinal (regFinal nV ci).2.g.pairs.length (regFinal nV ci).2.nFacesEdge).length
        = (regFinal nV ci).2.g.pairs.length + 1
      ∧ ∀ e, e ≤ (regFinal nV ci).2.g.pairs.length →
        (firstFinal (regFinal nV ci).2.g.pairs.length (regFinal nV ci).2.nFacesEdge).getD e 0
          = (slotStart (halfEdgeList ci (regFinal nV ci).2.g) e : Int) := by
  unfold firstFinal
  have h := prefix_loop (regFinal nV ci).2.nFacesEdge
    (fun e => (slotStart (halfEdgeList ci (regFinal nV ci).2.g) e : Int))
    (regFinal nV ci).2.g.pairs.length
    (by
      intro e he
      show ((slotStart _ (e + 1) : Nat) : Int) = _
      rw [slotStart_succ, length_cornersOf nV ci e he]
      push_cast; rfl)
    (regFinal nV ci).2.g.pairs.length 0
    ((resize [] ((regFinal nV ci).2.g.pairs.length + 1) (-1)).set 0 0)
    (by rw [List.length_set, length_resize_nil])
    (by omega)
    (by
      intro e he
      have : e = 0 := by omega
      subst this
      rw [getD_set_eq, if_pos ⟨rfl, by rw [length_resize_nil]; omega⟩]
      show (0 : Int) = ((slotStart _ 0 : Nat) : Int)
      rw [slotStart_zero]
      rfl)
  refine ⟨h.1, fun e he => h.2 e (by omega)⟩

/-! ## Step 6: the incidence lists -/

theorem fillSlot_spec (iC : Int) (start : Nat) (fuel j m : Nat) (ce : List Int)
    (hjm : j ≤ m) (hfuel : m - j < fuel)
    (hfull : ∀ k, j ≤ k → k < m → ¬ ce.getD (start + k) 0 < 0)
    (hfree : ce.getD (start + m) 0 < 0) :
    fillSlot iC start fuel j ce = ce.set (start + m) iC := by
  induction fuel generalizing j with
  | zero => omega
  | succ n ih =>
    unfold fillSlot
    rcases Nat.eq_or_lt_of_le hjm with h | h
    · subst h
      rw [if_pos hfree]
    · rw [if_neg (hfull j (le_refl _) h)]
      exact ih (j + 1) (by omega) (by omega) (fun k hk hk2 => hfull k (by omega) hk2)

theorem cornersOf_append (p q : List (Nat × Nat)) (e : Nat) :
    cornersOf (p ++ q) e = cornersOf p e ++ cornersOf q e := by
  unfold cornersOf
  rw [List.filter_append, List.map_append]

theorem cornersOf_cons_length (c0 e0 : Nat) (q : List (Nat × Nat)) :
    1 ≤ (cornersOf ((c0, e0) :: q) e0).length := by
  unfold cornersOf
  simp [List.filter_cons]

theorem slot_disjoint (all : List (Nat × Nat)) (e e' j j' : Nat)
    (hj : j < (cornersOf all e).length) (hj' : j' < (cornersOf all e').length)
    (h : slotStart all e + j = slotStart all e' + j') : e = e' := by
  rcases Nat.lt_trichotomy e e' with h1 | h1 | h1
  · have := slotStart_mono all (e + 1) e' h1
    rw [slotStart_succ] at this
    omega
  · exact h1
  · have := slotStart_mono all (e' + 1) e h1
    rw [slotStart_succ] at this
    omega

theorem FillInv.fillStepInv {all p : List (Nat × Nat)} {nE N : Nat} {ce : List Int}
    (hinv : FillInv all p nE N ce) (c0 e0 : Nat) (q : List (Nat × Nat))
    (hall : all = p ++ (c0, e0) :: q) (he0 : e0 < nE) (hN : all.length ≤ N)
    (nfe first : List Int)
    (hfirst : first.getD e0 0 = (slotStart all e0 : Int))
    (hnfe : nfe.getD e0 0 = ((cornersOf all e0).length : Int)) :
    FillInv all (p ++ [(c0, e0)]) nE N (fillStepOn nfe first (c0, e0) ce) := by
  have hcount : (cornersOf all e0).length
      = (cornersOf p e0).length + (cornersOf ((c0, e0) :: q) e0).length := by
    rw [hall, cornersOf_append, List.length_append]
  have h1 := cornersOf_cons_length c0 e0 q
  have hm : (cornersOf p e0).length < (cornersOf all e0).length := by omega
  have hbound : slotStart all e0 + (cornersOf p e0).length < N := by
    have := slotStart_succ all e0
    have := slotStart_le_length all (e0 + 1)
    omega
  have hstep : fillStepOn nfe first (c0, e0) ce
      = ce.set (slotStart all e0 + (cornersOf p e0).length) (c0 : Int) := by
    unfold fillStepOn
    simp only [hfirst, hnfe, Int.toNat_ofNat]
    apply fillSlot_spec _ _ _ 0 (cornersOf p e0).length ce (Nat.zero_le _) (by omega)
    · intro k _ hk
      rw [hinv.slot e0 k he0 (by omega), if_pos hk]
      omega
    · rw [hinv.slot e0 _ he0 hm, if_neg (lt_irrefl _)]
      decide
  refine ⟨by rw [hstep, List.length_set]; exact hinv.len, ?_⟩
  intro e j he hj
  rw [hstep, getD_set_eq, cornersOf_concat]
  by_cases hee : e0 = e
  · subst hee
    rw [if_pos rfl, List.length_append, List.length_singleton]
    by_cases hjm : (cornersOf p e0).length = j
    · rw [if_pos ⟨by rw [hjm], by rw [hinv.len]; exact hbound⟩, if_pos (by omega),
        List.getD_append_right _ _ _ _ (by omega), ← hjm, Nat.sub_self]
      rfl
    · rw [if_neg (fun hh => hjm (by omega)), hinv.slot e0 j he hj]
      by_cases hlt : j < (cornersOf p e0).length
      · rw [if_pos hlt, if_pos (by omega), List.getD_append _ _ _ _ hlt]
      · rw [if_neg hlt, if_neg (by omega)]
  · rw [if_neg hee, List.append_nil,
      if_neg (fun hh => hee (slot_disjoint all e0 e _ j hm hj hh.1))]
    exact hinv.slot e j he hj

theorem FillInv.fillFoldl (all : List (Nat × Nat)) (nE N : Nat) (nfe first : List Int)
    (hb : ∀ x ∈ all, x.2 < nE) (hN : all.length ≤ N)
    (hfirst : ∀ e, e < nE → first.getD e 0 = (slotStart all e : Int))
    (hnfe : ∀ e, e < nE → nfe.getD e 0 = ((cornersOf all e).length : Int))
    (q p : List (Nat × Nat)) (ce : List Int) (hall : all = p ++ q)
    (hinv : FillInv all p nE N ce) :
    FillInv all all nE N (q.foldl (fun ce x => fillStepOn nfe first x ce) ce) := by
  induction q generalizing p ce with
  | nil =>
    rw [List.append_nil] at hall
    rw [hall]
    rw [hall] at hinv
    exact hinv
  | cons x rest ih =>
    obtain ⟨c0, e0⟩ := x
    have he0 : e0 < nE := hb (c0, e0) (by rw [hall]; simp)
    have hstep := hinv.fillStepInv c0 e0 rest hall he0 hN nfe first (hfirst e0 he0) (hnfe e0 he0)
    exact ih (p ++ [(c0, e0)]) _ (by rw [hall]; simp) hstep

theorem FillInv.fillInit (all : List (Nat × Nat)) (nE N : Nat) (hN : all.length ≤ N) :
    FillInv all [] nE N (resize [] N (-1)) := by
  refine ⟨length_resize_nil _ _, ?_⟩
  intro e j _ hj
  have := slotStart_succ all e
  have := slotStart_le_length all (e + 1)
  rw [getD_resize_nil, if_pos (by omega)]
  rfl

theorem countNeg_le_length (l : List Int) : countNeg l ≤ l.length :=
  List.length_filter_le _ _

theorem visits_length (l : List Int) (iF iC0 iC1 : Nat) (hle : iC0 ≤ iC1) :
    (visits l iF iC0 iC1).length + countNeg l ≤ (iC1 - iC0) + l.length := by
  induction l generalizing iF iC0 iC1 with
  | nil => simp [visits, countNeg]
  | cons v rest ih =>
    simp only [visits]
    split_ifs with hv
    · have := ih iF iC0 (iC1 + 1) (by omega)
      have hc : countNeg (v :: rest) = countNeg rest := by
        simp [countNeg, List.filter_cons, not_lt.mpr hv]
      rw [hc, List.length_cons]
      omega
    · have := ih (iF + 1) (iC1 + 1) (iC1 + 1) (le_refl _)
      have hc : countNeg (v :: rest) = countNeg rest + 1 := by
        simp [countNeg, List.filter_cons, not_le.mp hv]
      rw [hc, List.length_append, List.length_map, List.length_range', List.length_cons]
      omega

theorem halfEdgeList_length (ci : List Int) (g : Edges) :
    (halfEdgeList ci g).length ≤ ci.length - countNeg ci := by
  unfold halfEdgeList
  rw [List.length_map]
  have := visits_length ci 0 0 0 (le_refl _)
  have := countNeg_le_length ci
  omega

theorem fillStep_eq (ci : List Int) (g : Edges) (nfe first : List Int) (x : Nat × Nat × Nat)
    (ce : List Int) :
    fillStep ci g nfe first x.1 x.2.1 x.2.2 ce = fillStepOn nfe first (x.2.2, visitEdge ci g x) ce :=
  rfl

theorem fillFinal_inv (nV : Int) (ci : List Int) :
    FillInv (halfEdgeList ci (regFinal nV ci).2.g) (halfEdgeList ci (regFinal nV ci).2.g)
      (regFinal nV ci).2.g.pairs.length (ci.length - (regFinal nV ci).1)
      (fillFinal ci (regFinal nV ci).2.g (regFinal nV ci).2.nFacesEdge
        (firstFinal (regFinal nV ci).2.g.pairs.length (regFinal nV ci).2.nFacesEdge)
        (regFinal nV ci).1).2 := by
  have hnF : (regFinal nV ci).1 = countNeg ci := by
    unfold regFinal
    rw [faceLoop_fst, Nat.zero_add]
  have hN : (halfEdgeList ci (regFinal nV ci).2.g).length ≤ ci.length - (regFinal nV ci).1 := by
    rw [hnF]; exact halfEdgeList_length ci _
  unfold fillFinal
  rw [faceLoop_snd]
  have h := FillInv.fillFoldl (halfEdgeList ci (regFinal nV ci).2.g)
    (regFinal nV ci).2.g.pairs.length (ci.length - (regFinal nV ci).1)
    (regFinal nV ci).2.nFacesEdge
    (firstFinal (regFinal nV ci).2.g.pairs.length (regFinal nV ci).2.nFacesEdge)
    (fun x hx => (halfEdgeList_bounds nV ci x hx).2) hN
    (fun e he => (firstFinal_spec nV ci).2 e (le_of_lt he))
    (fun e he => length_cornersOf nV ci e he)
    (halfEdgeList ci (regFinal nV ci).2.g) [] _ (List.nil_append _).symm
    (FillInv.fillInit _ _ _ hN)
  have hmap : ∀ (ce : List Int),
      List.foldl (fun ce x => fillStepOn (regFinal nV ci).2.nFacesEdge
        (firstFinal (regFinal nV ci).2.g.pairs.length (regFinal nV ci).2.nFacesEdge) x ce) ce
        (halfEdgeList ci (regFinal nV ci).2.g)
      = List.foldl (fun ce x => fillStep ci (regFinal nV ci).2.g (regFinal nV ci).2.nFacesEdge
        (firstFinal (regFinal nV ci).2.g.pairs.length (regFinal nV ci).2.nFacesEdge)
        x.1 x.2.1 x.2.2 ce) ce (visits ci 0 0 0) := by
    intro ce
    unfold halfEdgeList
    rw [List.foldl_map]
    rfl
  rw [hmap] at h
  exact h

/-! ## The constructed mesh in terms of the half-edge list -/

theorem assemble_edges (nV : Int) (ci : List Int) :
    (assemble nV ci).edges = (regFinal nV ci).2.g := rfl

theorem assemble_twin (nV : Int) (ci : List Int) :
    (assemble nV ci).twin = (twinFinal ci (regFinal nV ci).2.g).2.twin := rfl

theorem assemble_firstCornerEdge (nV : Int) (ci : List Int) :
    (assemble nV ci).firstCornerEdge
      = firstFinal (regFinal nV ci).2.g.pairs.length (regFinal nV ci).2.nFacesEdge := by
  show firstFinal (regFinal nV ci).2.g.getNumberOfEdges.toNat _ = _
  unfold Edges.getNumberOfEdges
  rw [Int.toNat_ofNat]

theorem assemble_cornerEdge (nV : Int) (ci : List Int) :
    (assemble nV ci).cornerEdge
      = (fillFinal ci (regFinal nV ci).2.g (regFinal nV ci).2.nFacesEdge
        (firstFinal (regFinal nV ci).2.g.pairs.length (regFinal nV ci).2.nFacesEdge)
        (regFinal nV ci).1).2 := by
  show (fillFinal ci _ _ (firstFinal (regFinal nV ci).2.g.getNumberOfEdges.toNat _) _).2 = _
  unfold Edges.getNumberOfEdges
  rw [Int.toNat_ofNat]

theorem getTwin_natCast (nV : Int) (ci : List Int) (c : Nat) (hc : c < ci.length) :
    (assemble nV ci).getTwin (c : Int) = some ((assemble nV ci).twin.getD c 0) := by
  unfold getTwin getNumberOfCorners
  rw [assemble_coordIndex, if_neg (by omega),
    rd_natCast _ c (by rw [assemble_twin, (twinFinal_inv nV ci).lenT]; exact hc)]

theorem getNumberOfEdgeHalfEdges_natCast (nV : Int) (ci : List Int) (e : Nat)
    (he : e < (assemble nV ci).edges.pairs.length) :
    (assemble nV ci).getNumberOfEdgeHalfEdges (e : Int)
      = some (((cornersOf (halfEdgeList ci (assemble nV ci).edges) e).length : Nat) : Int) := by
  rw [assemble_edges] at he ⊢
  obtain ⟨hlen, hget⟩ := firstFinal_spec nV ci
  have hcast : ((e : Int) + 1) = ((e + 1 : Nat) : Int) := by push_cast; rfl
  unfold getNumberOfEdgeHalfEdges getNumberOfEdges Edges.getNumberOfEdges
  rw [assemble_edges, if_neg (by omega), assemble_firstCornerEdge, hcast,
    rd_natCast _ (e + 1) (by rw [hlen]; omega), rd_natCast _ e (by rw [hlen]; omega),
    Option.some_bind, Option.some_bind, hget (e + 1) (by omega), hget e (by omega),
    slotStart_succ]
  congr 1
  push_cast
  omega

theorem getEdgeHalfEdge_natCast (nV : Int) (ci : List Int) (e j : Nat)
    (he : e < (assemble nV ci).edges.pairs.length)
    (hj : j < (cornersOf (halfEdgeList ci (assemble nV ci).edges) e).length) :
    (assemble nV ci).getEdgeHalfEdge (e : Int) (j : Int)
      = some (((cornersOf (halfEdgeList ci (assemble nV ci).edges) e).getD j 0 : Nat) : Int) := by
  have hn := getNumberOfEdgeHalfEdges_natCast nV ci e he
  rw [assemble_edges] at he hj hn ⊢
  obtain ⟨hlen, hget⟩ := firstFinal_spec nV ci
  have hfill := fillFinal_inv nV ci
  unfold getEdgeHalfEdge getNumberOfEdges Edges.getNumberOfEdges
  rw [assemble_edges, if_neg (by omega), if_neg (by omega), hn, Option.some_bind,
    if_neg (by omega),
    assemble_firstCornerEdge, rd_natCast _ e (by rw [hlen]; omega), Option.some_bind,
    hget e (by omega), assemble_cornerEdge]
  have hcast : ((slotStart (halfEdgeList ci (regFinal nV ci).2.g) e : Nat) : Int) + (j : Int)
      = ((slotStart (halfEdgeList ci (regFinal nV ci).2.g) e + j : Nat) : Int) := by
    push_cast; rfl
  have hb : slotStart (halfEdgeList ci (regFinal nV ci).2.g) e + j
      < ci.length - (regFinal nV ci).1 := by
    have h1 := slotStart_succ (halfEdgeList ci (regFinal nV ci).2.g) e
    have h2 := slotStart_le_length (halfEdgeList ci (regFinal nV ci).2.g) (e + 1)
    have h3 : (regFinal nV ci).1 = countNeg ci := by
      unfold regFinal
      rw [faceLoop_fst, Nat.zero_add]
    have h4 := halfEdgeList_length ci (regFinal nV ci).2.g
    omega
  rw [hcast, rd_natCast _ _ (by rw [hfill.len]; exact hb), hfill.slot e j he hj, if_pos hj]

theorem closedCorner_visit {ci : List Int} {c : Nat} (hc : ClosedCorner ci c) :
    ∃ f s l, (f, s, c) ∈ visits ci 0 0 0 ∧ FaceRange ci s l ∧ s ≤ c ∧ c ≤ l := by
  obtain ⟨f, a, hfa⟩ := visits_complete ci ci 0 0 0 (ScanInv.scanInit ci) c (Nat.zero_le _) hc.1 hc.2
  have hfc := visits_faceCorner ci ci 0 0 0 (ScanInv.scanInit ci) _ hfa
  obtain ⟨e, hce, he, hneg, hrun⟩ := hfc.close
  have hle : a ≤ c := hfc.le
  have hce' : c < e := hce
  refine ⟨f, a, e - 1, hfa,
    ⟨by omega, by omega, fun i hi hi2 => hrun i hi (by omega), hfc.start, ?_⟩, hle, by omega⟩
  have : e - 1 + 1 = e := by omega
  rw [this]; exact hneg

theorem visit_closedCorner {ci : List Int} (x : Nat × Nat × Nat) (hx : x ∈ visits ci 0 0 0) :
    ClosedCorner ci x.2.2 := by
  have hfc := visits_faceCorner ci ci 0 0 0 (ScanInv.scanInit ci) _ hx
  obtain ⟨e, hce, he, hneg, hrun⟩ := hfc.close
  exact ⟨hrun _ hfc.le hce, e, hce, he, hneg⟩

theorem cornersOf_sorted (p : List (Nat × Nat)) (hp : p.Pairwise (fun x y => x.1 < y.1))
    (e : Nat) : (cornersOf p e).Pairwise (fun a b => a < b) := by
  unfold cornersOf
  rw [List.pairwise_map]
  exact List.Pairwise.sublist (List.filter_sublist _) hp

/-! ## Twins across regular and boundary edges -/

/-- C3: for every constructed mesh and every edge `e` with exactly two incident
half-edges, `a = getEdgeHalfEdge(e,0)` and `b = getEdgeHalfEdge(e,1)` are two
different corners with `getTwin(a) = b` and `getTwin(b) = a`; no hypothesis on
the direction in which the two faces traverse the edge is needed. -/
theorem getTwin_of_regular_edge (nV : Int) (ci : List Int) (h : HalfEdges)
    (hok : mkHalfEdges nV ci = .ok h) (e : Int)
    (h2 : h.getNumberOfEdgeHalfEdges e = some 2) :
    ∃ a b : Int, h.getEdgeHalfEdge e 0 = some a ∧ h.getEdgeHalfEdge e 1 = some b
      ∧ 0 ≤ a ∧ a < b ∧ b < h.getNumberOfCorners
      ∧ h.getTwin a = some b ∧ h.getTwin b = some a := by
  obtain ⟨_, rfl⟩ := mkHalfEdges_ok hok
  have hrange : 0 ≤ e ∧ e < ((assemble nV ci).edges.pairs.length : Int) := by
    by_contra hc
    unfold getNumberOfEdgeHalfEdges getNumberOfEdges Edges.getNumberOfEdges at h2
    rw [if_pos (by omega)] at h2
    exact absurd h2 (by decide)
  obtain ⟨n, rfl⟩ := Int.eq_ofNat_of_zero_le hrange.1
  have hn : n < (assemble nV ci).edges.pairs.length := by omega
  rw [getNumberOfEdgeHalfEdges_natCast nV ci n hn] at h2
  have hlen : (cornersOf (halfEdgeList ci (assemble nV ci).edges) n).length = 2 := by
    injection h2 with h2
    exact_mod_cast h2
  obtain ⟨a, b, hab⟩ := List.length_eq_two.mp hlen
  have hsorted := cornersOf_sorted _ (halfEdgeList_sorted ci (assemble nV ci).edges) n
  rw [hab] at hsorted
  have hlt : a < b := by
    rw [List.pairwise_cons] at hsorted
    exact hsorted.1 b (List.mem_singleton.mpr rfl)
  have hma : (a, n) ∈ halfEdgeList ci (assemble nV ci).edges :=
    (mem_cornersOf _ a n).mp (by rw [hab]; simp)
  have hmb : (b, n) ∈ halfEdgeList ci (assemble nV ci).edges :=
    (mem_cornersOf _ b n).mp (by rw [hab]; simp)
  have hba := (halfEdgeList_bounds nV ci _ hma).1
  have hbb := (halfEdgeList_bounds nV ci _ hmb).1
  have htw := twinFinal_inv nV ci
  have hta := htw.head (a, n) hma [b] hab
  have htb := htw.tail (b, n) hmb a [b] hab (Nat.ne_of_gt hlt)
  have e0 := getEdgeHalfEdge_natCast nV ci n 0 hn (by rw [hlen]; decide)
  have e1 := getEdgeHalfEdge_natCast nV ci n 1 hn (by rw [hlen]; decide)
  rw [hab] at e0 e1
  refine ⟨(a : Int), (b : Int), e0, e1, Int.natCast_nonneg _, by exact_mod_cast hlt, ?_, ?_, ?_⟩
  · show (b : Int) < ((assemble nV ci).coordIndex.length : Int)
    rw [assemble_coordIndex]; exact_mod_cast hbb
  · rw [getTwin_natCast nV ci a hba, assemble_twin, hta]
    simp
  · rw [getTwin_natCast nV ci b hbb, assemble_twin, htb]

theorem getTwin_of_regular_edge_witness :
    ∃ a b : Int, (assemble 4 [0, 1, 2, -1, 0, 1, 3, -1]).getEdgeHalfEdge 0 0 = some a
      ∧ (assemble 4 [0, 1, 2, -1, 0, 1, 3, -1]).getEdgeHalfEdge 0 1 = some b
      ∧ 0 ≤ a ∧ a < b ∧ b < (assemble 4 [0, 1, 2, -1, 0, 1, 3, -1]).getNumberOfCorners
      ∧ (assemble 4 [0, 1, 2, -1, 0, 1, 3, -1]).getTwin a = some b
      ∧ (assemble 4 [0, 1, 2, -1, 0, 1, 3, -1]).getTwin b = some a :=
  getTwin_of_regular_edge 4 [0, 1, 2, -1, 0, 1, 3, -1] _
    (mkHalfEdges_of_valid (by decide) (by decide) (by decide)) 0 (by decide)

/-- C4: for every constructed mesh and every corner `c` that holds a vertex
`v = getSrc(c)` and has the destination `d = getDst(c)`, if the edge
`getEdge(v, d)` has exactly one incident half-edge then `getTwin(c)` is `-1`. -/
theorem getTwin_of_boundary_edge (nV : Int) (ci : List Int) (h : HalfEdges)
    (hok : mkHalfEdges nV ci = .ok h) (c v d : Int)
    (hs : h.getSrc c = some v) (hv : 0 ≤ v) (hd : h.getDst c = some d)
    (h1 : h.getNumberOfEdgeHalfEdges (h.getEdge v d) = some 1) :
    h.getTwin c = some (-1) := by
  obtain ⟨hfv, rfl⟩ := mkHalfEdges_ok hok
  have hval := (firstViolation_none nV ci 0).mp hfv
  have hrange : 0 ≤ c ∧ c < (ci.length : Int) := by
    by_contra hc
    unfold getSrc getNumberOfCorners at hs
    rw [assemble_coordIndex, if_pos (by omega)] at hs
    injection hs with hs
    omega
  obtain ⟨n, rfl⟩ := Int.eq_ofNat_of_zero_le hrange.1
  have hn : n < ci.length := by omega
  rw [getSrc_natCast nV ci n hn] at hs
  injection hs with hs
  rw [getTwin_natCast nV ci n hn, assemble_twin]
  congr 1
  have htw := twinFinal_inv nV ci
  by_cases hcc : ClosedCorner ci n
  · obtain ⟨f, s, l, hvis, hr, hsn, hnl⟩ := closedCorner_visit hcc
    rw [hr.getDst_eq nV hval n hsn hnl, ← cornerDst_eq hr nV hval n hsn hnl] at hd
    injection hd with hd
    obtain ⟨hm, heq⟩ := visitEdge_eq nV ci (f, s, n) hvis
    have hedge : (assemble nV ci).getEdge v d
        = ((visitEdge ci (regFinal nV ci).2.g (f, s, n) : Nat) : Int) := by
      unfold getEdge
      rw [assemble_edges, ← hs, ← hd, heq]
      exact getEdge_of_mem _ _ _ hm
    have hmem : (n, visitEdge ci (regFinal nV ci).2.g (f, s, n))
        ∈ halfEdgeList ci (regFinal nV ci).2.g :=
      List.mem_map.mpr ⟨(f, s, n), hvis, rfl⟩
    have hb := (halfEdgeList_bounds nV ci _ hmem).2
    rw [hedge, getNumberOfEdgeHalfEdges_natCast nV ci _ hb] at h1
    have hlen : (cornersOf (halfEdgeList ci (regFinal nV ci).2.g)
        (visitEdge ci (regFinal nV ci).2.g (f, s, n))).length = 1 := by
      injection h1 with h1
      exact_mod_cast h1
    obtain ⟨a, ha⟩ := List.length_eq_one.mp hlen
    have hna : n = a := by
      have := (mem_cornersOf _ n _).mpr hmem
      rw [ha] at this
      exact List.mem_singleton.mp this
    rw [← hna] at ha
    have := htw.head _ hmem [] ha
    rw [this, if_pos rfl]
  · apply htw.unseen n hn
    intro x hx hxn
    unfold halfEdgeList at hx
    obtain ⟨y, hy, rfl⟩ := List.mem_map.mp hx
    exact hcc (hxn ▸ visit_closedCorner y hy)

theorem getTwin_of_boundary_edge_witness :
    (assemble 4 [0, 1, 2, -1, 0, 1, 3, -1]).getTwin 1 = some (-1) :=
  getTwin_of_boundary_edge 4 [0, 1, 2, -1, 0, 1, 3, -1] _
    (mkHalfEdges_of_valid (by decide) (by decide) (by decide)) 1 1 2 (by decide) (by decide) (by decide) (by decide)

/-! ## Reads of the queries at the last corner -/

theorem rd_length (v : List Int) : rd v (v.length : Int) = none := by
  unfold rd
  rw [if_neg (by omega), Int.toNat_ofNat]
  exact List.getElem?_eq_none (le_refl _)

/-- At the last index of a non-empty corner array `getNext` reads `_face[nC]`
and `getDst` reads `_coordIndex[nC]`, whatever the mesh. -/
theorem getNext_getDst_last_none (nV : Int) (ci : List Int) (h : HalfEdges)
    (hok : mkHalfEdges nV ci = .ok h) (hne : 0 < ci.length) :
    h.getNext ((ci.length : Int) - 1) = none ∧ h.getDst ((ci.length : Int) - 1) = none := by
  obtain ⟨_, rfl⟩ := mkHalfEdges_ok hok
  have hcast : ((ci.length : Int) - 1) = ((ci.length - 1 : Nat) : Int) := by omega
  have hback : ((ci.length - 1 : Nat) : Int) + 1 = (ci.length : Int) := by omega
  have hopen : (assemble nV ci).face.getD (ci.length - 1) 0 = -1 := by
    apply assemble_face_open nV ci (ci.length - 1) (by omega)
    rintro ⟨_, e, h1, h2, _⟩
    omega
  constructor
  · unfold getNext getNumberOfCorners
    rw [assemble_coordIndex, if_neg (by omega), hcast, hback]
    have := rd_length (assemble nV ci).face
    rw [assemble_face_length] at this
    rw [this]
    rfl
  · unfold getDst getNumberOfCorners
    rw [assemble_coordIndex, if_neg (by omega), if_neg (by omega), hcast, Int.toNat_ofNat,
      scanBackward_stop _ _ (by rw [assemble_face_length]; omega) hopen, Option.some_bind,
      hback]
    exact rd_length ci

theorem getNext_getDst_last_none_witness :
    (assemble 3 [0, 1, 2, -1]).getNext ((([0, 1, 2, -1] : List Int).length : Int) - 1) = none
      ∧ (assemble 3 [0, 1, 2, -1]).getDst ((([0, 1, 2, -1] : List Int).length : Int) - 1) = none :=
  getNext_getDst_last_none 3 [0, 1, 2, -1] _ (mkHalfEdges_of_valid (by decide) (by decide) (by decide)) (by decide)

/-- The queries `getFace`, `getSrc`, `getPrev` and `getTwin` read inside their
arrays for every argument. -/
theorem getFace_getSrc_getPrev_getTwin_total (nV : Int) (ci : List Int) (h : HalfEdges)
    (hok : mkHalfEdges nV ci = .ok h) (iC : Int) :
    (h.getFace iC).isSome = true ∧ (h.getSrc iC).isSome = true
      ∧ (h.getPrev iC).isSome = true ∧ (h.getTwin iC).isSome = true := by
  obtain ⟨_, rfl⟩ := mkHalfEdges_ok hok
  by_cases hr : iC < 0 ∨ iC ≥ (ci.length : Int)
  · unfold getFace getSrc getPrev getTwin getNumberOfCorners
    rw [assemble_coordIndex, if_pos hr, if_pos hr, if_pos hr, if_pos hr]
    exact ⟨rfl, rfl, rfl, rfl⟩
  · have h0 : 0 ≤ iC := by omega
    obtain ⟨n, rfl⟩ := Int.eq_ofNat_of_zero_le h0
    have hn : n < ci.length := by omega
    refine ⟨by rw [getFace_natCast nV ci n hn]; rfl, by rw [getSrc_natCast nV ci n hn]; rfl,
      ?_, by rw [getTwin_natCast nV ci n hn]; rfl⟩
    have hfwd : ((scanForward (assemble nV ci).face ci.length (ci.length - n) n).bind
        fun iC1 => some (iC1 - 1)).isSome = true := by
      have := scanForward_isSome (assemble nV ci).face ci.length (ci.length - n) n
        (by rw [assemble_face_length])
      obtain ⟨r, hr⟩ := Option.isSome_iff_exists.mp this
      rw [hr]; rfl
    unfold getPrev getNumberOfCorners
    rw [assemble_coordIndex, if_neg hr, Int.toNat_ofNat]
    by_cases hpos : (n : Int) > 0
    · rw [if_pos hpos]
      have hcast : ((n : Int) - 1) = ((n - 1 : Nat) : Int) := by omega
      rw [hcast, rd_natCast _ (n - 1) (by rw [assemble_face_length]; omega), Option.some_bind]
      split_ifs
      · rfl
      · exact hfwd
    · rw [if_neg hpos]
      exact hfwd

theorem getFace_getSrc_getPrev_getTwin_total_witness :
    ((assemble 3 [0, 1, 2, -1]).getFace 3).isSome = true
      ∧ ((assemble 3 [0, 1, 2, -1]).getSrc 3).isSome = true
      ∧ ((assemble 3 [0, 1, 2, -1]).getPrev 3).isSome = true
      ∧ ((assemble 3 [0, 1, 2, -1]).getTwin 3).isSome = true :=
  getFace_getSrc_getPrev_getTwin_total 3 [0, 1, 2, -1] _ (mkHalfEdges_of_valid (by decide) (by decide) (by decide)) 3

/-! ## Out-of-range arguments of the queries -/

/-- C11: for every constructed mesh, each of `getFace`, `getSrc`, `getDst`,
`getNext`, `getPrev`, `getTwin` returns `-1` when the corner index is negative
or not below `getNumberOfCorners()`; `getNumberOfEdgeHalfEdges(e)` returns `0`
and `getEdgeHalfEdge(e, j)` returns `-1` when `e` is negative or not below
`getNumberOfEdges()`; for `e` in range `getNumberOfEdgeHalfEdges(e)` returns
some `n ≥ 0` and `getEdgeHalfEdge(e, j)` returns `-1` when `j < 0` or `j ≥ n`. -/
theorem queries_out_of_range (nV : Int) (ci : List Int) (h : HalfEdges)
    (hok : mkHalfEdges nV ci = .ok h) :
    (∀ iC : Int, iC < 0 ∨ iC ≥ h.getNumberOfCorners →
        h.getFace iC = some (-1) ∧ h.getSrc iC = some (-1) ∧ h.getDst iC = some (-1)
          ∧ h.getNext iC = some (-1) ∧ h.getPrev iC = some (-1) ∧ h.getTwin iC = some (-1))
      ∧ (∀ e : Int, e < 0 ∨ e ≥ h.getNumberOfEdges →
          h.getNumberOfEdgeHalfEdges e = some 0 ∧ ∀ j : Int, h.getEdgeHalfEdge e j = some (-1))
      ∧ (∀ e : Int, 0 ≤ e → e < h.getNumberOfEdges →
          ∃ n : Int, 0 ≤ n ∧ h.getNumberOfEdgeHalfEdges e = some n
            ∧ ∀ j : Int, j < 0 ∨ j ≥ n → h.getEdgeHalfEdge e j = some (-1)) := by
  obtain ⟨_, rfl⟩ := mkHalfEdges_ok hok
  refine ⟨?_, ?_, ?_⟩
  · intro iC hr
    unfold getFace getSrc getDst getNext getPrev getTwin
    rw [if_pos hr, if_pos hr, if_pos hr, if_pos hr, if_pos hr, if_pos hr]
    exact ⟨rfl, rfl, rfl, rfl, rfl, rfl⟩
  · intro e hr
    constructor
    · unfold getNumberOfEdgeHalfEdges
      rw [if_pos hr]
    · intro j
      unfold getEdgeHalfEdge
      rw [if_pos hr]
  · intro e he0 he1
    obtain ⟨n, rfl⟩ := Int.eq_ofNat_of_zero_le he0
    have hn : n < (assemble nV ci).edges.pairs.length := by
      unfold getNumberOfEdges Edges.getNumberOfEdges at he1
      omega
    have hnum := getNumberOfEdgeHalfEdges_natCast nV ci n hn
    refine ⟨_, Int.natCast_nonneg _, hnum, ?_⟩
    intro j hj
    unfold getEdgeHalfEdge
    rw [if_neg (by omega)]
    by_cases hj0 : j < 0
    · rw [if_pos hj0]
    · rw [if_neg hj0, hnum, Option.some_bind, if_pos (by omega)]

theorem queries_out_of_range_witness :
    (∀ iC : Int, iC < 0 ∨ iC ≥ (assemble 3 [0, 1, 2, -1]).getNumberOfCorners →
        (assemble 3 [0, 1, 2, -1]).getFace iC = some (-1)
          ∧ (assemble 3 [0, 1, 2, -1]).getSrc iC = some (-1)
          ∧ (assemble 3 [0, 1, 2, -1]).getDst iC = some (-1)
          ∧ (assemble 3 [0, 1, 2, -1]).getNext iC = some (-1)
          ∧ (assemble 3 [0, 1, 2, -1]).getPrev iC = some (-1)
          ∧ (assemble 3 [0, 1, 2, -1]).getTwin iC = some (-1))
      ∧ (∀ e : Int, e < 0 ∨ e ≥ (assemble 3 [0, 1, 2, -1]).getNumberOfEdges →
          (assemble 3 [0, 1, 2, -1]).getNumberOfEdgeHalfEdges e = some 0
            ∧ ∀ j : Int, (assemble 3 [0, 1, 2, -1]).getEdgeHalfEdge e j = some (-1))
      ∧ (∀ e : Int, 0 ≤ e → e < (assemble 3 [0, 1, 2, -1]).getNumberOfEdges →
          ∃ n : Int, 0 ≤ n ∧ (assemble 3 [0, 1, 2, -1]).getNumberOfEdgeHalfEdges e = some n
            ∧ ∀ j : Int, j < 0 ∨ j ≥ n →
              (assemble 3 [0, 1, 2, -1]).getEdgeHalfEdge e j = some (-1)) :=
  queries_out_of_range 3 [0, 1, 2, -1] _ (mkHalfEdges_of_valid (by decide) (by decide) (by decide))

/-! ## The validation of the constructor -/

theorem firstViolation_some (nV : Int) (l : List Int) (iC : Nat) (err : IndexRangeError)
    (h : firstViolation nV l iC = some err) :
    ∃ k, err.position = iC + k ∧ k < l.length ∧ l.getD k 0 = err.value
      ∧ (err.value < -1 ∨ err.value ≥ nV)
      ∧ ∀ i, i < k → -1 ≤ l.getD i 0 ∧ l.getD i 0 < nV := by
  induction l generalizing iC with
  | nil => simp [firstViolation] at h
  | cons v rest ih =>
    unfold firstViolation at h
    split_ifs at h with hv
    · injection h with h
      subst h
      exact ⟨0, rfl, by simp, rfl, by simpa using (by omega : v < -1 ∨ v ≥ nV),
        fun i hi => absurd hi (Nat.not_lt_zero i)⟩
    · obtain ⟨k, hp, hk, hval, hbad, hgood⟩ := ih (iC + 1) h
      refine ⟨k + 1, by omega, by simpa using hk, by simpa using hval, hbad, ?_⟩
      intro i hi
      cases i with
      | zero => simp only [List.getD_cons_zero]; omega
      | succ n => simp only [List.getD_cons_succ]; exact hgood n (by omega)

theorem mkHalfEdges_error_iff (nV : Int) (ci : List Int) (err : IndexRangeError) :
    mkHalfEdges nV ci = .error (.indexRange err) ↔ firstViolation nV ci 0 = some err := by
  unfold mkHalfEdges
  constructor
  · intro h
    split at h
    · rename_i e he
      injection h with h
      injection h with h
      rw [he, h]
    · split_ifs at h
      injection h with h
      exact BuildError.noConfusion h
  · intro h
    rw [h]

/-- C12: the construction on `(nVertices, coordIndex)` throws the index-range
error exactly when some corner value `v` has `v < -1` or `v ≥ nVertices`; the
error then carries the position of the first such corner and its value, all
earlier corners being in range, and no mesh is returned. -/
theorem construction_index_range_error (nV : Int) (ci : List Int) :
    ((∃ err, mkHalfEdges nV ci = .error (.indexRange err)) ↔ ∃ v ∈ ci, v < -1 ∨ v ≥ nV)
      ∧ ∀ err, mkHalfEdges nV ci = .error (.indexRange err) →
          err.position < ci.length ∧ ci.getD err.position 0 = err.value
            ∧ (err.value < -1 ∨ err.value ≥ nV)
            ∧ (∀ i, i < err.position → -1 ≤ ci.getD i 0 ∧ ci.getD i 0 < nV)
            ∧ ∀ h, mkHalfEdges nV ci ≠ .ok h := by
  have hsome : ∀ err, mkHalfEdges nV ci = .error (.indexRange err) →
      err.position < ci.length ∧ ci.getD err.position 0 = err.value
        ∧ (err.value < -1 ∨ err.value ≥ nV)
        ∧ (∀ i, i < err.position → -1 ≤ ci.getD i 0 ∧ ci.getD i 0 < nV)
        ∧ ∀ h, mkHalfEdges nV ci ≠ .ok h := by
    intro err herr
    obtain ⟨k, hp, hk, hval, hbad, hgood⟩ :=
      firstViolation_some nV ci 0 err ((mkHalfEdges_error_iff nV ci err).mp herr)
    rw [Nat.zero_add] at hp
    rw [hp]
    refine ⟨hk, hval, hbad, hgood, ?_⟩
    intro h hh
    rw [herr] at hh
    exact Except.noConfusion hh
  refine ⟨⟨?_, ?_⟩, hsome⟩
  · rintro ⟨err, herr⟩
    obtain ⟨hlt, hval, hbad, _, _⟩ := hsome err herr
    refine ⟨err.value, ?_, hbad⟩
    rw [← hval, List.getD_eq_getElem _ _ hlt]
    exact List.getElem_mem hlt
  · rintro ⟨v, hv, hbad⟩
    cases hfv : firstViolation nV ci 0 with
    | none =>
      have := (firstViolation_none nV ci 0).mp hfv v hv
      omega
    | some err => exact ⟨err, (mkHalfEdges_error_iff nV ci err).mpr hfv⟩

theorem construction_index_range_error_witness :
    mkHalfEdges 3 [0, 1, 5, -1, 7] = .error (.indexRange ⟨5, 2⟩)
      ∧ (2 < ([0, 1, 5, -1, 7] : List Int).length
          ∧ ([0, 1, 5, -1, 7] : List Int).getD 2 0 = 5 ∧ ((5 : Int) < -1 ∨ (5 : Int) ≥ 3)
          ∧ (∀ i, i < 2 → -1 ≤ ([0, 1, 5, -1, 7] : List Int).getD i 0
              ∧ ([0, 1, 5, -1, 7] : List Int).getD i 0 < 3)
          ∧ ∀ h, mkHalfEdges 3 [0, 1, 5, -1, 7] ≠ .ok h) :=
  ⟨(mkHalfEdges_error_iff 3 [0, 1, 5, -1, 7] ⟨5, 2⟩).mpr (by decide),
    (construction_index_range_error 3 [0, 1, 5, -1, 7]).2 ⟨5, 2⟩
      ((mkHalfEdges_error_iff 3 [0, 1, 5, -1, 7] ⟨5, 2⟩).mpr (by decide))⟩

/-! ## The scan of `Faces::Faces` -/

theorem drop_cons_facts {ci : List Int} {n : Nat} {v : Int} {rest : List Int}
    (h : ci.drop n = v :: rest) :
    n < ci.length ∧ ci.getD n 0 = v ∧ ci.drop (n + 1) = rest := by
  have hlt : n < ci.length := by
    by_contra hc
    rw [List.drop_eq_nil_of_le (not_lt.mp hc)] at h
    exact List.noConfusion h
  rw [List.drop_eq_getElem_cons hlt] at h
  injection h with h1 h2
  refine ⟨hlt, ?_, h2⟩
  rw [List.getD_eq_getElem _ _ hlt, h1]

theorem take_succ_getD (ci : List Int) (n : Nat) (h : n < ci.length) :
    ci.take (n + 1) = ci.take n ++ [ci.getD n 0] := by
  rw [List.take_succ, List.getElem?_eq_getElem h, List.getD_eq_getElem _ _ h]
  rfl

theorem countNeg_take_mono (ci : List Int) (a b : Nat) (h : a ≤ b) :
    countNeg (ci.take a) ≤ countNeg (ci.take b) := by
  induction b with
  | zero =>
    have : a = 0 := by omega
    rw [this]
  | succ n ih =>
    rcases Nat.eq_or_lt_of_le h with h1 | h1
    · rw [h1]
    · have h2 := ih (by omega)
      by_cases hn : n < ci.length
      · rw [countNeg_take_succ ci n hn]
        omega
      · have e1 : ci.take (n + 1) = ci := List.take_of_length_le (by omega)
        have e2 : ci.take n = ci := List.take_of_length_le (by omega)
        rw [e1]
        rw [e2] at h2
        exact h2

theorem neg_index_unique (ci : List Int) (a b : Nat) (ha : a < ci.length) (hb : b < ci.length)
    (hna : ci.getD a 0 < 0) (hnb : ci.getD b 0 < 0)
    (h : countNeg (ci.take a) = countNeg (ci.take b)) : a = b := by
  rcases Nat.lt_trichotomy a b with h1 | h1 | h1
  · have h2 := countNeg_take_mono ci (a + 1) b h1
    rw [countNeg_take_succ ci a ha, if_pos hna] at h2
    omega
  · exact h1
  · have h2 := countNeg_take_mono ci (b + 1) a h1
    rw [countNeg_take_succ ci b hb, if_pos hnb] at h2
    omega

theorem faceSpan_unique {ci : List Int} {k s e s2 e2 : Nat} (h : FaceSpan ci k s e)
    (h2 : FaceSpan ci k s2 e2) : s = s2 ∧ e = e2 := by
  have he : e = e2 :=
    neg_index_unique ci e e2 h.lt h2.lt h.neg h2.neg (by rw [← h.index, ← h2.index])
  subst he
  refine ⟨?_, rfl⟩
  have hle := h.le
  have hle2 := h2.le
  rcases Nat.lt_trichotomy s s2 with h1 | h1 | h1
  · rcases h2.start with h0 | ⟨h3, h4⟩
    · omega
    · have := h.nonneg (s2 - 1) (by omega) (by omega)
      omega
  · exact h1
  · rcases h.start with h0 | ⟨h3, h4⟩
    · omega
    · have := h2.nonneg (s - 1) (by omega) (by omega)
      omega

theorem mapInsertOrAssign_new (m : List (Nat × FaceCornerIndexes)) (k : Nat)
    (v : FaceCornerIndexes) (hk : m.map (fun p => p.1) = List.range k) :
    mapInsertOrAssign m k v = m ++ [(k, v)] := by
  unfold mapInsertOrAssign
  rw [if_neg]
  intro hany
  rw [List.any_eq_true] at hany
  obtain ⟨p, hp, hpk⟩ := hany
  have hmem : p.1 ∈ m.map (fun p => p.1) := List.mem_map.mpr ⟨p, hp, rfl⟩
  rw [hk, List.mem_range] at hmem
  have : p.1 = k := by simpa using hpk
  omega

theorem facesInv_init (ci : List Int) : FacesInv ci 0 facesScanInit := by
  refine ⟨rfl, ?_, le_refl _, fun i _ h => absurd h (Nat.not_lt_zero i),
    Or.inl rfl, rfl, fun p hp => absurd hp (List.not_mem_nil p), List.nodup_nil, ?_⟩
  · show 0 = countNeg (ci.take 0)
    simp [countNeg]
  · intro v
    show v ∈ ([] : List Int) ↔ _
    simp

theorem facesInv_step {ci : List Int} {n : Nat} {s : FacesScan} (h : FacesInv ci n s)
    (hn : n < ci.length) : FacesInv ci (n + 1) (facesStep s (ci.getD n 0)) := by
  have htake := take_succ_getD ci n hn
  have hcount := countNeg_take_succ ci n hn
  unfold facesStep
  by_cases hv : ci.getD n 0 ≥ 0
  · rw [if_pos hv]
    refine ⟨by simp [h.stop], ?_, Nat.le_succ_of_le h.le, ?_, h.start, h.keys, h.spans, ?_, ?_⟩
    · show s.faceIndex = _
      rw [hcount, if_neg (not_lt.mpr hv), h.index]; rfl
    · intro i hi hi2
      rcases Nat.eq_or_lt_of_le (Nat.lt_succ_iff.mp hi2) with e | e
      · rw [e]; exact hv
      · exact h.nonneg i hi e
    · show (if ci.getD n 0 ∈ s.uniqueIndexes then s.uniqueIndexes
        else s.uniqueIndexes ++ [ci.getD n 0]).Nodup
      split_ifs with hm
      · exact h.nodup
      · exact List.Nodup.append h.nodup (List.nodup_singleton _)
          (by simpa [List.disjoint_singleton] using hm)
    · intro v
      show v ∈ (if ci.getD n 0 ∈ s.uniqueIndexes then s.uniqueIndexes
        else s.uniqueIndexes ++ [ci.getD n 0]) ↔ _
      rw [htake, List.mem_append, List.mem_singleton]
      split_ifs with hm
      · rw [h.mem]
        constructor
        · intro hh; exact ⟨Or.inl hh.1, hh.2⟩
        · rintro ⟨hh | hh, h0⟩
          · exact ⟨hh, h0⟩
          · rw [hh]; exact (h.mem _).mp hm
      · rw [List.mem_append, List.mem_singleton, h.mem]
        constructor
        · rintro (hh | hh)
          · exact ⟨Or.inl hh.1, hh.2⟩
          · exact ⟨Or.inr hh, by rw [hh]; exact hv⟩
        · rintro ⟨hh | hh, h0⟩
          · exact Or.inl ⟨hh, h0⟩
          · exact Or.inr hh
  · rw [if_neg hv]
    have hneg : ci.getD n 0 < 0 := not_le.mp hv
    have hmap := mapInsertOrAssign_new s.faceMap s.faceIndex ⟨s.coordIndexStart, s.coordIndexEnd⟩
      h.keys
    refine ⟨by simp [h.stop], ?_, by simp [h.stop], ?_, ?_, ?_, ?_, h.nodup, ?_⟩
    · show s.faceIndex + 1 = _
      rw [hcount, if_pos hneg, h.index]
    · intro i hi hi2
      simp only [h.stop] at hi
      omega
    · refine Or.inr ⟨by simp, ?_⟩
      simp only [h.stop, Nat.add_sub_cancel]
      exact hneg
    · show (mapInsertOrAssign _ _ _).map (fun p => p.1) = List.range (s.faceIndex + 1)
      rw [hmap, List.map_append, h.keys, List.range_succ]
      rfl
    · intro p hp
      rw [hmap] at hp
      rcases List.mem_append.mp hp with hp | hp
      · exact h.spans p hp
      · rw [List.mem_singleton] at hp
        subst hp
        simp only [h.stop]
        exact ⟨h.le, hn, hneg, h.nonneg, h.start, h.index⟩
    · intro v
      rw [htake, List.mem_append, List.mem_singleton, h.mem]
      constructor
      · intro hh; exact ⟨Or.inl hh.1, hh.2⟩
      · rintro ⟨hh | hh, h0⟩
        · exact ⟨hh, h0⟩
        · rw [hh] at h0; omega

theorem facesInv_foldl (ci rest : List Int) (n : Nat) (s : FacesScan)
    (hd : ci.drop n = rest) (hn : n ≤ ci.length) (h : FacesInv ci n s) :
    FacesInv ci ci.length (rest.foldl facesStep s) := by
  induction rest generalizing n s with
  | nil =>
    have hlen : ci.length ≤ n := by
      have := congrArg List.length hd
      simp at this; omega
    have hn2 : n = ci.length := le_antisymm hn hlen
    rw [← hn2]
    exact h
  | cons v rest ih =>
    obtain ⟨hlt, hget, hdrop⟩ := drop_cons_facts hd
    rw [List.foldl_cons, ← hget]
    exact ih (n + 1) _ hdrop hlt (facesInv_step h hlt)

theorem facesScan_inv (ci : List Int) : FacesInv ci ci.length (facesScan ci) :=
  facesInv_foldl ci ci 0 _ (by simp) (Nat.zero_le _) (facesInv_init ci)

theorem mkFaces_ok {nV : Int} {ci : List Int} {f : Faces} (h : mkFaces nV ci = .ok f) :
    nV = ((facesScan ci).uniqueIndexes.length : Int) ∧ f.coordIndex = ci
      ∧ f.faceMap = (facesScan ci).faceMap ∧ f.numbOfVertices = nV := by
  unfold mkFaces at h
  split_ifs at h with hne
  injection h with h
  subst h
  exact ⟨not_not.mp hne, rfl, rfl, rfl⟩

theorem mkFaces_of_count {nV : Int} {ci : List Int}
    (h : nV = ((facesScan ci).uniqueIndexes.length : Int)) :
    mkFaces nV ci = .ok { coordIndex := ci, faceMap := (facesScan ci).faceMap,
                          numbOfVertices := nV } := by
  unfold mkFaces
  rw [if_neg (not_not.mpr h)]

theorem facesScan_faceMap_length (ci : List Int) :
    (facesScan ci).faceMap.length = countNeg ci := by
  have h := facesScan_inv ci
  have := congrArg List.length h.keys
  rw [List.length_map, List.length_range, h.index, List.take_length] at this
  exact this

theorem facesScan_mapFind (ci : List Int) (k : Nat) (hk : k < countNeg ci) :
    ∃ r, mapFind (facesScan ci).faceMap (k : Int) = some r ∧ FaceSpan ci k r.start r.stop := by
  have h := facesScan_inv ci
  have hmem : k ∈ (facesScan ci).faceMap.map (fun p => p.1) := by
    rw [h.keys, List.mem_range, h.index, List.take_length]; exact hk
  obtain ⟨p, hp, hpk⟩ := List.mem_map.mp hmem
  unfold mapFind
  cases hf : (facesScan ci).faceMap.find? (fun p => decide ((p.1 : Int) = (k : Int))) with
  | none =>
    have := List.find?_eq_none.mp hf p hp
    simp only [decide_eq_true_eq] at this
    exact absurd (by rw [hpk]) this
  | some q =>
    have hq := List.find?_some hf
    have hqm := List.mem_of_find?_eq_some hf
    simp only [decide_eq_true_eq] at hq
    have hqk : q.1 = k := by exact_mod_cast hq
    refine ⟨q.2, rfl, ?_⟩
    rw [← hqk]
    exact h.spans q hqm

theorem faces_face (nV : Int) (ci : List Int) (f : Faces) (hok : mkFaces nV ci = .ok f)
    (k : Nat) (hk : (k : Int) < f.getNumberOfFaces) :
    ∃ s e, FaceSpan ci k s e ∧ mapFind f.faceMap (k : Int) = some ⟨s, e⟩
      ∧ f.getFaceFirstCorner (k : Int) = (s : Int)
      ∧ f.getFaceSize (k : Int) = (e : Int) - (s : Int) := by
  obtain ⟨_, _, hm, _⟩ := mkFaces_ok hok
  unfold Faces.getNumberOfFaces at hk
  have hk2 : k < countNeg ci := by
    rw [hm, facesScan_faceMap_length] at hk
    exact_mod_cast hk
  obtain ⟨r, hr, hspan⟩ := facesScan_mapFind ci k hk2
  have hvalid : f.isValidFace (k : Int) := ⟨Int.natCast_nonneg _, hk⟩
  refine ⟨r.start, r.stop, hspan, by rw [hm, hr], ?_, ?_⟩
  · unfold Faces.getFaceFirstCorner
    rw [if_neg (not_not.mpr hvalid), hm, hr]
  · unfold Faces.getFaceSize
    rw [if_neg (not_not.mpr hvalid), hm, hr]

/-! ## The count check of `Faces::Faces` -/

theorem uniqueIndexes_card (ci : List Int) :
    (facesScan ci).uniqueIndexes.length
      = (ci.filter (fun v => decide (0 ≤ v))).toFinset.card := by
  have h := facesScan_inv ci
  rw [← List.toFinset_card_of_nodup h.nodup]
  congr 1
  ext v
  rw [List.mem_toFinset, List.mem_toFinset, h.mem, List.take_length, List.mem_filter,
    decide_eq_true_eq]

/-- C13: the construction of `Faces` on `(nV, coordIndex)` throws the
count-mismatch error exactly when the number of distinct non-negative values
of `coordIndex` differs from `nV`, and returns an object otherwise. -/
theorem faces_count_mismatch (nV : Int) (ci : List Int) :
    (mkFaces nV ci = .error .countMismatch
        ↔ ((ci.filter (fun v => decide (0 ≤ v))).toFinset.card : Int) ≠ nV)
      ∧ ((∃ f, mkFaces nV ci = .ok f)
        ↔ ((ci.filter (fun v => decide (0 ≤ v))).toFinset.card : Int) = nV) := by
  rw [← uniqueIndexes_card]
  unfold mkFaces
  by_cases h : nV ≠ ((facesScan ci).uniqueIndexes.length : Int)
  · rw [if_pos h]
    refine ⟨⟨fun _ => fun e => h e.symm, fun _ => rfl⟩, ⟨?_, fun e => absurd e.symm h⟩⟩
    rintro ⟨f, hf⟩
    exact Except.noConfusion hf
  · rw [if_neg h]
    have h2 : nV = ((facesScan ci).uniqueIndexes.length : Int) := not_not.mp h
    refine ⟨⟨fun e => Except.noConfusion e, fun e => absurd h2.symm e⟩,
      ⟨fun _ => h2.symm, fun _ => ⟨_, rfl⟩⟩⟩

/-- C14, as stated, fails: `Faces` accepts `nV = 3` with `[0, 1, 5, -1]` (three
distinct values), although the corner value 5 is not below 3 and the id 2 is
not a corner value. -/
theorem faces_values_not_vertex_set :
    mkFaces 3 [0, 1, 5, -1] = .ok ⟨[0, 1, 5, -1], [(0, ⟨0, 3⟩)], 3⟩
      ∧ (5 : Int) ∈ ([0, 1, 5, -1] : List Int) ∧ ¬ ((5 : Int) < 3)
      ∧ (2 : Int) ∉ ([0, 1, 5, -1] : List Int) :=
  ⟨mkFaces_of_count (by decide), by decide, by decide, by decide⟩

/-- C14, amended: whenever the construction of `Faces` on `(nV, coordIndex)`
succeeds, the number of distinct non-negative corner values is `nV`; if
moreover every non-negative corner value is below `nV`, then every id in
`[0, nV)` is a corner value. -/
theorem faces_distinct_count (nV : Int) (ci : List Int) (f : Faces)
    (hok : mkFaces nV ci = .ok f) :
    ((ci.filter (fun v => decide (0 ≤ v))).toFinset.card : Int) = nV
      ∧ ((∀ v ∈ ci, 0 ≤ v → v < nV) → ∀ i : Int, 0 ≤ i → i < nV → i ∈ ci) := by
  have hcard : ((ci.filter (fun v => decide (0 ≤ v))).toFinset.card : Int) = nV := by
    rw [← uniqueIndexes_card]
    exact (mkFaces_ok hok).1.symm
  refine ⟨hcard, ?_⟩
  intro hrange i hi0 hi1
  have hsub : (ci.filter (fun v => decide (0 ≤ v))).toFinset ⊆ Finset.Ico (0 : Int) nV := by
    intro v hv
    rw [List.mem_toFinset, List.mem_filter, decide_eq_true_eq] at hv
    rw [Finset.mem_Ico]
    exact ⟨hv.2, hrange v hv.1 hv.2⟩
  have hle : (Finset.Ico (0 : Int) nV).card
      ≤ (ci.filter (fun v => decide (0 ≤ v))).toFinset.card := by
    rw [Int.card_Ico]
    omega
  have heq := Finset.eq_of_subset_of_card_le hsub hle
  have hmem : i ∈ (ci.filter (fun v => decide (0 ≤ v))).toFinset := by
    rw [heq, Finset.mem_Ico]; exact ⟨hi0, hi1⟩
  rw [List.mem_toFinset, List.mem_filter] at hmem
  exact hmem.1

theorem faces_distinct_count_witness :
    ((([0, 1, 2, -1, 0, 2, 3, -1] : List Int).filter (fun v => decide (0 ≤ v))).toFinset.card
        : Int) = 4
      ∧ ((∀ v ∈ ([0, 1, 2, -1, 0, 2, 3, -1] : List Int), 0 ≤ v → v < 4) →
          ∀ i : Int, 0 ≤ i → i < 4 → i ∈ ([0, 1, 2, -1, 0, 2, 3, -1] : List Int)) :=
  faces_distinct_count 4 [0, 1, 2, -1, 0, 2, 3, -1] _ (mkFaces_of_count (by decide))

/-! ## The faces of `Faces` as runs between separators -/

/-- C16: for every successfully constructed `Faces`, face 0 (if any) starts at
corner 0; face `k + 1` starts at `getFaceFirstCorner(k) + getFaceSize(k) + 1`;
the entry at `getFaceFirstCorner(k) + getFaceSize(k)` is negative and has
exactly `k` negative entries before it; the size is not negative and every
entry in `[first, first + size)` is non-negative. -/
theorem faces_are_runs (nV : Int) (ci : List Int) (f : Faces)
    (hok : mkFaces nV ci = .ok f) :
    (0 < f.getNumberOfFaces → f.getFaceFirstCorner 0 = 0)
      ∧ (∀ k : Nat, (k : Int) + 1 < f.getNumberOfFaces →
          f.getFaceFirstCorner ((k : Int) + 1)
            = f.getFaceFirstCorner (k : Int) + f.getFaceSize (k : Int) + 1)
      ∧ (∀ k : Nat, (k : Int) < f.getNumberOfFaces →
          ∃ p : Nat, f.getFaceFirstCorner (k : Int) + f.getFaceSize (k : Int) = (p : Int)
            ∧ p < ci.length ∧ ci.getD p 0 < 0 ∧ countNeg (ci.take p) = k
            ∧ 0 ≤ f.getFaceFirstCorner (k : Int) ∧ 0 ≤ f.getFaceSize (k : Int)
            ∧ ∀ i : Nat, f.getFaceFirstCorner (k : Int) ≤ (i : Int) → i < p →
                0 ≤ ci.getD i 0) := by
  refine ⟨?_, ?_, ?_⟩
  · intro h0
    obtain ⟨s, e, hspan, _, hfirst, _⟩ := faces_face nV ci f hok 0 (by exact_mod_cast h0)
    have hfirst2 : f.getFaceFirstCorner 0 = (s : Int) := hfirst
    rw [hfirst2]
    rcases hspan.start with hs | ⟨hs1, hs2⟩
    · rw [hs]; rfl
    · exfalso
      have hle := hspan.le
      have hlt := hspan.lt
      have h1 := countNeg_take_mono ci (s - 1 + 1) e (by omega)
      rw [countNeg_take_succ ci (s - 1) (by omega), if_pos hs2, ← hspan.index] at h1
      omega
  · intro k hk
    obtain ⟨s, e, hspan, _, hfirst, hsize⟩ := faces_face nV ci f hok k (by omega)
    obtain ⟨s2, e2, hspan2, _, hfirst2, _⟩ :=
      faces_face nV ci f hok (k + 1) (by push_cast; exact hk)
    have hcast : ((k : Int) + 1) = ((k + 1 : Nat) : Int) := by push_cast; rfl
    rw [hcast, hfirst2, hfirst, hsize]
    have hle := hspan.le
    have hlt := hspan.lt
    have hle2 := hspan2.le
    have hlt2 := hspan2.lt
    have hrun : countNeg (ci.take e2) = countNeg (ci.take s2) :=
      countNeg_take_run ci s2 e2 hle2 (le_of_lt hlt2) hspan2.nonneg
    rcases hspan2.start with hs | ⟨hs1, hs2⟩
    · exfalso
      rw [hs] at hrun
      have : countNeg (ci.take 0) = 0 := by simp [countNeg]
      have := hspan2.index
      omega
    · have hsucc := countNeg_take_succ ci (s2 - 1) (by omega)
      rw [if_pos hs2] at hsucc
      have hs2eq : s2 - 1 + 1 = s2 := by omega
      rw [hs2eq] at hsucc
      have hcount : countNeg (ci.take (s2 - 1)) = countNeg (ci.take e) := by
        have h1 := hspan.index
        have h2 := hspan2.index
        omega
      have := neg_index_unique ci (s2 - 1) e (by omega) hlt hs2 hspan.neg hcount
      omega
  · intro k hk
    obtain ⟨s, e, hspan, _, hfirst, hsize⟩ := faces_face nV ci f hok k hk
    have hle := hspan.le
    refine ⟨e, by rw [hfirst, hsize]; omega, hspan.lt, hspan.neg, hspan.index.symm,
      by rw [hfirst]; omega, by rw [hsize]; omega, ?_⟩
    intro i hi hi2
    rw [hfirst] at hi
    exact hspan.nonneg i (by omega) hi2

theorem faces_are_runs_witness :
    (0 < twoTrianglesFaces.getNumberOfFaces → twoTrianglesFaces.getFaceFirstCorner 0 = 0)
      ∧ (∀ k : Nat, (k : Int) + 1 < twoTrianglesFaces.getNumberOfFaces →
          twoTrianglesFaces.getFaceFirstCorner ((k : Int) + 1)
            = twoTrianglesFaces.getFaceFirstCorner (k : Int)
              + twoTrianglesFaces.getFaceSize (k : Int) + 1)
      ∧ (∀ k : Nat, (k : Int) < twoTrianglesFaces.getNumberOfFaces →
          ∃ p : Nat, twoTrianglesFaces.getFaceFirstCorner (k : Int)
              + twoTrianglesFaces.getFaceSize (k : Int) = (p : Int)
            ∧ p < twoTriangles.length ∧ twoTriangles.getD p 0 < 0
            ∧ countNeg (twoTriangles.take p) = k
            ∧ 0 ≤ twoTrianglesFaces.getFaceFirstCorner (k : Int)
            ∧ 0 ≤ twoTrianglesFaces.getFaceSize (k : Int)
            ∧ ∀ i : Nat, twoTrianglesFaces.getFaceFirstCorner (k : Int) ≤ (i : Int) → i < p →
                0 ≤ twoTriangles.getD i 0) :=
  faces_are_runs 4 twoTriangles twoTrianglesFaces
    (mkFaces_of_count (by decide))

theorem mkFaces_twoTriangles : mkFaces 4 twoTriangles = .ok twoTrianglesFaces :=
  mkFaces_of_count (by decide)

/-! ## The number of faces -/

theorem countFacesLoop_eq (l : List Int) (n : Int) :
    countFacesLoop l n = n + (countNeg l : Int) := by
  induction l generalizing n with
  | nil => simp [countFacesLoop, countNeg]
  | cons v rest ih =>
    unfold countFacesLoop
    split_ifs with hv
    · rw [ih]
      have : countNeg (v :: rest) = countNeg rest := by
        simp [countNeg, List.filter_cons, not_lt.mpr hv]
      rw [this]
    · rw [ih]
      have : countNeg (v :: rest) = countNeg rest + 1 := by
        simp [countNeg, List.filter_cons, not_le.mp hv]
      rw [this]
      push_cast
      omega

/-! ## `getFaceVertex` at the separator of a face -/

/-- C18: on `nV = 3`, `coordIndex = [0, 1, 2, -2]` the construction succeeds,
face 0 is the range `[0, 3)`, and `getFaceVertex(0, 3)`, with corner 3 outside
that range, returns the separator value `-2` and not `-1`. -/
theorem getFaceVertex_at_separator :
    mkFaces 3 [0, 1, 2, -2] = .ok ⟨[0, 1, 2, -2], [(0, ⟨0, 3⟩)], 3⟩
      ∧ (⟨[0, 1, 2, -2], [(0, ⟨0, 3⟩)], 3⟩ : Faces).getFaceFirstCorner 0 = 0
      ∧ (⟨[0, 1, 2, -2], [(0, ⟨0, 3⟩)], 3⟩ : Faces).getFaceSize 0 = 3
      ∧ (⟨[0, 1, 2, -2], [(0, ⟨0, 3⟩)], 3⟩ : Faces).getFaceVertex 0 3 = some (-2) :=
  ⟨mkFaces_of_count (by decide), by decide, by decide, by decide⟩

/-! ## `getCornerFace` and `getNextCorner` -/

theorem mapFind_mem (m : List (Nat × FaceCornerIndexes)) (iF : Int) (r : FaceCornerIndexes)
    (h : mapFind m iF = some r) : ∃ p ∈ m, (p.1 : Int) = iF ∧ p.2 = r := by
  unfold mapFind at h
  cases hf : m.find? (fun p => decide ((p.1 : Int) = iF)) with
  | none => rw [hf] at h; exact Option.noConfusion h
  | some q =>
    rw [hf] at h
    injection h with h
    have hq := List.find?_some hf
    simp only [decide_eq_true_eq] at hq
    exact ⟨q, List.mem_of_find?_eq_some hf, hq, h⟩

theorem FaceRange.toFaceSpan {ci : List Int} {s l : Nat} (hr : FaceRange ci s l) :
    FaceSpan ci (countNeg (ci.take (l + 1))) s (l + 1) :=
  ⟨Nat.le_succ_of_le hr.le, hr.lt, hr.stop, fun i hi hi2 => hr.nonneg i hi (by omega),
    hr.start, rfl⟩

theorem FaceSpan.closedCorner {ci : List Int} {k s e : Nat} (h : FaceSpan ci k s e) (n : Nat)
    (h1 : s ≤ n) (h2 : n < e) : ClosedCorner ci n ∧ countNeg (ci.take n) = k := by
  refine ⟨⟨h.nonneg n h1 h2, e, h2, h.lt, h.neg⟩, ?_⟩
  rw [h.index]
  exact (countNeg_take_run ci n e (le_of_lt h2) (le_of_lt h.lt)
    (fun i hi hi2 => h.nonneg i (by omega) hi2)).symm

theorem facesScan_contains (ci : List Int) (n : Nat) (hc : ClosedCorner ci n) :
    ∃ p ∈ (facesScan ci).faceMap, p.2.start ≤ n ∧ n < p.2.stop := by
  obtain ⟨s, l, hr, hs, hl⟩ := closedCorner_faceRange hc
  have hlt := hr.lt
  have hk : countNeg (ci.take (l + 1)) < countNeg ci := by
    have h1 := countNeg_take_succ ci (l + 1) hlt
    rw [if_pos hr.stop] at h1
    have h2 := countNeg_take_mono ci (l + 1 + 1) ci.length (by omega)
    rw [List.take_length] at h2
    omega
  obtain ⟨r, hfind, hspan⟩ := facesScan_mapFind ci _ hk
  obtain ⟨p, hp, _, hpr⟩ := mapFind_mem _ _ _ hfind
  obtain ⟨h1, h2⟩ := faceSpan_unique hspan hr.toFaceSpan
  refine ⟨p, hp, ?_, ?_⟩
  · rw [hpr, h1]; exact hs
  · rw [hpr, h2]; omega

theorem cornerFaceLoop_eq (ci : List Int) (n : Nat) (l : List (Nat × FaceCornerIndexes))
    (hspans : ∀ p ∈ l, FaceSpan ci p.1 p.2.start p.2.stop) :
    Faces.cornerFaceLoop (n : Int) l
      = if (∃ p ∈ l, p.2.start ≤ n ∧ n < p.2.stop) then (countNeg (ci.take n) : Int) else -1 := by
  induction l with
  | nil =>
    unfold Faces.cornerFaceLoop
    rw [if_neg]
    rintro ⟨p, hp, _⟩
    exact absurd hp (List.not_mem_nil p)
  | cons p rest ih =>
    unfold Faces.cornerFaceLoop
    by_cases hin : p.2.start ≤ n ∧ n < p.2.stop
    · rw [if_pos (by omega), if_pos ⟨p, List.mem_cons_self _ _, hin⟩,
        ((hspans p (List.mem_cons_self _ _)).closedCorner n hin.1 hin.2).2]
    · rw [if_neg (by omega), ih (fun q hq => hspans q (List.mem_cons_of_mem _ hq))]
      have hiff : (∃ q ∈ p :: rest, q.2.start ≤ n ∧ n < q.2.stop)
          ↔ (∃ q ∈ rest, q.2.start ≤ n ∧ n < q.2.stop) := by
        constructor
        · rintro ⟨q, hq, hqin⟩
          rcases List.mem_cons.mp hq with h1 | h1
          · rw [h1] at hqin; exact absurd hqin hin
          · exact ⟨q, h1, hqin⟩
        · rintro ⟨q, hq, hqin⟩
          exact ⟨q, List.mem_cons_of_mem _ hq, hqin⟩
      by_cases hex : ∃ q ∈ rest, q.2.start ≤ n ∧ n < q.2.stop
      · rw [if_pos hex, if_pos (hiff.mpr hex)]
      · rw [if_neg hex, if_neg (fun h => hex (hiff.mp h))]

theorem getCornerFace_closed (nV : Int) (ci : List Int) (f : Faces)
    (hok : mkFaces nV ci = .ok f) (n : Nat) (hc : ClosedCorner ci n) :
    f.getCornerFace (n : Int) = some (countNeg (ci.take n) : Int) := by
  obtain ⟨_, hci, hm, _⟩ := mkFaces_ok hok
  have hinv := facesScan_inv ci
  have hc0 := hc.1
  have hn : n < ci.length := by
    obtain ⟨_, e, he1, he2, _⟩ := hc
    omega
  have hvalid : f.isValidCorner (n : Int) := by
    unfold Faces.isValidCorner
    rw [hci]
    omega
  unfold Faces.getCornerFace
  rw [if_neg (not_not.mpr hvalid), hci, rd_natCast ci n hn, Option.some_bind,
    if_neg (by omega), hm, cornerFaceLoop_eq ci n _ hinv.spans,
    if_pos (facesScan_contains ci n hc)]

theorem getCornerFace_open (nV : Int) (ci : List Int) (f : Faces)
    (hok : mkFaces nV ci = .ok f) (n : Nat) (hn : n < ci.length) (hc : ¬ ClosedCorner ci n) :
    f.getCornerFace (n : Int) = some (-1) := by
  obtain ⟨_, hci, hm, _⟩ := mkFaces_ok hok
  have hinv := facesScan_inv ci
  have hvalid : f.isValidCorner (n : Int) := by
    unfold Faces.isValidCorner
    rw [hci]
    omega
  unfold Faces.getCornerFace
  rw [if_neg (not_not.mpr hvalid), hci, rd_natCast ci n hn, Option.some_bind]
  by_cases hv : ci.getD n 0 = -1
  · rw [if_pos hv]
  · rw [if_neg hv, hm, cornerFaceLoop_eq ci n _ hinv.spans, if_neg]
    rintro ⟨p, hp, h1, h2⟩
    exact hc ((hinv.spans p hp).closedCorner n h1 h2).1

/-- C19: for every successfully constructed `Faces` and every integer `c`,
`getCornerFace(c)` is a face `k` exactly when `c` lies in the range
`[getFaceFirstCorner(k), getFaceFirstCorner(k) + getFaceSize(k))` of `k` (so at
most one face has `c` in its range); it is `-1` when `c` is out of range, when
the entry at `c` is negative, and when no negative entry follows `c`. -/
theorem getCornerFace_iff (nV : Int) (ci : List Int) (f : Faces)
    (hok : mkFaces nV ci = .ok f) (c : Int) :
    (∀ k : Nat, (k : Int) < f.getNumberOfFaces →
        (f.getCornerFace c = some (k : Int)
          ↔ f.getFaceFirstCorner (k : Int) ≤ c
            ∧ c < f.getFaceFirstCorner (k : Int) + f.getFaceSize (k : Int)))
      ∧ (c < 0 ∨ c ≥ (ci.length : Int) → f.getCornerFace c = some (-1))
      ∧ (∀ n : Nat, c = (n : Int) → n < ci.length → ci.getD n 0 < 0 →
          f.getCornerFace c = some (-1))
      ∧ (∀ n : Nat, c = (n : Int) → n < ci.length →
          (∀ e, n < e → e < ci.length → 0 ≤ ci.getD e 0) → f.getCornerFace c = some (-1)) := by
  obtain ⟨_, hci, hm, _⟩ := mkFaces_ok hok
  have hout : c < 0 ∨ c ≥ (ci.length : Int) → f.getCornerFace c = some (-1) := by
    intro hr
    unfold Faces.getCornerFace Faces.isValidCorner
    rw [if_pos (by rw [hci]; omega)]
  refine ⟨?_, hout, ?_, ?_⟩
  · intro k hk
    obtain ⟨s, e, hspan, _, hfirst, hsize⟩ := faces_face nV ci f hok k hk
    rw [hfirst, hsize]
    have hle := hspan.le
    have hlt := hspan.lt
    by_cases hr : c < 0 ∨ c ≥ (ci.length : Int)
    · rw [hout hr]
      constructor
      · intro h
        injection h with h
        omega
      · intro h
        omega
    · have h0 : 0 ≤ c := by omega
      obtain ⟨n, rfl⟩ := Int.eq_ofNat_of_zero_le h0
      have hn : n < ci.length := by omega
      constructor
      · intro h
        by_cases hc : ClosedCorner ci n
        · rw [getCornerFace_closed nV ci f hok n hc] at h
          injection h with h
          have hkn : countNeg (ci.take n) = k := by exact_mod_cast h
          obtain ⟨p, hp, h1, h2⟩ := facesScan_contains ci n hc
          have hsp := (facesScan_inv ci).spans p hp
          have hpk := (hsp.closedCorner n h1 h2).2
          rw [hkn] at hpk
          rw [← hpk] at hsp
          obtain ⟨e1, e2⟩ := faceSpan_unique hspan hsp
          omega
        · rw [getCornerFace_open nV ci f hok n hn hc] at h
          injection h with h
          omega
      · intro h
        obtain ⟨hc, hcount⟩ := hspan.closedCorner n (by omega) (by omega)
        rw [getCornerFace_closed nV ci f hok n hc, hcount]
  · intro n hcn hn hneg
    subst hcn
    apply getCornerFace_open nV ci f hok n hn
    intro hc
    have := hc.1
    omega
  · intro n hcn hn hlast
    subst hcn
    apply getCornerFace_open nV ci f hok n hn
    rintro ⟨_, e, h1, h2, h3⟩
    have := hlast e h1 h2
    omega

theorem getCornerFace_iff_witness :
    (∀ k : Nat, (k : Int) < twoTrianglesFaces.getNumberOfFaces →
        (twoTrianglesFaces.getCornerFace 5 = some (k : Int)
          ↔ twoTrianglesFaces.getFaceFirstCorner (k : Int) ≤ 5
            ∧ 5 < twoTrianglesFaces.getFaceFirstCorner (k : Int)
                + twoTrianglesFaces.getFaceSize (k : Int)))
      ∧ ((5 : Int) < 0 ∨ (5 : Int) ≥ (twoTriangles.length : Int) →
          twoTrianglesFaces.getCornerFace 5 = some (-1))
      ∧ (∀ n : Nat, (5 : Int) = (n : Int) → n < twoTriangles.length →
          twoTriangles.getD n 0 < 0 → twoTrianglesFaces.getCornerFace 5 = some (-1))
      ∧ (∀ n : Nat, (5 : Int) = (n : Int) → n < twoTriangles.length →
          (∀ e, n < e → e < twoTriangles.length → 0 ≤ twoTriangles.getD e 0) →
          twoTrianglesFaces.getCornerFace 5 = some (-1)) :=
  getCornerFace_iff 4 twoTriangles twoTrianglesFaces mkFaces_twoTriangles 5

theorem nextCornerLoop_cons (m rest : List (Nat × FaceCornerIndexes)) (iC : Int)
    (p : Nat × FaceCornerIndexes) :
    Faces.nextCornerLoop m iC (p :: rest)
      = if (p.2.start : Int) ≤ iC ∧ iC < (p.2.stop : Int) then
          (if iC + 1 < (p.2.stop : Int) then some (iC + 1)
           else if (p.1 : Int) + 1 < (m.length : Int) then
             (mapFind m ((p.1 : Int) + 1)).map fun r => (r.start : Int)
           else Faces.nextCornerLoop m iC rest)
        else Faces.nextCornerLoop m iC rest := rfl

theorem nextCornerLoop_eq (m l : List (Nat × FaceCornerIndexes)) (n k e : Nat)
    (hkey : ∀ p ∈ l, p.2.start ≤ n → n < p.2.stop → p.1 = k ∧ p.2.stop = e) :
    Faces.nextCornerLoop m (n : Int) l
      = if (∃ p ∈ l, p.2.start ≤ n ∧ n < p.2.stop) then
          (if n + 1 < e then some ((n : Int) + 1)
           else if k + 1 < m.length then
             (mapFind m ((k : Int) + 1)).map fun r => (r.start : Int)
           else some (-1))
        else some (-1) := by
  induction l with
  | nil =>
    have hno : ¬ ∃ p ∈ ([] : List (Nat × FaceCornerIndexes)), p.2.start ≤ n ∧ n < p.2.stop := by
      rintro ⟨p, hp, _⟩
      exact absurd hp (List.not_mem_nil p)
    rw [if_neg hno]
    rfl
  | cons p rest ih =>
    have ih2 := ih (fun q hq => hkey q (List.mem_cons_of_mem _ hq))
    rw [nextCornerLoop_cons]
    by_cases hin : p.2.start ≤ n ∧ n < p.2.stop
    · obtain ⟨hpk, hpe⟩ := hkey p (List.mem_cons_self _ _) hin.1 hin.2
      have hin2 : (p.2.start : Int) ≤ (n : Int) ∧ (n : Int) < (p.2.stop : Int) := by omega
      have hex : ∃ q ∈ p :: rest, q.2.start ≤ n ∧ n < q.2.stop :=
        ⟨p, List.mem_cons_self _ _, hin⟩
      rw [if_pos hin2, if_pos hex, hpk, hpe]
      by_cases h1 : n + 1 < e
      · have h1b : (n : Int) + 1 < (e : Int) := by omega
        rw [if_pos h1b, if_pos h1]
      · have h1b : ¬ (n : Int) + 1 < (e : Int) := by omega
        rw [if_neg h1b, if_neg h1]
        by_cases h2 : k + 1 < m.length
        · have h2b : (k : Int) + 1 < (m.length : Int) := by omega
          rw [if_pos h2b, if_pos h2]
        · have h2b : ¬ (k : Int) + 1 < (m.length : Int) := by omega
          rw [if_neg h2b, if_neg h2, ih2]
          by_cases hex2 : ∃ q ∈ rest, q.2.start ≤ n ∧ n < q.2.stop
          · rw [if_pos hex2, if_neg h1, if_neg h2]
          · rw [if_neg hex2]
    · have hin2 : ¬ ((p.2.start : Int) ≤ (n : Int) ∧ (n : Int) < (p.2.stop : Int)) := by omega
      rw [if_neg hin2, ih2]
      have hiff : (∃ q ∈ p :: rest, q.2.start ≤ n ∧ n < q.2.stop)
          ↔ (∃ q ∈ rest, q.2.start ≤ n ∧ n < q.2.stop) := by
        constructor
        · rintro ⟨q, hq, hqin⟩
          rcases List.mem_cons.mp hq with h1 | h1
          · rw [h1] at hqin; exact absurd hqin hin
          · exact ⟨q, h1, hqin⟩
        · rintro ⟨q, hq, hqin⟩
          exact ⟨q, List.mem_cons_of_mem _ hq, hqin⟩
      by_cases hex : ∃ q ∈ rest, q.2.start ≤ n ∧ n < q.2.stop
      · rw [if_pos hex, if_pos (hiff.mpr hex)]
      · rw [if_neg hex, if_neg (fun h => hex (hiff.mp h))]

/-- C20: for every successfully constructed `Faces`, every face `k` and every
corner `c` in the range of `k`: `getNextCorner(c)` is `c + 1` when `c + 1` is
still in the range; at the last corner of `k` it is
`getFaceFirstCorner(k + 1)` when `k + 1` is a face and `-1` when `k` is the
last face. -/
theorem getNextCorner_in_face (nV : Int) (ci : List Int) (f : Faces)
    (hok : mkFaces nV ci = .ok f) (k : Nat) (c : Int)
    (hk : (k : Int) < f.getNumberOfFaces)
    (hc1 : f.getFaceFirstCorner (k : Int) ≤ c)
    (hc2 : c < f.getFaceFirstCorner (k : Int) + f.getFaceSize (k : Int)) :
    f.getNextCorner c
      = some (if c + 1 < f.getFaceFirstCorner (k : Int) + f.getFaceSize (k : Int) then c + 1
              else if (k : Int) + 1 < f.getNumberOfFaces then
                f.getFaceFirstCorner ((k : Int) + 1)
              else -1) := by
  obtain ⟨_, hci, hm, _⟩ := mkFaces_ok hok
  have hinv := facesScan_inv ci
  obtain ⟨s, e, hspan, _, hfirst, hsize⟩ := faces_face nV ci f hok k hk
  rw [hfirst] at hc1
  rw [hfirst, hsize] at hc2 ⊢
  have hle := hspan.le
  have hlt := hspan.lt
  have h0 : 0 ≤ c := by omega
  obtain ⟨n, rfl⟩ := Int.eq_ofNat_of_zero_le h0
  have hn1 : s ≤ n := by omega
  have hn2 : n < e := by omega
  obtain ⟨hc, hcount⟩ := hspan.closedCorner n hn1 hn2
  have hnn := hc.1
  have hvalid : f.isValidCorner (n : Int) := by
    unfold Faces.isValidCorner
    rw [hci]
    omega
  have hkey : ∀ p ∈ (facesScan ci).faceMap, p.2.start ≤ n → n < p.2.stop →
      p.1 = k ∧ p.2.stop = e := by
    intro p hp h1 h2
    have hsp := hinv.spans p hp
    have hpk : p.1 = k := by
      rw [← (hsp.closedCorner n h1 h2).2, hcount]
    rw [hpk] at hsp
    exact ⟨hpk, (faceSpan_unique hsp hspan).2⟩
  have hne : ¬ ci.getD n 0 = -1 := by omega
  unfold Faces.getNextCorner
  rw [if_neg (not_not.mpr hvalid), hci, rd_natCast ci n (by omega), Option.some_bind,
    if_neg hne, hm, nextCornerLoop_eq _ _ n k e hkey,
    if_pos (facesScan_contains ci n hc)]
  have hlen : ((facesScan ci).faceMap.length : Int) = f.getNumberOfFaces := by
    unfold Faces.getNumberOfFaces
    rw [hm]
  by_cases h1 : n + 1 < e
  · have h1b : (n : Int) + 1 < (s : Int) + ((e : Int) - (s : Int)) := by omega
    rw [if_pos h1, if_pos h1b]
  · have h1b : ¬ (n : Int) + 1 < (s : Int) + ((e : Int) - (s : Int)) := by omega
    rw [if_neg h1, if_neg h1b]
    by_cases h2 : k + 1 < (facesScan ci).faceMap.length
    · have h3 : (k : Int) + 1 < f.getNumberOfFaces := by omega
      obtain ⟨s2, e2, _, hfind2, hfirst2, _⟩ :=
        faces_face nV ci f hok (k + 1) (by push_cast; exact h3)
      have hcast : ((k + 1 : Nat) : Int) = (k : Int) + 1 := by push_cast; rfl
      rw [hcast] at hfind2 hfirst2
      rw [if_pos h2, if_pos h3, ← hm, hfind2, hfirst2]
      rfl
    · have h3 : ¬ (k : Int) + 1 < f.getNumberOfFaces := by omega
      rw [if_neg h2, if_neg h3]

theorem getNextCorner_in_face_witness :
    twoTrianglesFaces.getNextCorner 2
      = some (if (2 : Int) + 1 < twoTrianglesFaces.getFaceFirstCorner ((0 : Nat) : Int)
                + twoTrianglesFaces.getFaceSize ((0 : Nat) : Int) then (2 : Int) + 1
              else if ((0 : Nat) : Int) + 1 < twoTrianglesFaces.getNumberOfFaces then
                twoTrianglesFaces.getFaceFirstCorner (((0 : Nat) : Int) + 1)
              else -1) :=
  getNextCorner_in_face 4 twoTriangles twoTrianglesFaces mkFaces_twoTriangles 0 2
    (by decide) (by decide) (by decide)

/-- What `getFaceVertex` computes for a valid face `k` with range `[s, e)` and
a corner `c` inside the array: the entry at `c` when `s ≤ c ≤ e`, the bound
`e` included, and `-1` otherwise. -/
theorem getFaceVertex_eq (nV : Int) (ci : List Int) (f : Faces)
    (hok : mkFaces nV ci = .ok f) (k n : Nat) (hk : (k : Int) < f.getNumberOfFaces)
    (hn : n < ci.length) :
    ∃ s e, FaceSpan ci k s e ∧ f.getFaceFirstCorner (k : Int) = (s : Int)
      ∧ f.getFaceSize (k : Int) = (e : Int) - (s : Int)
      ∧ (s ≤ n → n ≤ e → f.getFaceVertex (k : Int) (n : Int) = some (ci.getD n 0))
      ∧ (¬ (s ≤ n ∧ n ≤ e) → f.getFaceVertex (k : Int) (n : Int) = some (-1)) := by
  obtain ⟨_, hci, hm, _⟩ := mkFaces_ok hok
  obtain ⟨s, e, hspan, hfind, hfirst, hsize⟩ := faces_face nV ci f hok k hk
  have hvf : f.isValidFace (k : Int) := ⟨Int.natCast_nonneg _, hk⟩
  have hvc : f.isValidCorner (n : Int) := by
    unfold Faces.isValidCorner
    rw [hci]
    omega
  have hunf : f.getFaceVertex (k : Int) (n : Int)
      = if (s : Int) ≤ (n : Int) ∧ (n : Int) ≤ (e : Int) then rd f.coordIndex (n : Int)
        else some (-1) := by
    unfold Faces.getFaceVertex
    rw [if_neg (not_not.mpr hvf), if_neg (not_not.mpr hvc), hfind]
  refine ⟨s, e, hspan, hfirst, hsize, ?_, ?_⟩
  · intro h1 h2
    have hin : (s : Int) ≤ (n : Int) ∧ (n : Int) ≤ (e : Int) := by omega
    rw [hunf, if_pos hin, hci, rd_natCast ci n hn]
  · intro hnot
    have hin : ¬ ((s : Int) ≤ (n : Int) ∧ (n : Int) ≤ (e : Int)) := by omega
    rw [hunf, if_neg hin]

theorem getFaceVertex_eq_witness :
    ∃ s e, FaceSpan twoTriangles 1 s e
      ∧ twoTrianglesFaces.getFaceFirstCorner ((1 : Nat) : Int) = (s : Int)
      ∧ twoTrianglesFaces.getFaceSize ((1 : Nat) : Int) = (e : Int) - (s : Int)
      ∧ (s ≤ 5 → 5 ≤ e →
          twoTrianglesFaces.getFaceVertex ((1 : Nat) : Int) ((5 : Nat) : Int)
            = some (twoTriangles.getD 5 0))
      ∧ (¬ (s ≤ 5 ∧ 5 ≤ e) →
          twoTrianglesFaces.getFaceVertex ((1 : Nat) : Int) ((5 : Nat) : Int) = some (-1)) :=
  getFaceVertex_eq 4 twoTriangles twoTrianglesFaces mkFaces_twoTriangles 1 5
    (by decide) (by decide)

/-! ## The incidence lists of the edges, in terms of the queries -/

theorem closedCorner_edge (nV : Int) (ci : List Int) (hv : ∀ v ∈ ci, -1 ≤ v ∧ v < nV)
    (n : Nat) (hcc : ClosedCorner ci n) :
    ∃ (e : Nat) (d : Int), (n, e) ∈ halfEdgeList ci (regFinal nV ci).2.g
      ∧ e < (regFinal nV ci).2.g.pairs.length
      ∧ (assemble nV ci).getDst (n : Int) = some d ∧ 0 ≤ d ∧ d < nV
      ∧ (assemble nV ci).getEdge (ci.getD n 0) d = (e : Int) := by
  obtain ⟨f, s, l, hvis, hr, hsn, hnl⟩ := closedCorner_visit hcc
  have hd := hr.getDst_eq nV hv n hsn hnl
  have hlt := hr.lt
  obtain ⟨hm, heq⟩ := visitEdge_eq nV ci (f, s, n) hvis
  have hmem : (n, visitEdge ci (regFinal nV ci).2.g (f, s, n))
      ∈ halfEdgeList ci (regFinal nV ci).2.g :=
    List.mem_map.mpr ⟨(f, s, n), hvis, rfl⟩
  have hbound : ∀ i, i < ci.length → ci.getD i 0 < nV := by
    intro i hi
    rw [List.getD_eq_getElem _ _ hi]
    exact (hv _ (List.getElem_mem hi)).2
  refine ⟨_, _, hmem, (halfEdgeList_bounds nV ci _ hmem).2, hd, ?_, ?_, ?_⟩
  · split_ifs with hcl
    · exact hr.nonneg (n + 1) (by omega) (by omega)
    · exact hr.nonneg s (le_refl _) hr.le
  · split_ifs with hcl
    · exact hbound _ (by omega)
    · exact hbound _ (by have := hr.le; omega)
  · rw [← cornerDst_eq hr nV hv n hsn hnl]
    unfold getEdge
    rw [assemble_edges, heq]
    exact getEdge_of_mem _ _ _ hm

theorem cornerOnEdge_iff (nV : Int) (ci : List Int) (hv : ∀ v ∈ ci, -1 ≤ v ∧ v < nV)
    (hst : SentinelTerminated ci) (e c : Nat) :
    c ∈ cornersOf (halfEdgeList ci (regFinal nV ci).2.g) e
      ↔ c ∈ (assemble nV ci).cornersOnEdge (e : Int) := by
  unfold cornersOnEdge
  rw [mem_cornersOf, List.mem_filter, List.mem_range, assemble_coordIndex]
  constructor
  · intro hm
    have hm' := hm
    unfold halfEdgeList at hm'
    obtain ⟨y, hy, hye⟩ := List.mem_map.mp hm'
    have hcc := visit_closedCorner y hy
    have hyc : y.2.2 = c := congrArg Prod.fst hye
    rw [hyc] at hcc
    obtain ⟨e', d, hmem, _, hd, _, _, hedge⟩ := closedCorner_edge nV ci hv c hcc
    have he : e' = e := corner_unique _ (halfEdgeList_sorted ci _) c e' e hmem hm
    obtain ⟨x, hcx, hx, _⟩ := hcc.2
    have hlt : c < ci.length := lt_trans hcx hx
    refine ⟨hlt, ?_⟩
    unfold cornerOnEdge
    rw [getSrc_natCast nV ci c hlt, hd]
    simp only [decide_eq_true_eq]
    exact ⟨hcc.1, by rw [hedge, he]⟩
  · rintro ⟨hlt, hon⟩
    unfold cornerOnEdge at hon
    rw [getSrc_natCast nV ci c hlt] at hon
    cases hdst : (assemble nV ci).getDst (c : Int) with
    | none => rw [hdst] at hon; simp at hon
    | some d =>
      rw [hdst] at hon
      simp only [decide_eq_true_eq] at hon
      have hcc := sentinelTerminated_closed hst c hlt hon.1
      obtain ⟨e', d', hmem, _, hd, _, _, hedge⟩ := closedCorner_edge nV ci hv c hcc
      rw [hdst] at hd
      injection hd with hd
      rw [← hd, hon.2] at hedge
      have he : e = e' := by exact_mod_cast hedge
      rw [he]
      exact hmem

theorem cornersOf_eq_cornersOnEdge (nV : Int) (ci : List Int)
    (hv : ∀ v ∈ ci, -1 ≤ v ∧ v < nV) (hst : SentinelTerminated ci) (e : Nat) :
    cornersOf (halfEdgeList ci (regFinal nV ci).2.g) e
      = (assemble nV ci).cornersOnEdge (e : Int) := by
  have hs1 := cornersOf_sorted _ (halfEdgeList_sorted ci (regFinal nV ci).2.g) e
  have hs2 : ((assemble nV ci).cornersOnEdge (e : Int)).Pairwise (fun a b => a < b) :=
    List.Pairwise.filter _ (List.pairwise_lt_range _)
  apply List.eq_of_perm_of_sorted (r := fun a b : Nat => a < b) _ hs1 hs2
  exact (List.perm_ext_iff_of_nodup (List.Pairwise.nodup hs1) (List.Pairwise.nodup hs2)).mpr
    (fun c => cornerOnEdge_iff nV ci hv hst e c)

/-- C21: for every mesh constructed from a sentinel-terminated corner array and
every edge id `e` in range, `getNumberOfEdgeHalfEdges(e)` is the number of
non-separator corners `c` with `getEdge(getSrc(c), getDst(c)) = e`. -/
theorem edge_halfEdge_count (nV : Int) (ci : List Int) (h : HalfEdges)
    (hok : mkHalfEdges nV ci = .ok h) (hst : SentinelTerminated ci)
    (e : Int) (he0 : 0 ≤ e) (he : e < h.getNumberOfEdges) :
    h.getNumberOfEdgeHalfEdges e = some ((h.cornersOnEdge e).length : Int) := by
  obtain ⟨hfv, rfl⟩ := mkHalfEdges_ok hok
  have hval := (firstViolation_none nV ci 0).mp hfv
  obtain ⟨n, rfl⟩ := Int.eq_ofNat_of_zero_le he0
  have hn : n < (assemble nV ci).edges.pairs.length := by
    unfold getNumberOfEdges Edges.getNumberOfEdges at he
    omega
  rw [getNumberOfEdgeHalfEdges_natCast nV ci n hn, assemble_edges,
    cornersOf_eq_cornersOnEdge nV ci hval hst n]

/-- The closed tetrahedron: each of its six edges has two half-edges, and the
count of edge 0 is the number of corners on it. -/
theorem edge_halfEdge_count_witness :
    (assemble 4 tetrahedron).getNumberOfEdgeHalfEdges 0
        = some (((assemble 4 tetrahedron).cornersOnEdge 0).length : Int)
      ∧ (assemble 4 tetrahedron).getNumberOfEdges = 6
      ∧ ∀ e ∈ List.range 6, (assemble 4 tetrahedron).getNumberOfEdgeHalfEdges (e : Int) = some 2 :=
  ⟨edge_halfEdge_count 4 tetrahedron _ (mkHalfEdges_of_valid (by decide) (by decide) (by decide))
    (Or.inr rfl) 0 (by decide) (by decide), by decide, by decide⟩

/-- C22: for every mesh constructed from a sentinel-terminated corner array and
every edge id `e` in range, with `n = getNumberOfEdgeHalfEdges(e)`, the values
`getEdgeHalfEdge(e, 0), ..., getEdgeHalfEdge(e, n-1)` are the list of the
non-separator corners whose edge is `e`, in strictly increasing order, so each
such corner occurs once and no slot holds `-1`, whatever `n` is. -/
theorem edge_halfEdge_list (nV : Int) (ci : List Int) (h : HalfEdges)
    (hok : mkHalfEdges nV ci = .ok h) (hst : SentinelTerminated ci)
    (e : Int) (he0 : 0 ≤ e) (he : e < h.getNumberOfEdges) :
    (h.cornersOnEdge e).Pairwise (fun a b => a < b)
      ∧ (∀ c : Nat, c ∈ h.cornersOnEdge e
          ↔ (c < h.coordIndex.length ∧ h.cornerOnEdge e c = true))
      ∧ h.getNumberOfEdgeHalfEdges e = some ((h.cornersOnEdge e).length : Int)
      ∧ ∀ j : Nat, j < (h.cornersOnEdge e).length →
          h.getEdgeHalfEdge e (j : Int) = some (((h.cornersOnEdge e).getD j 0 : Nat) : Int) := by
  obtain ⟨hfv, rfl⟩ := mkHalfEdges_ok hok
  have hval := (firstViolation_none nV ci 0).mp hfv
  obtain ⟨n, rfl⟩ := Int.eq_ofNat_of_zero_le he0
  have hn : n < (assemble nV ci).edges.pairs.length := by
    unfold getNumberOfEdges Edges.getNumberOfEdges at he
    omega
  have heq := cornersOf_eq_cornersOnEdge nV ci hval hst n
  refine ⟨List.Pairwise.filter _ (List.pairwise_lt_range _), ?_, ?_, ?_⟩
  · intro c
    unfold cornersOnEdge
    rw [List.mem_filter, List.mem_range]
  · rw [getNumberOfEdgeHalfEdges_natCast nV ci n hn, assemble_edges, heq]
  · intro j hj
    rw [← heq] at hj ⊢
    have := getEdgeHalfEdge_natCast nV ci n j hn (by rw [assemble_edges]; exact hj)
    rw [assemble_edges] at this
    exact this

/-- Three triangles on the edge `{0, 1}`: its incidence list is `0, 4, 8`. -/
theorem edge_halfEdge_list_witness :
    ((assemble 5 [0, 1, 2, -1, 0, 1, 3, -1, 0, 1, 4, -1]).cornersOnEdge 0 = [0, 4, 8])
      ∧ (∀ j : Nat, j < ((assemble 5 [0, 1, 2, -1, 0, 1, 3, -1, 0, 1, 4, -1]).cornersOnEdge 0).length →
          (assemble 5 [0, 1, 2, -1, 0, 1, 3, -1, 0, 1, 4, -1]).getEdgeHalfEdge 0 (j : Int)
            = some ((((assemble 5 [0, 1, 2, -1, 0, 1, 3, -1, 0, 1, 4, -1]).cornersOnEdge 0).getD j 0
                : Nat) : Int)) :=
  ⟨by decide, (edge_halfEdge_list 5 [0, 1, 2, -1, 0, 1, 3, -1, 0, 1, 4, -1] _
    (mkHalfEdges_of_valid (by decide) (by decide) (by decide)) (Or.inr rfl) 0 (by decide) (by decide)).2.2.2⟩

/-! ## The constructor of `PolygonMesh` -/

theorem registerCorner_nV (ci : List Int) (x : Nat × Nat × Nat) (s : RegState) :
    (registerCorner ci x.1 x.2.1 x.2.2 s).g.nV = s.g.nV := by
  unfold registerCorner Edges.insertEdge
  simp only []
  split_ifs <;> rfl

theorem regFinal_nV (nV : Int) (ci : List Int) : (regFinal nV ci).2.g.nV = nV := by
  unfold regFinal
  rw [faceLoop_snd]
  have key : ∀ (vs : List (Nat × Nat × Nat)) (s : RegState),
      (vs.foldl (fun s x => registerCorner ci x.1 x.2.1 x.2.2 s) s).g.nV = s.g.nV := by
    intro vs
    induction vs with
    | nil => intro s; rfl
    | cons x rest ih =>
      intro s
      rw [List.foldl_cons, ih, registerCorner_nV]
  rw [key]
  rfl

theorem assemblePolygonMesh_some {P : PartitionSizes} {h : HalfEdges} {m : PolygonMesh}
    (hm : assemblePolygonMesh P h = some m) :
    m.toHalfEdges = h
      ∧ forLoopM (boundaryStep h) h.coordIndex.length 0
          (List.replicate h.edges.getNumberOfVertices.toNat false) = some m.boundaryVertex
      ∧ ∃ joins, forLoopM (joinStep h) h.getNumberOfEdges.toNat 0 [] = some joins
          ∧ forLoopM (partsStep P h joins) h.coordIndex.length 0
              (resize [] h.edges.getNumberOfVertices.toNat 0) = some m.nPartsVertex := by
  unfold assemblePolygonMesh at hm
  simp only [Option.bind_eq_some] at hm
  obtain ⟨flags, hf, joins, hj, parts, hp, hm⟩ := hm
  injection hm with hm
  subst hm
  exact ⟨rfl, hf, joins, hj, hp⟩

theorem mkPolygonMesh_ok {P : PartitionSizes} {nV : Int} {ci : List Int} {m : PolygonMesh}
    (hm : mkPolygonMesh P nV ci = .ok (some m)) :
    firstViolation nV ci 0 = none ∧ 0 ≤ nV ∧ assemblePolygonMesh P (assemble nV ci) = some m := by
  unfold mkPolygonMesh at hm
  cases hh : mkHalfEdges nV ci with
  | error err => rw [hh] at hm; exact Except.noConfusion hm
  | ok h =>
    rw [hh] at hm
    obtain ⟨hfv, rfl⟩ := mkHalfEdges_ok hh
    simp only [] at hm
    have hnv : (assemble nV ci).edges.getNumberOfVertices = nV := by
      rw [assemble_edges]
      exact regFinal_nV nV ci
    rw [hnv] at hm
    split_ifs at hm with hneg
    injection hm with hm
    exact ⟨hfv, by omega, hm⟩

theorem forLoopM_inv {σ : Type} (body : Nat → σ → Option σ) (Inv : Nat → σ → Prop)
    (hstep : ∀ i s s', Inv i s → body i s = some s' → Inv (i + 1) s') :
    ∀ (n i : Nat) (s s' : σ), Inv i s → forLoopM body n i s = some s' → Inv (i + n) s' := by
  intro n
  induction n with
  | zero =>
    intro i s s' hi hs
    simp only [forLoopM, Option.some.injEq] at hs
    subst hs
    exact hi
  | succ n ih =>
    intro i s s' hi hs
    simp only [forLoopM, Option.bind_eq_some] at hs
    obtain ⟨s1, h1, h2⟩ := hs
    have := ih (i + 1) s1 s' (hstep i s s1 hi h1) h2
    rw [show i + (n + 1) = i + 1 + n by omega]
    exact this

theorem forLoopM_total {σ : Type} (body : Nat → σ → Option σ) (Inv : Nat → σ → Prop) :
    ∀ (n i0 : Nat) (s : σ),
      (∀ i s, i0 ≤ i → i < i0 + n → Inv i s → ∃ s', body i s = some s' ∧ Inv (i + 1) s') →
      Inv i0 s → ∃ s', forLoopM body n i0 s = some s' ∧ Inv (i0 + n) s' := by
  intro n
  induction n with
  | zero =>
    intro i0 s _ hi
    exact ⟨s, rfl, hi⟩
  | succ n ih =>
    intro i0 s hstep hi
    obtain ⟨s1, h1, hi1⟩ := hstep i0 s (le_refl _) (by omega) hi
    obtain ⟨s', h2, hi2⟩ := ih (i0 + 1) s1
      (fun i s hle hlt hinv => hstep i s (by omega) (by omega) hinv) hi1
    refine ⟨s', ?_, ?_⟩
    · simp only [forLoopM, h1, Option.some_bind]
      exact h2
    · rw [show i0 + (n + 1) = i0 + 1 + n by omega]
      exact hi2

theorem wr_some {α : Type} {v v' : List α} {i : Int} {x : α} (h : wr v i x = some v') :
    0 ≤ i ∧ i < v.length ∧ v' = v.set i.toNat x := by
  unfold wr at h
  split_ifs at h with hc
  injection h with h
  exact ⟨hc.1, hc.2, h.symm⟩

theorem wr_of_lt {α : Type} (v : List α) (i : Int) (x : α) (h0 : 0 ≤ i) (h1 : i < v.length) :
    wr v i x = some (v.set i.toNat x) := by
  unfold wr
  rw [if_pos ⟨h0, h1⟩]

theorem anyLoop_spec (p : Int → Option Bool) :
    ∀ (n i0 : Nat), (∀ i : Nat, i0 ≤ i → i < i0 + n → ∃ b, p (i : Int) = some b) →
      ∃ r, PolygonMesh.anyLoop p n i0 = some r
        ∧ (r = true ↔ ∃ i : Nat, i0 ≤ i ∧ i < i0 + n ∧ p (i : Int) = some true) := by
  intro n
  induction n with
  | zero =>
    intro i0 _
    refine ⟨false, rfl, ?_⟩
    constructor
    · intro h; exact absurd h (by decide)
    · rintro ⟨i, h1, h2, _⟩; omega
  | succ n ih =>
    intro i0 hp
    obtain ⟨b, hb⟩ := hp i0 (le_refl _) (by omega)
    cases b with
    | true =>
      refine ⟨true, ?_, ?_⟩
      · simp only [PolygonMesh.anyLoop, hb, Option.some_bind, if_true]
      · exact ⟨fun _ => ⟨i0, le_refl _, by omega, hb⟩, fun _ => rfl⟩
    | false =>
      obtain ⟨r, hr, hiff⟩ := ih (i0 + 1) (fun i h1 h2 => hp i (by omega) (by omega))
      refine ⟨r, ?_, ?_⟩
      · simp only [PolygonMesh.anyLoop, hb, Option.some_bind]
        exact hr
      · rw [hiff]
        constructor
        · rintro ⟨i, h1, h2, h3⟩
          exact ⟨i, by omega, by omega, h3⟩
        · rintro ⟨i, h1, h2, h3⟩
          have hne : i ≠ i0 := by
            intro he
            rw [he, hb] at h3
            exact absurd h3 (by decide)
          exact ⟨i, by omega, by omega, h3⟩

theorem getNumberOfEdgeHalfEdges_total (nV : Int) (ci : List Int) (e : Int) :
    ∃ n : Int, (assemble nV ci).getNumberOfEdgeHalfEdges e = some n ∧ 0 ≤ n
      ∧ (n ≠ 0 → 0 ≤ e ∧ e < (assemble nV ci).getNumberOfEdges) := by
  by_cases hr : e < 0 ∨ e ≥ (assemble nV ci).getNumberOfEdges
  · refine ⟨0, ?_, le_refl _, fun h => absurd rfl h⟩
    unfold getNumberOfEdgeHalfEdges
    rw [if_pos hr]
  · have hr' : 0 ≤ e ∧ e < (assemble nV ci).getNumberOfEdges := by omega
    obtain ⟨n, rfl⟩ := Int.eq_ofNat_of_zero_le hr'.1
    have hn : n < (assemble nV ci).edges.pairs.length := by
      have := hr'.2
      unfold getNumberOfEdges Edges.getNumberOfEdges at this
      omega
    exact ⟨_, getNumberOfEdgeHalfEdges_natCast nV ci n hn, Int.natCast_nonneg _, fun _ => hr'⟩

theorem getD_set_bool (l : List Bool) (i j : Nat) (a d : Bool) :
    (l.set i a).getD j d = if i = j ∧ i < l.length then a else l.getD j d := by
  simp only [List.getD_eq_getElem?_getD, List.getElem?_set]
  by_cases h : i = j
  · subst h
    by_cases h2 : i < l.length
    · simp [h2]
    · simp [h2, List.getElem?_eq_none (not_lt.mp h2)]
  · simp [h]

theorem rd_some_lt {v : List Int} {i : Int} {x : Int} (h : rd v i = some x) :
    0 ≤ i ∧ i < v.length ∧ x = v.getD i.toNat 0 := by
  unfold rd at h
  split_ifs at h with hneg
  have hlt : i.toNat < v.length := by
    by_contra hge
    rw [List.getElem?_eq_none (not_lt.mp hge)] at h
    exact Option.noConfusion h
  rw [getElem?_eq_some_getD v _ 0 hlt] at h
  injection h with h
  exact ⟨by omega, by omega, h.symm⟩

theorem getSrc_of_rd {h : HalfEdges} {c : Nat} {x : Int} (hx : rd h.coordIndex c = some x) :
    h.getSrc c = some x := by
  obtain ⟨_, hlt, _⟩ := rd_some_lt hx
  unfold getSrc getNumberOfCorners
  rw [if_neg (by omega), hx]

theorem boundaryStep_spec (h : HalfEdges) (c : Nat) (flags flags' : List Bool)
    (hs : boundaryStep h c flags = some flags') :
    flags'.length = flags.length
      ∧ (∀ v : Int, h.marksBoundary c v → 0 ≤ v ∧ v < flags.length)
      ∧ ∀ k : Nat, flags'.getD k false = true
          ↔ (flags.getD k false = true ∨ h.marksBoundary c (k : Int)) := by
  unfold boundaryStep at hs
  simp only [Option.bind_eq_some] at hs
  obtain ⟨x, hx, hs⟩ := hs
  have hsrc := getSrc_of_rd hx
  split_ifs at hs with hneg
  · injection hs with hs
    subst hs
    have hno : ∀ v : Int, ¬ h.marksBoundary c v := by
      rintro v ⟨s, d, h1, h2, _⟩
      rw [hsrc] at h1
      injection h1 with h1
      omega
    exact ⟨rfl, fun v hv => absurd hv (hno v), fun k => ⟨Or.inl, fun hh => hh.elim id
      (fun hm => absurd hm (hno _))⟩⟩
  · simp only [Option.bind_eq_some] at hs
    obtain ⟨iV0, h0, iV1, h1, n, hn, hs⟩ := hs
    rw [hsrc] at h0
    injection h0 with h0
    subst h0
    split_ifs at hs with hone
    · simp only [Option.bind_eq_some] at hs
      obtain ⟨f1, hw1, hw2⟩ := hs
      obtain ⟨a0, a1, rfl⟩ := wr_some hw1
      obtain ⟨b0, b1, rfl⟩ := wr_some hw2
      rw [List.length_set] at b1
      have hmark : ∀ v : Int, h.marksBoundary c v ↔ (v = x ∨ v = iV1) := by
        intro v
        constructor
        · rintro ⟨s, d, e1, _, e2, _, e3⟩
          rw [hsrc] at e1
          rw [h1] at e2
          injection e1 with e1
          injection e2 with e2
          rw [← e1, ← e2] at e3
          exact e3
        · intro hv
          exact ⟨x, iV1, hsrc, by omega, h1, by rw [hn, hone], hv⟩
      refine ⟨by rw [List.length_set, List.length_set], ?_, ?_⟩
      · intro v hv
        rcases (hmark v).mp hv with e | e <;> omega
      · intro k
        rw [getD_set_bool, getD_set_bool, hmark, List.length_set]
        constructor
        · intro hk
          split_ifs at hk with c1 c2
          · right; right; omega
          · right; left; omega
          · left; exact hk
        · intro hk
          split_ifs with c1 c2
          · rfl
          · rfl
          · rcases hk with hk | hk | hk
            · exact hk
            · exfalso; apply c2; exact ⟨by omega, by omega⟩
            · exfalso; apply c1; exact ⟨by omega, by omega⟩
    · injection hs with hs
      subst hs
      have hno : ∀ v : Int, ¬ h.marksBoundary c v := by
        rintro v ⟨s, d, e1, _, e2, e3, _⟩
        rw [hsrc] at e1
        rw [h1] at e2
        injection e1 with e1
        injection e2 with e2
        rw [← e1, ← e2, hn] at e3
        injection e3 with e3
        exact hone e3
      exact ⟨rfl, fun v hv => absurd hv (hno v), fun k => ⟨Or.inl, fun hh => hh.elim id
        (fun hm => absurd hm (hno _))⟩⟩

theorem boundaryLoop_spec (h : HalfEdges) (n : Nat) (flags flags' : List Bool)
    (hs : forLoopM (boundaryStep h) n 0 flags = some flags')
    (h0 : ∀ k : Nat, flags.getD k false = false) :
    flags'.length = flags.length
      ∧ (∀ c : Nat, c < n → ∀ v : Int, h.marksBoundary c v → 0 ≤ v ∧ v < flags.length)
      ∧ ∀ k : Nat, flags'.getD k false = true ↔ ∃ c : Nat, c < n ∧ h.marksBoundary c (k : Int) := by
  have key := forLoopM_inv (boundaryStep h)
    (fun i f => f.length = flags.length
      ∧ (∀ c : Nat, c < i → ∀ v : Int, h.marksBoundary c v → 0 ≤ v ∧ v < flags.length)
      ∧ ∀ k : Nat, f.getD k false = true ↔ ∃ c : Nat, c < i ∧ h.marksBoundary c (k : Int))
    (by
      rintro i f f' ⟨hl, hb, hk⟩ hstep
      obtain ⟨g1, g2, g3⟩ := boundaryStep_spec h i f f' hstep
      refine ⟨by rw [g1, hl], ?_, ?_⟩
      · intro c hc v hv
        by_cases hci : c < i
        · exact hb c hci v hv
        · have : c = i := by omega
          subst this
          rw [← hl]
          exact g2 v hv
      · intro k
        rw [g3, hk]
        constructor
        · rintro (⟨c, hc, hm⟩ | hm)
          · exact ⟨c, by omega, hm⟩
          · exact ⟨i, by omega, hm⟩
        · rintro ⟨c, hc, hm⟩
          by_cases hci : c < i
          · exact Or.inl ⟨c, hci, hm⟩
          · have : c = i := by omega
            subst this
            exact Or.inr hm)
    n 0 flags flags'
    ⟨rfl, fun c hc => absurd hc (Nat.not_lt_zero c), fun k => by
      rw [h0 k]
      exact ⟨fun hh => absurd hh (by decide), fun ⟨c, hc, _⟩ => absurd hc (Nat.not_lt_zero c)⟩⟩
    hs
  rw [Nat.zero_add] at key
  exact key

theorem partsStep_length (P : PartitionSizes) (h : HalfEdges) (joins : List (Int × Int))
    (c : Nat) (parts parts' : List Int) (hs : partsStep P h joins c parts = some parts') :
    parts'.length = parts.length := by
  unfold partsStep at hs
  simp only [Option.bind_eq_some] at hs
  obtain ⟨x, _, hs⟩ := hs
  split_ifs at hs with hneg
  · injection hs with hs
    rw [hs]
  · simp only [Option.bind_eq_some] at hs
    obtain ⟨iV, _, old, _, hw⟩ := hs
    obtain ⟨_, _, rfl⟩ := wr_some hw
    rw [List.length_set]

theorem assemble_nV (nV : Int) (ci : List Int) :
    (assemble nV ci).edges.getNumberOfVertices = nV := by
  rw [assemble_edges]
  exact regFinal_nV nV ci

theorem polygonMesh_base {P : PartitionSizes} {nV : Int} {ci : List Int} {m : PolygonMesh}
    (hm : mkPolygonMesh P nV ci = .ok (some m)) :
    (∀ v ∈ ci, -1 ≤ v ∧ v < nV) ∧ 0 ≤ nV ∧ m.toHalfEdges = assemble nV ci
      ∧ m.edges.getNumberOfVertices = nV
      ∧ m.nPartsVertex.length = nV.toNat ∧ m.boundaryVertex.length = nV.toNat := by
  obtain ⟨hfv, hnv, ha⟩ := mkPolygonMesh_ok hm
  obtain ⟨hb, hflags, joins, _, hparts⟩ := assemblePolygonMesh_some ha
  rw [assemble_nV] at hflags hparts
  refine ⟨(firstViolation_none nV ci 0).mp hfv, hnv, hb, by rw [hb]; exact assemble_nV nV ci,
    ?_, ?_⟩
  · have := forLoopM_inv (partsStep P (assemble nV ci) joins)
      (fun _ p => p.length = nV.toNat)
      (fun i s s' hi hs => (partsStep_length P _ joins i s s' hs).trans hi)
      _ 0 _ _ (length_resize_nil _ _) hparts
    exact this
  · have := forLoopM_inv (boundaryStep (assemble nV ci))
      (fun _ p => p.length = nV.toNat)
      (fun i s s' hi hs => ((boundaryStep_spec _ i s s' hs).1).trans hi)
      _ 0 _ _ (List.length_replicate _ _) hflags
    exact this

theorem polygonMesh_boundary {P : PartitionSizes} {nV : Int} {ci : List Int} {m : PolygonMesh}
    (hm : mkPolygonMesh P nV ci = .ok (some m)) :
    (∀ c : Nat, c < ci.length → ∀ v : Int, (assemble nV ci).marksBoundary c v → 0 ≤ v ∧ v < nV)
      ∧ ∀ k : Nat, m.boundaryVertex.getD k false = true
          ↔ ∃ c : Nat, c < ci.length ∧ (assemble nV ci).marksBoundary c (k : Int) := by
  obtain ⟨hfv, hnv, ha⟩ := mkPolygonMesh_ok hm
  obtain ⟨hb, hflags, _⟩ := assemblePolygonMesh_some ha
  rw [assemble_nV, assemble_coordIndex] at hflags
  obtain ⟨_, g2, g3⟩ := boundaryLoop_spec _ _ _ _ hflags (fun k => by
    simp only [List.getD_eq_getElem?_getD, List.getElem?_replicate]
    split_ifs <;> rfl)
  rw [List.length_replicate] at g2
  refine ⟨fun c hc v hv => ?_, g3⟩
  have := g2 c hc v hv
  omega

theorem rdBool_natCast (v : List Bool) (n : Nat) (h : n < v.length) :
    rdBool v (n : Int) = some (v.getD n false) := by
  unfold rdBool
  rw [if_neg (by omega), Int.toNat_ofNat, List.getD_eq_getElem?_getD,
    List.getElem?_eq_getElem h]
  rfl

theorem isBoundaryVertex_spec {P : PartitionSizes} {nV : Int} {ci : List Int} {m : PolygonMesh}
    (hm : mkPolygonMesh P nV ci = .ok (some m)) (v : Int) :
    (∃ b, m.isBoundaryVertex v = some b)
      ∧ (m.isBoundaryVertex v = some true
          ↔ ∃ c : Nat, c < ci.length ∧ (assemble nV ci).marksBoundary c v) := by
  obtain ⟨_, hnv, hb, hnV, _, hlen⟩ := polygonMesh_base hm
  obtain ⟨g2, g3⟩ := polygonMesh_boundary hm
  unfold PolygonMesh.isBoundaryVertex
  rw [hnV]
  by_cases hr : 0 ≤ v ∧ v < nV
  · rw [if_pos hr]
    obtain ⟨k, rfl⟩ := Int.eq_ofNat_of_zero_le hr.1
    rw [rdBool_natCast _ k (by omega)]
    refine ⟨⟨_, rfl⟩, ?_⟩
    rw [← g3 k]
    constructor
    · intro h; injection h
    · intro h; rw [h]
  · rw [if_neg hr]
    refine ⟨⟨_, rfl⟩, ?_⟩
    constructor
    · intro h; injection h with h; exact absurd h (by decide)
    · rintro ⟨c, hc, hmk⟩
      exact absurd (g2 c hc v hmk) hr

/-! ## The classification of the edges and of the mesh -/

theorem edge_classes {P : PartitionSizes} {nV : Int} {ci : List Int} {m : PolygonMesh}
    (hm : mkPolygonMesh P nV ci = .ok (some m)) (e : Int) :
    ∃ n : Int, m.getNumberOfEdgeHalfEdges e = some n ∧ 0 ≤ n
      ∧ (n ≠ 0 → 0 ≤ e ∧ e < m.getNumberOfEdges)
      ∧ m.isBoundaryEdge e = some (decide (n = 1))
      ∧ m.isRegularEdge e = some (decide (n = 2))
      ∧ m.isSingularEdge e = some (decide (n > 1)) := by
  obtain ⟨_, _, hb, _⟩ := polygonMesh_base hm
  obtain ⟨n, hn, h0, hr⟩ := getNumberOfEdgeHalfEdges_total nV ci e
  rw [← hb] at hn hr
  refine ⟨n, hn, h0, hr, ?_, ?_, ?_⟩
  · unfold PolygonMesh.isBoundaryEdge PolygonMesh.getNumberOfEdgeFaces
    rw [hn]; rfl
  · unfold PolygonMesh.isRegularEdge PolygonMesh.getNumberOfEdgeFaces
    rw [hn]; rfl
  · unfold PolygonMesh.isSingularEdge PolygonMesh.getNumberOfEdgeFaces
    rw [hn]; rfl

theorem isSingularVertex_spec {P : PartitionSizes} {nV : Int} {ci : List Int} {m : PolygonMesh}
    (hm : mkPolygonMesh P nV ci = .ok (some m)) (v : Int) :
    m.isSingularVertex v
      = some (decide (0 ≤ v ∧ v < nV ∧ m.nPartsVertex.getD v.toNat 0 > 1)) := by
  obtain ⟨_, hnv, _, hnV, hlen, _⟩ := polygonMesh_base hm
  unfold PolygonMesh.isSingularVertex
  rw [hnV]
  by_cases hr : 0 ≤ v ∧ v < nV
  · rw [if_pos hr]
    obtain ⟨k, rfl⟩ := Int.eq_ofNat_of_zero_le hr.1
    rw [rd_natCast _ k (by omega), Int.toNat_ofNat]
    simp only [Option.map_some', hr.1, hr.2, true_and]
  · rw [if_neg hr]
    congr 1
    symm
    rw [decide_eq_false_iff_not]
    intro h
    exact hr ⟨h.1, h.2.1⟩

theorem hasBoundary_spec {P : PartitionSizes} {nV : Int} {ci : List Int} {m : PolygonMesh}
    (hm : mkPolygonMesh P nV ci = .ok (some m)) :
    ∃ r, m.hasBoundary = some r
      ∧ (r = true ↔ ∃ e : Int, 0 ≤ e ∧ e < m.getNumberOfEdges
          ∧ m.getNumberOfEdgeHalfEdges e = some 1) := by
  obtain ⟨r, hr, hiff⟩ := anyLoop_spec m.isBoundaryEdge m.getNumberOfEdges.toNat 0
    (fun i _ _ => by
      obtain ⟨n, _, _, _, hb, _⟩ := edge_classes hm (i : Int)
      exact ⟨_, hb⟩)
  refine ⟨r, hr, ?_⟩
  rw [hiff]
  constructor
  · rintro ⟨i, _, hi, hb⟩
    obtain ⟨n, hn, _, _, hb', _⟩ := edge_classes hm (i : Int)
    rw [hb'] at hb
    injection hb with hb
    rw [decide_eq_true_eq] at hb
    rw [hb] at hn
    exact ⟨i, Int.natCast_nonneg _, by omega, hn⟩
  · rintro ⟨e, he0, he1, hn⟩
    obtain ⟨i, rfl⟩ := Int.eq_ofNat_of_zero_le he0
    obtain ⟨n, hn', _, _, hb', _⟩ := edge_classes hm (i : Int)
    rw [hn] at hn'
    injection hn' with hn'
    refine ⟨i, Nat.zero_le _, by omega, ?_⟩
    rw [hb', ← hn']
    rfl

theorem isRegular_spec {P : PartitionSizes} {nV : Int} {ci : List Int} {m : PolygonMesh}
    (hm : mkPolygonMesh P nV ci = .ok (some m)) :
    ∃ r, m.isRegular = some r
      ∧ (r = true ↔ (∀ e : Int, 0 ≤ e → e < m.getNumberOfEdges → m.isSingularEdge e = some false)
          ∧ (∀ v : Int, 0 ≤ v → v < m.edges.getNumberOfVertices →
              m.isSingularVertex v = some false)) := by
  obtain ⟨r1, hr1, hiff1⟩ := anyLoop_spec m.isSingularEdge m.getNumberOfEdges.toNat 0
    (fun i _ _ => by
      obtain ⟨n, _, _, _, _, _, hs⟩ := edge_classes hm (i : Int)
      exact ⟨_, hs⟩)
  obtain ⟨r2, hr2, hiff2⟩ := anyLoop_spec m.isSingularVertex
    m.edges.getNumberOfVertices.toNat 0 (fun i _ _ => ⟨_, isSingularVertex_spec hm (i : Int)⟩)
  have hE : (∀ e : Int, 0 ≤ e → e < m.getNumberOfEdges → m.isSingularEdge e = some false)
      ↔ ¬ r1 = true := by
    rw [hiff1]
    constructor
    · rintro h ⟨i, _, hi, hs⟩
      rw [h (i : Int) (Int.natCast_nonneg _) (by omega)] at hs
      exact absurd hs (by decide)
    · intro h e he0 he1
      obtain ⟨i, rfl⟩ := Int.eq_ofNat_of_zero_le he0
      obtain ⟨n, _, _, _, _, _, hs⟩ := edge_classes hm (i : Int)
      cases hd : decide (n > 1) with
      | false => rw [hs, hd]
      | true =>
        rw [hd] at hs
        exact absurd ⟨i, Nat.zero_le _, by omega, hs⟩ h
  have hV : (∀ v : Int, 0 ≤ v → v < m.edges.getNumberOfVertices →
      m.isSingularVertex v = some false) ↔ ¬ r2 = true := by
    rw [hiff2]
    constructor
    · rintro h ⟨i, _, hi, hs⟩
      rw [h (i : Int) (Int.natCast_nonneg _) (by omega)] at hs
      exact absurd hs (by decide)
    · intro h v hv0 hv1
      obtain ⟨i, rfl⟩ := Int.eq_ofNat_of_zero_le hv0
      have hs := isSingularVertex_spec hm (i : Int)
      cases hd : decide (0 ≤ (i : Int) ∧ (i : Int) < nV ∧ m.nPartsVertex.getD (i : Int).toNat 0 > 1) with
      | false => rw [hs, hd]
      | true =>
        rw [hd] at hs
        exact absurd ⟨i, Nat.zero_le _, by omega, hs⟩ h
  rw [hE, hV]
  unfold PolygonMesh.isRegular
  rw [hr1, Option.some_bind]
  cases r1 with
  | true =>
    refine ⟨false, rfl, ?_⟩
    simp
  | false =>
    rw [hr2]
    refine ⟨!r2, rfl, ?_⟩
    cases r2 <;> simp

/-! ## The constructor of `PolygonMesh` completes on sentinel-terminated input -/

theorem boundaryStep_total (nV : Int) (ci : List Int) (hv : ∀ v ∈ ci, -1 ≤ v ∧ v < nV)
    (hst : SentinelTerminated ci) (i : Nat) (hi : i < ci.length) (f : List Bool)
    (hf : f.length = nV.toNat) :
    ∃ f', boundaryStep (assemble nV ci) i f = some f' ∧ f'.length = nV.toNat := by
  unfold boundaryStep
  rw [assemble_coordIndex, rd_natCast ci i hi, Option.some_bind]
  by_cases hneg : ci.getD i 0 < 0
  · rw [if_pos hneg]
    exact ⟨f, rfl, hf⟩
  · rw [if_neg hneg, getSrc_natCast nV ci i hi, Option.some_bind]
    have hcc := sentinelTerminated_closed hst i hi (by omega)
    obtain ⟨e, d, _, _, hd, hd0, hd1, _⟩ := closedCorner_edge nV ci hv i hcc
    rw [hd, Option.some_bind]
    obtain ⟨n, hn, _⟩ := getNumberOfEdgeHalfEdges_total nV ci
      ((assemble nV ci).getEdge (ci.getD i 0) d)
    rw [hn, Option.some_bind]
    have hx1 : ci.getD i 0 < nV := by
      rw [List.getD_eq_getElem _ _ hi]
      exact (hv _ (List.getElem_mem hi)).2
    by_cases hone : n = 1
    · rw [if_pos hone, wr_of_lt f _ true (by omega) (by omega), Option.some_bind,
        wr_of_lt _ _ true hd0 (by rw [List.length_set]; omega)]
      exact ⟨_, rfl, by rw [List.length_set, List.length_set]; exact hf⟩
    · rw [if_neg hone]
      exact ⟨f, rfl, hf⟩

theorem joinStep_total (nV : Int) (ci : List Int) (i : Nat)
    (hi : i < (assemble nV ci).getNumberOfEdges.toNat) (joins : List (Int × Int)) :
    ∃ joins', joinStep (assemble nV ci) i joins = some joins' := by
  have hn : i < (assemble nV ci).edges.pairs.length := by
    unfold getNumberOfEdges Edges.getNumberOfEdges at hi
    omega
  unfold joinStep
  rw [getNumberOfEdgeHalfEdges_natCast nV ci i hn, Option.some_bind]
  by_cases h2 : (((cornersOf (halfEdgeList ci (assemble nV ci).edges) i).length : Nat) : Int) = 2
  · rw [if_pos h2]
    have h0 := getEdgeHalfEdge_natCast nV ci i 0 hn (by omega)
    have h1 := getEdgeHalfEdge_natCast nV ci i 1 hn (by omega)
    rw [Nat.cast_zero] at h0
    rw [Nat.cast_one] at h1
    rw [h0, h1]
    exact ⟨_, rfl⟩
  · rw [if_neg h2]
    exact ⟨_, rfl⟩

theorem partsStep_total (P : PartitionSizes) (nV : Int) (ci : List Int)
    (hv : ∀ v ∈ ci, -1 ≤ v ∧ v < nV) (joins : List (Int × Int)) (i : Nat) (hi : i < ci.length)
    (p : List Int) (hp : p.length = nV.toNat) :
    ∃ p', partsStep P (assemble nV ci) joins i p = some p' ∧ p'.length = nV.toNat := by
  unfold partsStep
  rw [assemble_coordIndex, rd_natCast ci i hi, Option.some_bind]
  by_cases hneg : ci.getD i 0 < 0
  · rw [if_pos hneg]
    exact ⟨p, rfl, hp⟩
  · rw [if_neg hneg, getSrc_natCast nV ci i hi, Option.some_bind]
    have hx1 : ci.getD i 0 < nV := by
      rw [List.getD_eq_getElem _ _ hi]
      exact (hv _ (List.getElem_mem hi)).2
    obtain ⟨k, hk⟩ := Int.eq_ofNat_of_zero_le (not_lt.mp hneg)
    rw [hk] at hx1 ⊢
    rw [rd_natCast p k (by omega), Option.some_bind,
      wr_of_lt p _ _ (Int.natCast_nonneg _) (by omega)]
    exact ⟨_, rfl, by rw [List.length_set]; exact hp⟩

theorem mkPolygonMesh_total (P : PartitionSizes) (nV : Int) (ci : List Int)
    (hv : ∀ v ∈ ci, -1 ≤ v ∧ v < nV) (hnv : 0 ≤ nV) (hst : SentinelTerminated ci)
    (hmax : nV < 2147483647) :
    ∃ m, mkPolygonMesh P nV ci = .ok (some m) := by
  obtain ⟨flags, hflags, _⟩ := forLoopM_total (boundaryStep (assemble nV ci))
    (fun _ f => f.length = nV.toNat) ci.length 0 (List.replicate nV.toNat false)
    (fun i f _ hi hf => boundaryStep_total nV ci hv hst i (by omega) f hf)
    (List.length_replicate _ _)
  obtain ⟨joins, hjoins, _⟩ := forLoopM_total (joinStep (assemble nV ci))
    (fun _ _ => True) (assemble nV ci).getNumberOfEdges.toNat 0 []
    (fun i j _ hi _ => by
      obtain ⟨j', hj'⟩ := joinStep_total nV ci i (by omega) j
      exact ⟨j', hj', trivial⟩)
    trivial
  obtain ⟨parts, hparts, _⟩ := forLoopM_total (partsStep P (assemble nV ci) joins)
    (fun _ p => p.length = nV.toNat) ci.length 0 (resize [] nV.toNat 0)
    (fun i p _ hi hp => partsStep_total P nV ci hv joins i (by omega) p hp)
    (length_resize_nil _ _)
  refine ⟨{ toHalfEdges := assemble nV ci, nPartsVertex := parts, boundaryVertex := flags,
            numberOfFaces := polygonMeshNumberOfFaces (assemble nV ci) }, ?_⟩
  unfold mkPolygonMesh
  rw [mkHalfEdges_of_valid hv (by omega) hmax]
  simp only []
  rw [assemble_nV, if_neg (by omega)]
  unfold assemblePolygonMesh
  simp only []
  rw [assemble_nV, assemble_coordIndex, hflags, Option.some_bind, hjoins, Option.some_bind,
    hparts, Option.some_bind]

/-! ## Evaluations of `PolygonMesh` on small meshes -/

theorem mkPolygonMesh_twoTriangles :
    mkPolygonMesh quickFind 4 twoTriangles = .ok (some twoTrianglesMesh) := rfl

theorem joins_twoTriangles :
    forLoopM (joinStep (assemble 4 twoTriangles)) 5 0 [] = some [(2, 4)] := by decide

theorem parts_twoTriangles (P : PartitionSizes) :
    forLoopM (partsStep P (assemble 4 twoTriangles) [(2, 4)]) 8 0 [0, 0, 0, 0]
      = some [0 + P 8 [(2, 4)] 0 + P 8 [(2, 4)] 4, 0 + P 8 [(2, 4)] 1,
              0 + P 8 [(2, 4)] 2 + P 8 [(2, 4)] 5, 0 + P 8 [(2, 4)] 6] := rfl

theorem smallBowtie_eval :
    ∃ m, mkPolygonMesh quickFind 5 smallBowtie = .ok (some m)
      ∧ m.nPartsVertex = [2, 1, 1, 1, 1] ∧ m.isSingularVertex 0 = some true
      ∧ m.getNumberOfEdges = 6
      ∧ ∀ e ∈ List.range 6, m.isSingularEdge (e : Int) = some false :=
  ⟨_, rfl, by decide, by decide, by decide, by decide⟩

/-! ## Boundary, regular and singular edges -/

/-- C23: for every constructed `PolygonMesh` and every edge id `e`,
`isBoundaryEdge(e)` is true exactly when `e` has exactly one incident half-edge
and `isRegularEdge(e)` is true exactly when it has exactly two; both return a
value for every `e`, and false for an `e` out of range. -/
theorem boundary_regular_edge_iff (P : PartitionSizes) (nV : Int) (ci : List Int)
    (m : PolygonMesh) (hm : mkPolygonMesh P nV ci = .ok (some m)) (e : Int) :
    (∃ b, m.isBoundaryEdge e = some b) ∧ (∃ b, m.isRegularEdge e = some b)
      ∧ (m.isBoundaryEdge e = some true ↔ m.getNumberOfEdgeHalfEdges e = some 1)
      ∧ (m.isRegularEdge e = some true ↔ m.getNumberOfEdgeHalfEdges e = some 2)
      ∧ (e < 0 ∨ e ≥ m.getNumberOfEdges →
          m.isBoundaryEdge e = some false ∧ m.isRegularEdge e = some false) := by
  obtain ⟨n, hn, _, hr, hb, hg, _⟩ := edge_classes hm e
  refine ⟨⟨_, hb⟩, ⟨_, hg⟩, ?_, ?_, ?_⟩
  · rw [hb, hn]
    constructor
    · intro h; injection h with h; rw [decide_eq_true_eq] at h; rw [h]
    · intro h; injection h with h; rw [h]; rfl
  · rw [hg, hn]
    constructor
    · intro h; injection h with h; rw [decide_eq_true_eq] at h; rw [h]
    · intro h; injection h with h; rw [h]; rfl
  · intro hout
    have h0 : n = 0 := by
      by_contra hne
      have := hr hne
      omega
    rw [hb, hg, h0]
    exact ⟨rfl, rfl⟩

theorem boundary_regular_edge_iff_witness :
    (twoTrianglesMesh.isBoundaryEdge 0 = some true
        ↔ twoTrianglesMesh.getNumberOfEdgeHalfEdges 0 = some 1)
      ∧ (twoTrianglesMesh.isRegularEdge 2 = some true
        ↔ twoTrianglesMesh.getNumberOfEdgeHalfEdges 2 = some 2)
      ∧ twoTrianglesMesh.isBoundaryEdge 0 = some true
      ∧ twoTrianglesMesh.isRegularEdge 2 = some true :=
  ⟨(boundary_regular_edge_iff quickFind 4 twoTriangles twoTrianglesMesh rfl 0).2.2.1,
   (boundary_regular_edge_iff quickFind 4 twoTriangles twoTrianglesMesh rfl 2).2.2.2.1,
   by decide, by decide⟩

/-- C24: on the two triangles `0 1 2` and `0 2 3` the shared edge `{0, 2}`
has id 2 and two incident half-edges, and `isSingularEdge(2)` is true: the
method tests `getNumberOfEdgeFaces(iE) > 1`, so the edge is reported both
regular and singular, whatever the partition collaborator. -/
theorem isSingularEdge_of_two_halfEdges (P : PartitionSizes) :
    ∃ m, mkPolygonMesh P 4 twoTriangles = .ok (some m)
      ∧ m.getEdge 0 2 = 2
      ∧ m.getNumberOfEdgeHalfEdges 2 = some 2
      ∧ m.isBoundaryEdge 2 = some false
      ∧ m.isRegularEdge 2 = some true
      ∧ m.isSingularEdge 2 = some true := by
  obtain ⟨m, hm⟩ := mkPolygonMesh_total P 4 twoTriangles (by decide) (by decide) (Or.inr rfl) (by decide)
  obtain ⟨_, _, hbase, _⟩ := polygonMesh_base hm
  obtain ⟨n, hn, _, _, hb, hg, hs⟩ := edge_classes hm 2
  have h2 : (assemble 4 twoTriangles).getNumberOfEdgeHalfEdges 2 = some 2 := by decide
  rw [hbase, h2] at hn
  injection hn with hn
  subst hn
  refine ⟨m, hm, ?_, ?_, hb, hg, hs⟩
  · rw [hbase]; decide
  · rw [hbase]; exact h2

/-- C25: on the closed, consistently oriented triangulated cube the
constructor completes, there are 18 edges, every edge has exactly two incident
half-edges and `hasBoundary()` is false, but `isRegular()` is false, whatever
the partition collaborator: `isSingularEdge` is true of the first edge. -/
theorem cube_isRegular_false (P : PartitionSizes) :
    ∃ m, mkPolygonMesh P 8 cube = .ok (some m)
      ∧ m.getNumberOfEdges = 18
      ∧ (∀ e : Int, 0 ≤ e → e < 18 → m.getNumberOfEdgeHalfEdges e = some 2)
      ∧ m.hasBoundary = some false
      ∧ m.isSingularEdge 0 = some true
      ∧ m.isRegular = some false := by
  obtain ⟨m, hm⟩ := mkPolygonMesh_total P 8 cube (by decide) (by decide) (Or.inr rfl) (by decide)
  obtain ⟨_, _, hbase, _⟩ := polygonMesh_base hm
  have hnE : m.getNumberOfEdges = 18 := by rw [hbase]; decide
  have hall : ∀ e ∈ List.range 18,
      (assemble 8 cube).getNumberOfEdgeHalfEdges (e : Int) = some 2 := by decide
  have hcount : ∀ e : Int, 0 ≤ e → e < 18 → m.getNumberOfEdgeHalfEdges e = some 2 := by
    intro e he0 he1
    obtain ⟨k, rfl⟩ := Int.eq_ofNat_of_zero_le he0
    rw [hbase]
    exact hall k (List.mem_range.mpr (by omega))
  have hsing : m.isSingularEdge 0 = some true := by
    obtain ⟨n, hn, _, _, _, _, hs⟩ := edge_classes hm 0
    rw [hcount 0 (le_refl _) (by decide)] at hn
    injection hn with hn
    subst hn
    exact hs
  refine ⟨m, hm, hnE, hcount, ?_, hsing, ?_⟩
  · obtain ⟨r, hr, hiff⟩ := hasBoundary_spec hm
    cases r with
    | false => exact hr
    | true =>
      obtain ⟨e, he0, he1, h1⟩ := hiff.mp rfl
      rw [hnE] at he1
      rw [hcount e he0 he1] at h1
      exact absurd h1 (by decide)
  · obtain ⟨r, hr, hiff⟩ := isRegular_spec hm
    cases r with
    | false => exact hr
    | true =>
      have := (hiff.mp rfl).1 0 (le_refl _) (by rw [hnE]; decide)
      rw [hsing] at this
      exact absurd this (by decide)

/-! ## The parts of the vertices -/

theorem part_count_ne_classes (P : PartitionSizes)
    (h1 : ∀ c : Int, 0 ≤ c → c < 8 → c ≠ 2 → c ≠ 4 → P 8 [(2, 4)] c = 1)
    (h2 : P 8 [(2, 4)] 2 = 2 ∨ P 8 [(2, 4)] 4 = 2) :
    ∃ m, mkPolygonMesh P 4 twoTriangles = .ok (some m)
      ∧ ∃ v : Nat, v < 4 ∧ m.nPartsVertex.getD v 0 = 3
          ∧ specPartCount twoTriangles [(2, 4)] (v : Int) = 2 := by
  obtain ⟨m, hm⟩ := mkPolygonMesh_total P 4 twoTriangles (by decide) (by decide) (Or.inr rfl) (by decide)
  obtain ⟨_, _, ha⟩ := mkPolygonMesh_ok hm
  obtain ⟨_, _, joins, hj, hp⟩ := assemblePolygonMesh_some ha
  have hj' : forLoopM (joinStep (assemble 4 twoTriangles)) 5 0 [] = some joins := hj
  rw [joins_twoTriangles] at hj'
  injection hj' with hj'
  subst hj'
  have hp' : forLoopM (partsStep P (assemble 4 twoTriangles) [(2, 4)]) 8 0 [0, 0, 0, 0]
      = some m.nPartsVertex := hp
  rw [parts_twoTriangles P] at hp'
  injection hp' with hp'
  refine ⟨m, hm, ?_⟩
  have e0 := h1 0 (by decide) (by decide) (by decide) (by decide)
  have e5 := h1 5 (by decide) (by decide) (by decide) (by decide)
  rcases h2 with h2 | h2
  · refine ⟨2, by decide, ?_, by decide⟩
    rw [← hp']
    show 0 + P 8 [(2, 4)] 2 + P 8 [(2, 4)] 5 = 3
    rw [h2, e5]; rfl
  · refine ⟨0, by decide, ?_, by decide⟩
    rw [← hp']
    show 0 + P 8 [(2, 4)] 0 + P 8 [(2, 4)] 4 = 3
    rw [h2, e0]; rfl

theorem part_count_ne_classes_witness :
    ∃ m, mkPolygonMesh quickFind 4 twoTriangles = .ok (some m)
      ∧ ∃ v : Nat, v < 4 ∧ m.nPartsVertex.getD v 0 = 3
          ∧ specPartCount twoTriangles [(2, 4)] (v : Int) = 2 :=
  part_count_ne_classes quickFind (by decide) (by decide)

/-- C26: on the two triangles `0 1 2` and `0 2 3`, built with the partition
`quickFind`, the only join is that of the corners 2 and 4 of the edge `{0, 2}`;
the numbers of distinct classes among the corners of the vertices 0, 1, 2, 3
are 2, 1, 2, 1, but `_nPartsVertex` is 1, 1, 3, 1, the sums of `getSize(iC)`
over the corners of each vertex; `isSingularVertex(0)` is false although the
corners 0 and 4 of vertex 0 lie in two classes. -/
theorem part_count_adds_class_sizes :
    mkPolygonMesh quickFind 4 twoTriangles = .ok (some twoTrianglesMesh)
      ∧ forLoopM (joinStep (assemble 4 twoTriangles)) 5 0 [] = some [(2, 4)]
      ∧ (List.range 4).map (fun v => specPartCount twoTriangles [(2, 4)] (v : Int)) = [2, 1, 2, 1]
      ∧ twoTrianglesMesh.nPartsVertex = [1, 1, 3, 1]
      ∧ twoTrianglesMesh.isSingularVertex 0 = some false
      ∧ twoTrianglesMesh.isSingularVertex 2 = some true :=
  ⟨rfl, by decide, by decide, rfl, by decide, by decide⟩

/-! ## Boundary vertices -/

/-- C27: for every constructed `PolygonMesh` and every vertex `v`,
`isBoundaryVertex(v)` returns a value, and it is true exactly when some
non-separator corner `c` lies on an edge with exactly one incident half-edge
and `v` is `getSrc(c)` or `getDst(c)`; so both ends of such a half-edge report
boundary, and a `v` out of range reports false. -/
theorem isBoundaryVertex_iff (P : PartitionSizes) (nV : Int) (ci : List Int)
    (m : PolygonMesh) (hm : mkPolygonMesh P nV ci = .ok (some m)) (v : Int) :
    (∃ b, m.isBoundaryVertex v = some b)
      ∧ (m.isBoundaryVertex v = some true
          ↔ ∃ (c s d : Int), m.getSrc c = some s ∧ 0 ≤ s ∧ m.getDst c = some d
              ∧ m.getNumberOfEdgeHalfEdges (m.getEdge s d) = some 1 ∧ (v = s ∨ v = d))
      ∧ (v < 0 ∨ v ≥ m.edges.getNumberOfVertices → m.isBoundaryVertex v = some false) := by
  obtain ⟨_, _, hbase, hnV, _, _⟩ := polygonMesh_base hm
  obtain ⟨htot, hiff⟩ := isBoundaryVertex_spec hm v
  refine ⟨htot, ?_, ?_⟩
  · rw [hiff, hbase]
    constructor
    · rintro ⟨c, _, s, d, h1, h2, h3, h4, h5⟩
      exact ⟨c, s, d, h1, h2, h3, h4, h5⟩
    · rintro ⟨c, s, d, h1, h2, h3, h4, h5⟩
      have hrange : 0 ≤ c ∧ c < (ci.length : Int) := by
        by_contra hc
        unfold getSrc getNumberOfCorners at h1
        rw [assemble_coordIndex, if_pos (by omega)] at h1
        injection h1 with h1
        omega
      obtain ⟨k, rfl⟩ := Int.eq_ofNat_of_zero_le hrange.1
      exact ⟨k, by omega, s, d, h1, h2, h3, h4, h5⟩
  · intro hout
    unfold PolygonMesh.isBoundaryVertex
    rw [if_neg (by omega)]

theorem isBoundaryVertex_iff_witness :
    (twoTrianglesMesh.isBoundaryVertex 1 = some true
        ↔ ∃ (c s d : Int), twoTrianglesMesh.getSrc c = some s ∧ 0 ≤ s
            ∧ twoTrianglesMesh.getDst c = some d
            ∧ twoTrianglesMesh.getNumberOfEdgeHalfEdges (twoTrianglesMesh.getEdge s d) = some 1
            ∧ (1 = s ∨ 1 = d))
      ∧ twoTrianglesMesh.isBoundaryVertex 1 = some true
      ∧ twoTrianglesMesh.isBoundaryVertex 4 = some false :=
  ⟨(isBoundaryVertex_iff quickFind 4 twoTriangles twoTrianglesMesh rfl 1).2.1,
   by decide, by decide⟩

/-! ## Bowties, edges shared by three faces, and the predicates of the mesh -/

/-- C28: on the bowtie of two fans of two triangles each that share vertex 0,
the constructor completes, the edge `{0, 2}` inside the first fan has id 2 and
two incident half-edges, and `isSingularEdge(2)` is true, whatever the
partition collaborator: an edge incident to the shared vertex is reported
singular. -/
theorem bowtie_isSingularEdge (P : PartitionSizes) :
    ∃ m, mkPolygonMesh P 7 bowtie = .ok (some m)
      ∧ m.getEdge 0 2 = 2
      ∧ m.getNumberOfEdgeHalfEdges 2 = some 2
      ∧ m.isSingularEdge 2 = some true := by
  obtain ⟨m, hm⟩ := mkPolygonMesh_total P 7 bowtie (by decide) (by decide) (Or.inr rfl) (by decide)
  obtain ⟨_, _, hbase, _⟩ := polygonMesh_base hm
  obtain ⟨n, hn, _, _, _, _, hs⟩ := edge_classes hm 2
  have h2 : (assemble 7 bowtie).getNumberOfEdgeHalfEdges 2 = some 2 := by decide
  rw [hbase, h2] at hn
  injection hn with hn
  subst hn
  refine ⟨m, hm, ?_, ?_, hs⟩
  · rw [hbase]; decide
  · rw [hbase]; exact h2

/-- C29: for every `PolygonMesh` constructed from a sentinel-terminated corner
array and every edge id `e` in range on which exactly three non-separator
corners lie, `getNumberOfEdgeHalfEdges(e)` is 3, `isSingularEdge(e)` is true
and `isRegular()` is false. -/
theorem edge_of_three_faces (P : PartitionSizes) (nV : Int) (ci : List Int)
    (m : PolygonMesh) (hm : mkPolygonMesh P nV ci = .ok (some m))
    (hst : SentinelTerminated ci) (e : Int) (he0 : 0 ≤ e) (he : e < m.getNumberOfEdges)
    (h3 : (m.cornersOnEdge e).length = 3) :
    m.getNumberOfEdgeHalfEdges e = some 3 ∧ m.isSingularEdge e = some true
      ∧ m.isRegular = some false := by
  obtain ⟨hval, _, hbase, _⟩ := polygonMesh_base hm
  have hcount : m.getNumberOfEdgeHalfEdges e = some 3 := by
    rw [hbase] at he h3 ⊢
    obtain ⟨k, rfl⟩ := Int.eq_ofNat_of_zero_le he0
    have hk : k < (assemble nV ci).edges.pairs.length := by
      unfold getNumberOfEdges Edges.getNumberOfEdges at he
      omega
    rw [getNumberOfEdgeHalfEdges_natCast nV ci k hk, assemble_edges,
      cornersOf_eq_cornersOnEdge nV ci hval hst k, h3]
    rfl
  have hsing : m.isSingularEdge e = some true := by
    obtain ⟨n, hn, _, _, _, _, hs⟩ := edge_classes hm e
    rw [hcount] at hn
    injection hn with hn
    subst hn
    exact hs
  refine ⟨hcount, hsing, ?_⟩
  obtain ⟨r, hr, hiff⟩ := isRegular_spec hm
  cases r with
  | false => exact hr
  | true =>
    have := (hiff.mp rfl).1 e he0 he
    rw [hsing] at this
    exact absurd this (by decide)

theorem edge_of_three_faces_witness :
    ∃ m, mkPolygonMesh quickFind 5 threeFaces = .ok (some m)
      ∧ m.getNumberOfEdgeHalfEdges 0 = some 3 ∧ m.isSingularEdge 0 = some true
      ∧ m.isRegular = some false := by
  obtain ⟨m, hm⟩ := mkPolygonMesh_total quickFind 5 threeFaces (by decide) (by decide)
    (Or.inr rfl) (by decide)
  have hbase := (polygonMesh_base hm).2.2.1
  exact ⟨m, hm, edge_of_three_faces quickFind 5 threeFaces m hm (Or.inr rfl) 0 (by decide)
    (by rw [hbase]; decide) (by rw [hbase]; decide)⟩

/-- C30: for every constructed `PolygonMesh`, `isRegular()` and `hasBoundary()`
return a value; `isRegular()` is true exactly when `isSingularEdge(e)` is false
for every `e` in `[0, nE)` and `isSingularVertex(v)` is false for every `v` in
`[0, nV)`; `hasBoundary()` is true exactly when some edge in `[0, nE)` has
exactly one incident half-edge. -/
theorem isRegular_hasBoundary_iff (P : PartitionSizes) (nV : Int) (ci : List Int)
    (m : PolygonMesh) (hm : mkPolygonMesh P nV ci = .ok (some m)) :
    (∃ r, m.isRegular = some r) ∧ (∃ r, m.hasBoundary = some r)
      ∧ (m.isRegular = some true
          ↔ (∀ e : Int, 0 ≤ e → e < m.getNumberOfEdges → m.isSingularEdge e = some false)
            ∧ (∀ v : Int, 0 ≤ v → v < m.edges.getNumberOfVertices →
                m.isSingularVertex v = some false))
      ∧ (m.hasBoundary = some true
          ↔ ∃ e : Int, 0 ≤ e ∧ e < m.getNumberOfEdges
              ∧ m.getNumberOfEdgeHalfEdges e = some 1) := by
  obtain ⟨r1, hr1, hiff1⟩ := isRegular_spec hm
  obtain ⟨r2, hr2, hiff2⟩ := hasBoundary_spec hm
  refine ⟨⟨r1, hr1⟩, ⟨r2, hr2⟩, ?_, ?_⟩
  · rw [← hiff1, hr1]
    constructor
    · intro h; injection h
    · intro h; rw [h]
  · rw [← hiff2, hr2]
    constructor
    · intro h; injection h
    · intro h; rw [h]

theorem isRegular_hasBoundary_iff_witness :
    (twoTrianglesMesh.hasBoundary = some true
        ↔ ∃ e : Int, 0 ≤ e ∧ e < twoTrianglesMesh.getNumberOfEdges
            ∧ twoTrianglesMesh.getNumberOfEdgeHalfEdges e = some 1)
      ∧ twoTrianglesMesh.hasBoundary = some true
      ∧ twoTrianglesMesh.isRegular = some false :=
  ⟨(isRegular_hasBoundary_iff quickFind 4 twoTriangles twoTrianglesMesh rfl).2.2.2,
   by decide, by decide⟩

theorem bowtie_quickFind :
    ∃ m, mkPolygonMesh quickFind 7 bowtie = .ok (some m)
      ∧ m.nPartsVertex = [2, 1, 3, 1, 1, 3, 1] ∧ m.isSingularVertex 0 = some true :=
  ⟨_, rfl, by decide, by decide⟩

theorem cube_quickFind :
    ∃ m, mkPolygonMesh quickFind 8 cube = .ok (some m)
      ∧ m.nPartsVertex = [2, 4, 4, 4, 4, 4, 4, 10] :=
  ⟨_, rfl, by decide⟩

/-! ## Construction of `PolygonMesh` on arrays whose last face is not closed -/

theorem forLoopM_last_none {σ : Type} (body : Nat → σ → Option σ) :
    ∀ (n i : Nat) (s : σ), (∀ s', body (i + n) s' = none) → forLoopM body (n + 1) i s = none := by
  intro n
  induction n with
  | zero =>
    intro i s hlast
    simp only [forLoopM]
    rw [Nat.add_zero] at hlast
    rw [hlast s]
    rfl
  | succ n ih =>
    intro i s hlast
    rw [forLoopM]
    cases hb : body i s with
    | none => rfl
    | some s1 =>
      rw [Option.some_bind]
      apply ih (i + 1) s1
      intro s'
      rw [show i + 1 + n = i + (n + 1) by omega]
      exact hlast s'

theorem mkPolygonMesh_unterminated (P : PartitionSizes) (nV : Int) (ci : List Int)
    (hv : ∀ v ∈ ci, -1 ≤ v ∧ v < nV) (hne : 0 < ci.length)
    (hlast : 0 ≤ ci.getD (ci.length - 1) 0) (hmax : nV < 2147483647) :
    mkPolygonMesh P nV ci = .ok none := by
  have hnv : 0 ≤ nV := by
    have h1 : ci.length - 1 < ci.length := by omega
    have := (hv _ (List.getElem_mem h1)).2
    rw [List.getD_eq_getElem _ _ h1] at hlast
    omega
  have hok := mkHalfEdges_of_valid hv (show -1 ≤ nV by omega) hmax
  have hdst := (getNext_getDst_last_none nV ci _ hok hne).2
  have hcast : ((ci.length : Int) - 1) = ((ci.length - 1 : Nat) : Int) := by omega
  rw [hcast] at hdst
  have hstep : ∀ flags, boundaryStep (assemble nV ci) (ci.length - 1) flags = none := by
    intro flags
    unfold boundaryStep
    rw [assemble_coordIndex, rd_natCast ci _ (by omega), Option.some_bind,
      if_neg (by omega), getSrc_natCast nV ci _ (by omega), Option.some_bind, hdst]
    rfl
  have hloop : forLoopM (boundaryStep (assemble nV ci)) ci.length 0
      (List.replicate nV.toNat false) = none := by
    have := forLoopM_last_none (boundaryStep (assemble nV ci)) (ci.length - 1) 0
      (List.replicate nV.toNat false) (by rw [Nat.zero_add]; exact hstep)
    rw [show ci.length - 1 + 1 = ci.length by omega] at this
    exact this
  unfold mkPolygonMesh
  rw [hok]
  simp only []
  rw [assemble_nV, if_neg (by omega)]
  unfold assemblePolygonMesh
  simp only []
  rw [assemble_nV, assemble_coordIndex, hloop]
  rfl

/-- C31: with `nVertices = 3` and `coordIndex = [0, 1, 2]` the validation
passes and the base object is built, but the boundary loop of
`PolygonMesh::PolygonMesh` calls `getDst(2)`, which reads `_coordIndex[3]` in
an array of three elements; the construction neither throws nor completes in
bounds, whatever the partition collaborator. -/
theorem polygonMesh_unterminated_out_of_bounds (P : PartitionSizes) :
    mkHalfEdges 3 [0, 1, 2] = .ok (assemble 3 [0, 1, 2])
      ∧ (assemble 3 [0, 1, 2]).getSrc 2 = some 2
      ∧ (assemble 3 [0, 1, 2]).face = [-1, -1, -1]
      ∧ (assemble 3 [0, 1, 2]).getDst 2 = none
      ∧ mkPolygonMesh P 3 [0, 1, 2] = .ok none :=
  ⟨mkHalfEdges_of_valid (by decide) (by decide) (by decide), by decide, by decide, by decide, rfl⟩

/-! ## The face of a corner -/

/-- C32: for every mesh constructed from a sentinel-terminated corner array and
every integer `c`, `getFace(c)` returns a value; at a corner that holds a
vertex it is the number of separators before position `c`; and it is `-1`
exactly when `c` is out of range or the entry at `c` is a separator. -/
theorem getFace_counts_separators (nV : Int) (ci : List Int) (h : HalfEdges)
    (hok : mkHalfEdges nV ci = .ok h) (hst : SentinelTerminated ci) (c : Int) :
    (∃ f, h.getFace c = some f)
      ∧ (0 ≤ c → c < h.getNumberOfCorners → 0 ≤ ci.getD c.toNat 0 →
          h.getFace c = some (countNeg (ci.take c.toNat) : Int))
      ∧ (h.getFace c = some (-1)
          ↔ (c < 0 ∨ c ≥ h.getNumberOfCorners ∨ ci.getD c.toNat 0 < 0)) := by
  obtain ⟨_, rfl⟩ := mkHalfEdges_ok hok
  unfold getNumberOfCorners
  rw [assemble_coordIndex]
  by_cases hr : c < 0 ∨ c ≥ (ci.length : Int)
  · have hf : (assemble nV ci).getFace c = some (-1) := by
      unfold getFace getNumberOfCorners
      rw [assemble_coordIndex, if_pos hr]
    refine ⟨⟨_, hf⟩, fun h0 h1 => absurd h1 (by omega), ?_⟩
    rw [hf]
    exact ⟨fun _ => by omega, fun _ => rfl⟩
  · have hr' : 0 ≤ c ∧ c < (ci.length : Int) := by omega
    obtain ⟨n, rfl⟩ := Int.eq_ofNat_of_zero_le hr'.1
    have hn : n < ci.length := by omega
    rw [getFace_natCast nV ci n hn, Int.toNat_ofNat]
    by_cases hv : 0 ≤ ci.getD n 0
    · rw [assemble_face_closed nV ci n (sentinelTerminated_closed hst n hn hv)]
      refine ⟨⟨_, rfl⟩, fun _ _ _ => rfl, ?_⟩
      constructor
      · intro hh
        injection hh with hh
        omega
      · intro hh
        omega
    · rw [assemble_face_open nV ci n hn (fun hcc => hv hcc.1)]
      exact ⟨⟨_, rfl⟩, fun _ _ h2 => absurd h2 hv, fun _ => by omega, fun _ => rfl⟩

theorem getFace_counts_separators_witness :
    (assemble 4 twoTriangles).getFace 5
        = some (countNeg (twoTriangles.take (5 : Int).toNat) : Int)
      ∧ (assemble 4 twoTriangles).getFace 5 = some 1
      ∧ (assemble 4 twoTriangles).getFace 3 = some (-1) :=
  ⟨(getFace_counts_separators 4 twoTriangles _ (mkHalfEdges_of_valid (by decide) (by decide) (by decide))
      (Or.inr rfl) 5).2.1 (by decide) (by decide) (by decide), by decide, by decide⟩

/-- C39: for every `(nV, coordIndex)` that both `Faces` and `HalfEdges`
accept, `Faces::getCornerFace(c)` and `HalfEdges::getFace(c)` return the same
value for every integer `c`. -/
theorem getCornerFace_eq_getFace (nV : Int) (ci : List Int) (f : Faces) (h : HalfEdges)
    (hf : mkFaces nV ci = .ok f) (hh : mkHalfEdges nV ci = .ok h) (c : Int) :
    f.getCornerFace c = h.getFace c := by
  obtain ⟨_, rfl⟩ := mkHalfEdges_ok hh
  obtain ⟨_, hci, _, _⟩ := mkFaces_ok hf
  by_cases hr : c < 0 ∨ c ≥ (ci.length : Int)
  · have h1 : ¬ (c ≥ 0 ∧ c < (f.coordIndex.length : Int)) := by rw [hci]; omega
    have h2 : c < 0 ∨ c ≥ ((assemble nV ci).coordIndex.length : Int) := by
      rw [assemble_coordIndex]; exact hr
    unfold Faces.getCornerFace Faces.isValidCorner getFace getNumberOfCorners
    rw [if_pos h1, if_pos h2]
  · have hr' : 0 ≤ c ∧ c < (ci.length : Int) := by omega
    obtain ⟨n, rfl⟩ := Int.eq_ofNat_of_zero_le hr'.1
    have hn : n < ci.length := by omega
    rw [getFace_natCast nV ci n hn]
    by_cases hcc : ClosedCorner ci n
    · rw [getCornerFace_closed nV ci f hf n hcc, assemble_face_closed nV ci n hcc]
    · rw [getCornerFace_open nV ci f hf n hn hcc, assemble_face_open nV ci n hn hcc]

theorem getCornerFace_eq_getFace_witness :
    twoTrianglesFaces.getCornerFace 5 = (assemble 4 twoTriangles).getFace 5
      ∧ twoTrianglesFaces.getCornerFace 5 = some 1 :=
  ⟨getCornerFace_eq_getFace 4 twoTriangles _ _ mkFaces_twoTriangles
    (mkHalfEdges_of_valid (by decide) (by decide) (by decide)) 5, by decide⟩

/-! ## Every edge has a half-edge -/

theorem cornersOf_ne_nil (nV : Int) (ci : List Int) (e : Nat)
    (he : e < (regFinal nV ci).2.g.pairs.length) :
    cornersOf (halfEdgeList ci (regFinal nV ci).2.g) e ≠ [] := by
  have hinv := regFinal_inv nV ci
  have hk : (regFinal nV ci).2.g.pairs.getD e (0, 0) ∈ (regFinal nV ci).2.g.pairs := by
    rw [List.getD_eq_getElem _ _ he]; exact List.getElem_mem he
  obtain ⟨x, hx, hxk⟩ := List.mem_map.mp ((hinv.mem _).mp hk)
  obtain ⟨_, heq⟩ := visitEdge_eq nV ci x hx
  rw [hxk, pairIndex_getD_of_nodup _ hinv.nodup e he] at heq
  have hmem : (x.2.2, e) ∈ halfEdgeList ci (regFinal nV ci).2.g :=
    List.mem_map.mpr ⟨x, hx, by rw [heq]⟩
  intro hnil
  have := (mem_cornersOf _ x.2.2 e).mpr hmem
  rw [hnil] at this
  exact absurd this (List.not_mem_nil _)

theorem edge_count_pos (nV : Int) (ci : List Int) (e : Int) (he0 : 0 ≤ e)
    (he : e < (assemble nV ci).getNumberOfEdges) :
    ∃ n : Int, (assemble nV ci).getNumberOfEdgeHalfEdges e = some n ∧ 1 ≤ n := by
  obtain ⟨k, rfl⟩ := Int.eq_ofNat_of_zero_le he0
  have hk : k < (assemble nV ci).edges.pairs.length := by
    unfold getNumberOfEdges Edges.getNumberOfEdges at he
    omega
  refine ⟨_, getNumberOfEdgeHalfEdges_natCast nV ci k hk, ?_⟩
  rw [assemble_edges] at hk ⊢
  have := cornersOf_ne_nil nV ci k hk
  have : (cornersOf (halfEdgeList ci (regFinal nV ci).2.g) k).length ≠ 0 :=
    fun h0 => this (List.length_eq_zero.mp h0)
  omega

/-- C38: for every constructed mesh every edge id in `[0, getNumberOfEdges())`
has at least one incident half-edge; and for every `PolygonMesh` constructed
from the same input, every such edge satisfies `isBoundaryEdge`,
`isRegularEdge` or `isSingularEdge`, and the classification loop of the test
ends with `nE_other = 0`. -/
theorem every_edge_has_halfEdge (nV : Int) (ci : List Int) (h : HalfEdges)
    (hok : mkHalfEdges nV ci = .ok h) :
    (∀ e : Int, 0 ≤ e → e < h.getNumberOfEdges →
        ∃ n : Int, h.getNumberOfEdgeHalfEdges e = some n ∧ 1 ≤ n)
      ∧ ∀ (P : PartitionSizes) (m : PolygonMesh), mkPolygonMesh P nV ci = .ok (some m) →
          (∀ e : Int, 0 ≤ e → e < m.getNumberOfEdges →
              m.isBoundaryEdge e = some true ∨ m.isRegularEdge e = some true
                ∨ m.isSingularEdge e = some true)
            ∧ ∃ t, edgeTally m = some t ∧ t.nE_other = 0 := by
  obtain ⟨_, rfl⟩ := mkHalfEdges_ok hok
  refine ⟨fun e he0 he => edge_count_pos nV ci e he0 he, ?_⟩
  intro P m hm
  obtain ⟨_, _, hbase, _⟩ := polygonMesh_base hm
  have hclass : ∀ e : Int, 0 ≤ e → e < m.getNumberOfEdges →
      m.isBoundaryEdge e = some true
        ∨ (m.isBoundaryEdge e = some false ∧ m.isSingularEdge e = some true) := by
    intro e he0 he
    obtain ⟨n, hn, _, _, hb, _, hs⟩ := edge_classes hm e
    rw [hbase] at he hn
    obtain ⟨n', hn', hpos⟩ := edge_count_pos nV ci e he0 he
    rw [hn] at hn'
    injection hn' with hn'
    subst hn'
    by_cases h1 : n = 1
    · left; rw [hb]; simp [h1]
    · right
      rw [hb, hs]
      refine ⟨by simp [h1], ?_⟩
      have : n > 1 := by omega
      simp [this]
  refine ⟨fun e he0 he => ?_, ?_⟩
  · rcases hclass e he0 he with hb | ⟨_, hs⟩
    · exact Or.inl hb
    · exact Or.inr (Or.inr hs)
  · obtain ⟨t, ht, hinv⟩ := forLoopM_total (tallyStep m) (fun _ t => t.nE_other = 0)
      m.getNumberOfEdges.toNat 0 ⟨0, 0, 0, 0⟩
      (fun i t _ hi hinv => by
        have hi' : ((i : Nat) : Int) < m.getNumberOfEdges := by omega
        obtain ⟨n, _, _, _, _, hr, _⟩ := edge_classes hm (i : Int)
        unfold tallyStep
        rcases hclass (i : Int) (Int.natCast_nonneg _) hi' with hb | ⟨hb, hs⟩
        · rw [hb]
          exact ⟨_, rfl, hinv⟩
        · rw [hb, hr, hs]
          simp only [Option.some_bind, Bool.false_eq_true, if_false, if_true]
          by_cases h2 : n = 2
          · simp only [h2, decide_True, if_true]
            exact ⟨_, rfl, hinv⟩
          · simp only [h2, decide_False, Bool.false_eq_true, if_false]
            exact ⟨_, rfl, hinv⟩)
      rfl
    exact ⟨t, ht, hinv⟩

theorem every_edge_has_halfEdge_witness :
    (∀ e : Int, 0 ≤ e → e < (assemble 4 twoTriangles).getNumberOfEdges →
        ∃ n : Int, (assemble 4 twoTriangles).getNumberOfEdgeHalfEdges e = some n ∧ 1 ≤ n)
      ∧ edgeTally twoTrianglesMesh = some ⟨4, 1, 0, 0⟩ :=
  ⟨(every_edge_has_halfEdge 4 twoTriangles _ (mkHalfEdges_of_valid (by decide) (by decide) (by decide))).1,
   by decide⟩

/-! ## What the twin pass leaves on every edge -/

theorem getLastD_eq_getD (l : List Nat) (h : l ≠ []) :
    l.getLastD 0 = l.getD (l.length - 1) 0 := by
  induction l with
  | nil => exact absurd rfl h
  | cons a rest ih =>
    cases rest with
    | nil => rfl
    | cons b rs =>
      have := ih (List.cons_ne_nil b rs)
      simp only [List.getLastD_cons, List.length_cons, Nat.add_sub_cancel,
        List.getD_cons_succ] at this ⊢
      exact this

theorem getLastD_mem (l : List Nat) (h : l ≠ []) : l.getLastD 0 ∈ l := by
  have hlt : l.length - 1 < l.length := by
    have := List.length_pos.mpr h; omega
  have hm : l.getD (l.length - 1) 0 ∈ l := by
    rw [List.getD_eq_getElem _ _ hlt]
    exact List.getElem_mem hlt
  rw [getLastD_eq_getD l h]
  exact hm

theorem getEdge_eq_natCast {g : Edges} {v d : Int} {e : Nat} (h : g.getEdge v d = (e : Int)) :
    edgeKey v d ∈ g.pairs ∧ pairIndex (edgeKey v d) g.pairs = e := by
  unfold Edges.getEdge at h
  split_ifs at h with hm
  exact ⟨hm, by exact_mod_cast h⟩

theorem edgeKey_eq {a b a' b' : Int} (h : edgeKey a b = edgeKey a' b') :
    (a = a' ∧ b = b') ∨ (a = b' ∧ b = a') := by
  unfold edgeKey at h
  injection h with h1 h2
  omega

/-- C36: for every constructed mesh and every edge with `n ≥ 2` incident
half-edges, listed by `getEdgeHalfEdge(e, 0), ..., getEdgeHalfEdge(e, n-1)` in
strictly increasing corner order, `getTwin` of the first is the last and
`getTwin` of every later one is the first. -/
theorem twin_pass_links (nV : Int) (ci : List Int) (h : HalfEdges)
    (hok : mkHalfEdges nV ci = .ok h) (e n : Int)
    (hn : h.getNumberOfEdgeHalfEdges e = some n) (h2 : 2 ≤ n) :
    ∃ L : List Nat, (L.length : Int) = n ∧ L.Pairwise (fun a b => a < b)
      ∧ (∀ j : Nat, j < L.length → h.getEdgeHalfEdge e (j : Int) = some ((L.getD j 0 : Nat) : Int))
      ∧ h.getTwin ((L.getD 0 0 : Nat) : Int) = some ((L.getD (L.length - 1) 0 : Nat) : Int)
      ∧ ∀ j : Nat, 1 ≤ j → j < L.length →
          h.getTwin ((L.getD j 0 : Nat) : Int) = some ((L.getD 0 0 : Nat) : Int) := by
  obtain ⟨_, rfl⟩ := mkHalfEdges_ok hok
  obtain ⟨n', hn', _, hr⟩ := getNumberOfEdgeHalfEdges_total nV ci e
  rw [hn] at hn'
  injection hn' with hn'
  subst hn'
  obtain ⟨he0, he1⟩ := hr (by omega)
  obtain ⟨k, rfl⟩ := Int.eq_ofNat_of_zero_le he0
  have hk : k < (assemble nV ci).edges.pairs.length := by
    unfold getNumberOfEdges Edges.getNumberOfEdges at he1
    omega
  have hnum := getNumberOfEdgeHalfEdges_natCast nV ci k hk
  rw [hn] at hnum
  injection hnum with hnum
  have hget := fun j hj => getEdgeHalfEdge_natCast nV ci k j hk hj
  rw [assemble_edges] at hk hnum hget
  have htw := twinFinal_inv nV ci
  have hsorted := cornersOf_sorted _ (halfEdgeList_sorted ci (regFinal nV ci).2.g) k
  have hmem : ∀ c, c ∈ cornersOf (halfEdgeList ci (regFinal nV ci).2.g) k →
      (c, k) ∈ halfEdgeList ci (regFinal nV ci).2.g := fun c hc => (mem_cornersOf _ c k).mp hc
  have htwin : ∀ c, c ∈ cornersOf (halfEdgeList ci (regFinal nV ci).2.g) k →
      (assemble nV ci).getTwin (c : Int) = some ((twinFinal ci (regFinal nV ci).2.g).2.twin.getD c 0) := by
    intro c hc
    rw [getTwin_natCast nV ci c (halfEdgeList_bounds nV ci _ (hmem c hc)).1, assemble_twin]
  cases hL : cornersOf (halfEdgeList ci (regFinal nV ci).2.g) k with
  | nil => rw [hL] at hnum; simp only [List.length_nil, Nat.cast_zero] at hnum; omega
  | cons f rest =>
    rw [hL] at hnum hget hsorted hmem htwin
    have hrest : rest ≠ [] := by
      intro hnil
      rw [hnil] at hnum
      simp only [List.length_singleton, Nat.cast_one] at hnum
      omega
    refine ⟨f :: rest, hnum.symm, hsorted, hget, ?_, ?_⟩
    · show (assemble nV ci).getTwin (f : Int)
          = some (((f :: rest).getD ((f :: rest).length - 1) 0 : Nat) : Int)
      rw [htwin f (List.mem_cons_self _ _),
        htw.head (f, k) (hmem f (List.mem_cons_self _ _)) rest hL, if_neg hrest,
        getLastD_eq_getD rest hrest]
      congr 2
      cases rest with
      | nil => exact absurd rfl hrest
      | cons b rs => simp
    · intro j hj1 hj
      have hjm : (f :: rest).getD j 0 ∈ f :: rest := by
        rw [List.getD_eq_getElem _ _ hj]
        exact List.getElem_mem _
      have hne : (f :: rest).getD j 0 ≠ f := by
        obtain ⟨j', rfl⟩ : ∃ j', j = j' + 1 := ⟨j - 1, by omega⟩
        rw [List.getD_cons_succ]
        have hj' : j' < rest.length := by simpa using hj
        rw [List.getD_eq_getElem _ _ hj']
        have := (List.pairwise_cons.mp hsorted).1 _ (List.getElem_mem hj')
        omega
      rw [htwin _ hjm, htw.tail ((f :: rest).getD j 0, k) (hmem _ hjm) f rest hL hne]
      rfl

theorem twin_pass_links_witness :
    ∃ L : List Nat, (L.length : Int) = 3 ∧ L.Pairwise (fun a b => a < b)
      ∧ (∀ j : Nat, j < L.length →
          (assemble 5 threeFaces).getEdgeHalfEdge 0 (j : Int) = some ((L.getD j 0 : Nat) : Int))
      ∧ (assemble 5 threeFaces).getTwin ((L.getD 0 0 : Nat) : Int)
          = some ((L.getD (L.length - 1) 0 : Nat) : Int)
      ∧ ∀ j : Nat, 1 ≤ j → j < L.length →
          (assemble 5 threeFaces).getTwin ((L.getD j 0 : Nat) : Int)
            = some ((L.getD 0 0 : Nat) : Int) :=
  twin_pass_links 5 threeFaces _ (mkHalfEdges_of_valid (by decide) (by decide) (by decide)) 0 3
    (by decide) (by decide)

/-- C37: for every constructed mesh and every corner `c` whose twin
`t = getTwin(c)` is not `-1`, `t` is a corner in range that holds a vertex,
differs from `c`, and lies on the same undirected edge: the pair of
`getSrc(t)` and `getDst(t)` is the pair of `getSrc(c)` and `getDst(c)` in one of
the two orders. -/
theorem getTwin_same_edge (nV : Int) (ci : List Int) (h : HalfEdges)
    (hok : mkHalfEdges nV ci = .ok h) (c t : Int)
    (ht : h.getTwin c = some t) (ht0 : 0 ≤ t) :
    t ≠ c ∧ t < h.getNumberOfCorners
      ∧ ∃ sc dc st dt : Int, h.getSrc c = some sc ∧ h.getDst c = some dc
          ∧ h.getSrc t = some st ∧ h.getDst t = some dt ∧ 0 ≤ sc ∧ 0 ≤ st
          ∧ ((st = sc ∧ dt = dc) ∨ (st = dc ∧ dt = sc)) := by
  obtain ⟨hfv, rfl⟩ := mkHalfEdges_ok hok
  have hval := (firstViolation_none nV ci 0).mp hfv
  have hrange : 0 ≤ c ∧ c < (ci.length : Int) := by
    by_contra hc
    unfold getTwin getNumberOfCorners at ht
    rw [assemble_coordIndex, if_pos (by omega)] at ht
    injection ht with ht
    omega
  obtain ⟨n, rfl⟩ := Int.eq_ofNat_of_zero_le hrange.1
  have hn : n < ci.length := by omega
  rw [getTwin_natCast nV ci n hn, assemble_twin] at ht
  injection ht with ht
  have htw := twinFinal_inv nV ci
  have hsortedAll := halfEdgeList_sorted ci (regFinal nV ci).2.g
  -- the corner `n` is a half-edge of some edge `e`
  have hseen : ∃ x ∈ halfEdgeList ci (regFinal nV ci).2.g, x.1 = n := by
    by_contra hno
    have := htw.unseen n hn (fun x hx hxn => hno ⟨x, hx, hxn⟩)
    omega
  obtain ⟨⟨n', e⟩, hx, hxn⟩ := hseen
  simp only at hxn
  subst hxn
  have hsorted := cornersOf_sorted _ hsortedAll e
  have hnL := (mem_cornersOf _ n' e).mpr hx
  -- the twin is another corner of the same edge
  have htn : ∃ tn : Nat, t = (tn : Int) ∧ tn ≠ n'
      ∧ (tn, e) ∈ halfEdgeList ci (regFinal nV ci).2.g := by
    cases hL : cornersOf (halfEdgeList ci (regFinal nV ci).2.g) e with
    | nil => rw [hL] at hnL; exact absurd hnL (List.not_mem_nil _)
    | cons f rest =>
      rw [hL] at hsorted
      by_cases hnf : n' = f
      · subst hnf
        have hh := htw.head (n', e) hx rest hL
        simp only at hh
        rw [hh] at ht
        by_cases hrest : rest = []
        · rw [if_pos hrest] at ht; omega
        · rw [if_neg hrest] at ht
          have hm := getLastD_mem rest hrest
          refine ⟨rest.getLastD 0, ht.symm, ?_, ?_⟩
          · have := (List.pairwise_cons.mp hsorted).1 _ hm
            omega
          · apply (mem_cornersOf _ _ e).mp
            rw [hL]
            exact List.mem_cons_of_mem _ hm
      · have hh := htw.tail (n', e) hx f rest hL hnf
        simp only at hh
        rw [hh] at ht
        refine ⟨f, ht.symm, fun h' => hnf h'.symm, ?_⟩
        apply (mem_cornersOf _ _ e).mp
        rw [hL]
        exact List.mem_cons_self _ _
  obtain ⟨tn, rfl, hne, htx⟩ := htn
  -- both corners are closed corners whose edge is `e`
  have hedge : ∀ m : Nat, (m, e) ∈ halfEdgeList ci (regFinal nV ci).2.g →
      m < ci.length ∧ 0 ≤ ci.getD m 0 ∧ ∃ d, (assemble nV ci).getDst (m : Int) = some d
        ∧ edgeKey (ci.getD m 0) d ∈ (regFinal nV ci).2.g.pairs
        ∧ pairIndex (edgeKey (ci.getD m 0) d) (regFinal nV ci).2.g.pairs = e := by
    intro m hm
    have hm' := hm
    unfold halfEdgeList at hm'
    obtain ⟨y, hy, hye⟩ := List.mem_map.mp hm'
    have hcc := visit_closedCorner y hy
    have hyc : y.2.2 = m := congrArg Prod.fst hye
    rw [hyc] at hcc
    obtain ⟨e', d, hmem, _, hd, _, _, hedge⟩ := closedCorner_edge nV ci hval m hcc
    have he : e' = e := corner_unique _ hsortedAll m e' e hmem hm
    unfold getEdge at hedge
    rw [assemble_edges, he] at hedge
    obtain ⟨h1, h2⟩ := getEdge_eq_natCast hedge
    exact ⟨(halfEdgeList_bounds nV ci _ hm).1, hcc.1, d, hd, h1, h2⟩
  obtain ⟨hc1, hc2, dc, hdc, hkc, hic⟩ := hedge n' hx
  obtain ⟨ht1, ht2, dt, hdt, hkt, hit⟩ := hedge tn htx
  have hkey := pairIndex_inj _ _ _ hkt hkc (by rw [hit, hic])
  unfold getNumberOfCorners
  rw [assemble_coordIndex]
  refine ⟨by omega, by omega, ci.getD n' 0, dc, ci.getD tn 0, dt,
    getSrc_natCast nV ci n' hc1, hdc, getSrc_natCast nV ci tn ht1, hdt, hc2, ht2,
    edgeKey_eq hkey⟩

theorem getTwin_same_edge_witness :
    (2 : Int) ≠ 4 ∧ (2 : Int) < (assemble 4 twoTriangles).getNumberOfCorners
      ∧ ∃ sc dc st dt : Int, (assemble 4 twoTriangles).getSrc 4 = some sc
          ∧ (assemble 4 twoTriangles).getDst 4 = some dc
          ∧ (assemble 4 twoTriangles).getSrc 2 = some st
          ∧ (assemble 4 twoTriangles).getDst 2 = some dt ∧ 0 ≤ sc ∧ 0 ≤ st
          ∧ ((st = sc ∧ dt = dc) ∨ (st = dc ∧ dt = sc)) :=
  getTwin_same_edge 4 twoTriangles _ (mkHalfEdges_of_valid (by decide) (by decide) (by decide)) 4 2
    (by decide) (by decide)

/-! ## The incidence counts add up to the number of half-edges -/

theorem visits_length_closed (l : List Int) (iF iC0 iC1 : Nat) (hle : iC0 ≤ iC1)
    (hend : ∀ v, l.getLast? = some v → v < 0) (hnil : l = [] → iC0 = iC1) :
    (visits l iF iC0 iC1).length + countNeg l = (iC1 - iC0) + l.length := by
  induction l generalizing iF iC0 iC1 with
  | nil =>
    have := hnil rfl
    simp only [visits, countNeg, List.filter_nil, List.length_nil]
    omega
  | cons v rest ih =>
    simp only [visits]
    split_ifs with hv
    · have hrest : rest ≠ [] := by
        intro hr
        rw [hr] at hend
        have := hend v rfl
        omega
      obtain ⟨b, rs, hb⟩ := List.exists_cons_of_ne_nil hrest
      have hend' : ∀ w, rest.getLast? = some w → w < 0 := by
        intro w hw
        apply hend w
        rw [hb, List.getLast?_cons_cons, ← hb]
        exact hw
      have := ih iF iC0 (iC1 + 1) (by omega) hend' (fun hr => absurd hr hrest)
      have hc : countNeg (v :: rest) = countNeg rest := by
        simp [countNeg, List.filter_cons, not_lt.mpr hv]
      rw [hc, List.length_cons]
      omega
    · have hend' : ∀ w, rest.getLast? = some w → w < 0 := by
        intro w hw
        cases rest with
        | nil => simp at hw
        | cons b rs =>
          apply hend w
          rw [List.getLast?_cons_cons]
          exact hw
      have := ih (iF + 1) (iC1 + 1) (iC1 + 1) (le_refl _) hend' (fun _ => rfl)
      have hc : countNeg (v :: rest) = countNeg rest + 1 := by
        simp [countNeg, List.filter_cons, not_le.mp hv]
      rw [hc, List.length_append, List.length_map, List.length_range', List.length_cons]
      omega

theorem halfEdgeList_length_closed (ci : List Int) (g : Edges) (hst : SentinelTerminated ci) :
    (halfEdgeList ci g).length + countNeg ci = ci.length := by
  unfold halfEdgeList
  rw [List.length_map]
  have := visits_length_closed ci 0 0 0 (le_refl _)
    (by
      intro v hv
      rcases hst with h | h
      · rw [h] at hv; simp at hv
      · rw [h] at hv
        injection hv with hv
        omega)
    (fun _ => rfl)
  omega

theorem slotStart_all (p : List (Nat × Nat)) (e : Nat) (h : ∀ x ∈ p, x.2 < e) :
    slotStart p e = p.length := by
  unfold slotStart
  rw [List.filter_eq_self.mpr (fun x hx => by simpa using h x hx)]

theorem sum_cornersOf (p : List (Nat × Nat)) (nE : Nat) :
    ((List.range nE).map fun e => ((cornersOf p e).length : Int)).sum = (slotStart p nE : Int) := by
  induction nE with
  | zero => simp [slotStart_zero]
  | succ n ih =>
    rw [List.range_succ, List.map_append, List.sum_append, ih, slotStart_succ]
    simp

theorem slot_of_index (p : List (Nat × Nat)) (nE : Nat) :
    ∀ i, i < slotStart p nE → ∃ e j, e < nE ∧ j < (cornersOf p e).length
      ∧ i = slotStart p e + j := by
  induction nE with
  | zero =>
    intro i hi
    rw [slotStart_zero] at hi
    omega
  | succ n ih =>
    intro i hi
    by_cases hlt : i < slotStart p n
    · obtain ⟨e, j, he, hj, hij⟩ := ih i hlt
      exact ⟨e, j, by omega, hj, hij⟩
    · rw [slotStart_succ] at hi
      exact ⟨n, i - slotStart p n, by omega, by omega, by omega⟩

theorem regFinal_fst (nV : Int) (ci : List Int) : (regFinal nV ci).1 = countNeg ci := by
  unfold regFinal
  rw [faceLoop_fst, Nat.zero_add]

/-- C34: for every mesh constructed from a sentinel-terminated corner array,
the values `getNumberOfEdgeHalfEdges(e)` over the edges `e` in `[0, nE)` add up
to `nC - nF`, the length of the array minus its number of separators; this is
the length of `_cornerEdge`, and every slot of `_cornerEdge` holds a corner. -/
theorem incidence_counts_sum (nV : Int) (ci : List Int) (h : HalfEdges)
    (hok : mkHalfEdges nV ci = .ok h) (hst : SentinelTerminated ci) :
    ∃ counts : List Int, counts.length = h.getNumberOfEdges.toNat
      ∧ (∀ e : Nat, e < counts.length →
          h.getNumberOfEdgeHalfEdges (e : Int) = some (counts.getD e 0))
      ∧ counts.sum = (ci.length : Int) - (countNeg ci : Int)
      ∧ (h.cornerEdge.length : Int) = (ci.length : Int) - (countNeg ci : Int)
      ∧ ∀ i, i < h.cornerEdge.length → 0 ≤ h.cornerEdge.getD i 0 := by
  obtain ⟨_, rfl⟩ := mkHalfEdges_ok hok
  have hfill := fillFinal_inv nV ci
  have hbounds := halfEdgeList_bounds nV ci
  have hall := slotStart_all _ _ (fun x hx => (hbounds x hx).2)
  have hlen := halfEdgeList_length_closed ci (regFinal nV ci).2.g hst
  have hnE : (assemble nV ci).getNumberOfEdges.toNat = (regFinal nV ci).2.g.pairs.length := by
    unfold getNumberOfEdges Edges.getNumberOfEdges
    rw [assemble_edges, Int.toNat_ofNat]
  have hce : (assemble nV ci).cornerEdge.length = (halfEdgeList ci (regFinal nV ci).2.g).length := by
    rw [assemble_cornerEdge, hfill.len, regFinal_fst]
    omega
  refine ⟨(List.range (regFinal nV ci).2.g.pairs.length).map
      fun e => ((cornersOf (halfEdgeList ci (regFinal nV ci).2.g) e).length : Int), ?_, ?_, ?_, ?_, ?_⟩
  · rw [List.length_map, List.length_range, hnE]
  · intro e he
    rw [List.length_map, List.length_range] at he
    have := getNumberOfEdgeHalfEdges_natCast nV ci e (by rw [assemble_edges]; exact he)
    rw [assemble_edges] at this
    rw [this, List.getD_eq_getElem _ _ (by rw [List.length_map, List.length_range]; exact he),
      List.getElem_map, List.getElem_range]
  · rw [sum_cornersOf, hall]
    omega
  · rw [hce]
    omega
  · intro i hi
    rw [hce, ← hall] at hi
    obtain ⟨e, j, he, hj, hij⟩ := slot_of_index _ _ i hi
    rw [assemble_cornerEdge, hij, hfill.slot e j he hj, if_pos hj]
    exact Int.natCast_nonneg _

theorem incidence_counts_sum_witness :
    ∃ counts : List Int, counts.length = (assemble 4 tetrahedron).getNumberOfEdges.toNat
      ∧ (∀ e : Nat, e < counts.length →
          (assemble 4 tetrahedron).getNumberOfEdgeHalfEdges (e : Int) = some (counts.getD e 0))
      ∧ counts.sum = (tetrahedron.length : Int) - (countNeg tetrahedron : Int)
      ∧ ((assemble 4 tetrahedron).cornerEdge.length : Int)
          = (tetrahedron.length : Int) - (countNeg tetrahedron : Int)
      ∧ ∀ i, i < (assemble 4 tetrahedron).cornerEdge.length →
          0 ≤ (assemble 4 tetrahedron).cornerEdge.getD i 0 :=
  incidence_counts_sum 4 tetrahedron _ (mkHalfEdges_of_valid (by decide) (by decide) (by decide))
    (Or.inr rfl)

/-! ## The sizes of the faces of `Faces` -/

/-- C35, as stated, fails: `Faces` accepts `nV = 2` with `[0, 1, -1, -1]` (two
distinct values) and builds two faces, of sizes 2 and 0. -/
theorem faces_accepts_short_faces :
    ∃ f, mkFaces 2 [0, 1, -1, -1] = .ok f ∧ f.getNumberOfFaces = 2
      ∧ f.getFaceSize 0 = 2 ∧ f.getFaceSize 1 = 0
      ∧ ¬ (3 ≤ f.getFaceSize 0) ∧ ¬ (3 ≤ f.getFaceSize 1) :=
  ⟨_, mkFaces_of_count (by decide), by decide, by decide, by decide, by decide, by decide⟩

/-- C35, amended: for every successfully constructed `Faces` and every face
`k`, `getFaceSize(k)` is the number of corners of the run number `k` of the
input, from the start of the array or the previous separator to the next
separator, and is at least 0. -/
theorem getFaceSize_nonneg (nV : Int) (ci : List Int) (f : Faces)
    (hok : mkFaces nV ci = .ok f) (k : Int) (hk0 : 0 ≤ k) (hk : k < f.getNumberOfFaces) :
    0 ≤ f.getFaceSize k
      ∧ ∃ s e : Nat, FaceSpan ci k.toNat s e ∧ f.getFaceSize k = (e : Int) - (s : Int) := by
  obtain ⟨n, rfl⟩ := Int.eq_ofNat_of_zero_le hk0
  obtain ⟨s, e, hspan, _, _, hsize⟩ := faces_face nV ci f hok n hk
  have := hspan.le
  rw [Int.toNat_ofNat]
  exact ⟨by rw [hsize]; omega, s, e, hspan, hsize⟩

theorem getFaceSize_nonneg_witness :
    0 ≤ twoTrianglesFaces.getFaceSize 1
      ∧ ∃ s e : Nat, FaceSpan twoTriangles (1 : Int).toNat s e
          ∧ twoTrianglesFaces.getFaceSize 1 = (e : Int) - (s : Int) :=
  getFaceSize_nonneg 4 twoTriangles twoTrianglesFaces mkFaces_twoTriangles 1 (by decide)
    (by decide)

/-! ## The number of corners reported by `Faces` -/

theorem card_le_of_valid (nV : Int) (ci : List Int) (hv : ∀ v ∈ ci, -1 ≤ v ∧ v < nV)
    (hnv : 0 ≤ nV) :
    ((ci.filter (fun v => decide (0 ≤ v))).toFinset.card : Int) ≤ nV := by
  have hsub : (ci.filter (fun v => decide (0 ≤ v))).toFinset ⊆ Finset.Ico (0 : Int) nV := by
    intro v hm
    rw [List.mem_toFinset, List.mem_filter, decide_eq_true_eq] at hm
    rw [Finset.mem_Ico]
    exact ⟨hm.2, (hv v hm.1).2⟩
  have hle := Finset.card_le_card hsub
  rw [Int.card_Ico] at hle
  omega

/-- C15, as stated, fails: the construction of `HalfEdges` and that of
`PolygonMesh`, with any partition collaborator, accept `nVertices = 4` with the
single triangle `[0, 1, 2, -1]`, although the vertex id 3 is no corner value
and the three distinct corner values differ from the vertex count 4. -/
theorem construction_accepts_unused_vertex :
    mkHalfEdges 4 [0, 1, 2, -1] = .ok (assemble 4 [0, 1, 2, -1])
      ∧ (∀ P : PartitionSizes, ∃ m, mkPolygonMesh P 4 [0, 1, 2, -1] = .ok (some m))
      ∧ (0 : Int) ≤ 3 ∧ (3 : Int) < 4 ∧ (3 : Int) ∉ ([0, 1, 2, -1] : List Int)
      ∧ ((([0, 1, 2, -1] : List Int).filter (fun v => decide (0 ≤ v))).toFinset.card : Int)
          ≠ 4 :=
  ⟨mkHalfEdges_of_valid (by decide) (by decide) (by decide),
   fun P => mkPolygonMesh_total P 4 [0, 1, 2, -1] (by decide) (by decide) (Or.inr rfl)
     (by decide),
   by decide, by decide, by decide, by decide⟩

/-- C15, amended: whenever the construction of `HalfEdges` or of `PolygonMesh`
on `(nVertices, coordIndex)` succeeds, every corner value lies in
`[-1, nVertices)`; for `PolygonMesh` the number of distinct non-negative corner
values is then at most `nVertices`, and an input with more distinct
non-negative corner values than `nVertices` is rejected with an exception. -/
theorem construction_checks_range (P : PartitionSizes) (nV : Int) (ci : List Int) :
    (∀ h, mkHalfEdges nV ci = .ok h → ∀ v ∈ ci, -1 ≤ v ∧ v < nV)
      ∧ (∀ m, mkPolygonMesh P nV ci = .ok (some m) →
          (∀ v ∈ ci, -1 ≤ v ∧ v < nV)
            ∧ ((ci.filter (fun v => decide (0 ≤ v))).toFinset.card : Int) ≤ nV)
      ∧ (nV < ((ci.filter (fun v => decide (0 ≤ v))).toFinset.card : Int) →
          ∃ e, mkPolygonMesh P nV ci = .error e) := by
  refine ⟨?_, ?_, ?_⟩
  · intro h hok
    exact (firstViolation_none nV ci 0).mp (mkHalfEdges_ok hok).1
  · intro m hm
    obtain ⟨hfv, hnv, _⟩ := mkPolygonMesh_ok hm
    have hv := (firstViolation_none nV ci 0).mp hfv
    exact ⟨hv, card_le_of_valid nV ci hv hnv⟩
  · intro hcard
    unfold mkPolygonMesh
    cases hh : mkHalfEdges nV ci with
    | error e => exact ⟨e, rfl⟩
    | ok h =>
      obtain ⟨hfv, rfl⟩ := mkHalfEdges_ok hh
      have hv := (firstViolation_none nV ci 0).mp hfv
      have hneg : nV < 0 := by
        by_contra hge
        have := card_le_of_valid nV ci hv (by omega)
        omega
      refine ⟨.resizeLength, ?_⟩
      simp only []
      rw [assemble_nV, if_pos hneg]

theorem construction_checks_range_witness :
    ∃ e, mkPolygonMesh quickFind 2 [0, 1, 2, -1] = .error e :=
  (construction_checks_range quickFind 2 [0, 1, 2, -1]).2.2 (by decide)

/-! ## The number of faces of `Faces` and of `PolygonMesh` -/

theorem assemblePolygonMesh_numberOfFaces {P : PartitionSizes} {h : HalfEdges}
    {m : PolygonMesh} (hm : assemblePolygonMesh P h = some m) :
    m.numberOfFaces = polygonMeshNumberOfFaces h := by
  unfold assemblePolygonMesh at hm
  simp only [Option.bind_eq_some] at hm
  obtain ⟨flags, _, joins, _, parts, _, hm⟩ := hm
  injection hm with hm
  subst hm
  rfl

theorem polygonMesh_getNumberOfFaces {P : PartitionSizes} {nV : Int} {ci : List Int}
    {m : PolygonMesh} (hm : mkPolygonMesh P nV ci = .ok (some m)) :
    m.getNumberOfFaces = (countNeg ci : Int) := by
  obtain ⟨_, _, ha⟩ := mkPolygonMesh_ok hm
  unfold PolygonMesh.getNumberOfFaces
  rw [assemblePolygonMesh_numberOfFaces ha]
  unfold polygonMeshNumberOfFaces
  rw [assemble_coordIndex, countFacesLoop_eq, Int.zero_add]

/-- C17: for every input on which `Faces` and `PolygonMesh` are both
constructed, with any partition collaborator, `Faces::getNumberOfFaces()` and
`PolygonMesh::getNumberOfFaces()` are both the number of negative entries of
the corner array. -/
theorem number_of_faces_agree (P : PartitionSizes) (nV : Int) (ci : List Int) (f : Faces)
    (m : PolygonMesh) (hf : mkFaces nV ci = .ok f)
    (hm : mkPolygonMesh P nV ci = .ok (some m)) :
    f.getNumberOfFaces = (countNeg ci : Int)
      ∧ m.getNumberOfFaces = (countNeg ci : Int)
      ∧ f.getNumberOfFaces = m.getNumberOfFaces := by
  obtain ⟨_, _, hmap, _⟩ := mkFaces_ok hf
  have h1 : f.getNumberOfFaces = (countNeg ci : Int) := by
    unfold Faces.getNumberOfFaces
    rw [hmap, facesScan_faceMap_length]
  have h2 := polygonMesh_getNumberOfFaces hm
  exact ⟨h1, h2, by rw [h1, h2]⟩

theorem number_of_faces_agree_witness :
    twoTrianglesFaces.getNumberOfFaces = (countNeg twoTriangles : Int)
      ∧ twoTrianglesMesh.getNumberOfFaces = (countNeg twoTriangles : Int)
      ∧ twoTrianglesFaces.getNumberOfFaces = twoTrianglesMesh.getNumberOfFaces
      ∧ twoTrianglesMesh.getNumberOfFaces = 2 :=
  ⟨(number_of_faces_agree quickFind 4 twoTriangles twoTrianglesFaces twoTrianglesMesh
      mkFaces_twoTriangles mkPolygonMesh_twoTriangles).1,
   (number_of_faces_agree quickFind 4 twoTriangles twoTrianglesFaces twoTrianglesMesh
      mkFaces_twoTriangles mkPolygonMesh_twoTriangles).2.1,
   (number_of_faces_agree quickFind 4 twoTriangles twoTrianglesFaces twoTrianglesMesh
      mkFaces_twoTriangles mkPolygonMesh_twoTriangles).2.2,
   by decide⟩

theorem mkHalfEdges_largest_int :
    mkHalfEdges 2147483647 [] = .error .reserveLength
      ∧ mkHalfEdges (-2) [] = .error .reserveLength
      ∧ mkHalfEdges (-1) [] = .ok (assemble (-1) []) :=
  ⟨rfl, rfl, rfl⟩

theorem mkPolygonMesh_negative_count (P : PartitionSizes) :
    mkPolygonMesh P (-1) [] = .error .resizeLength := rfl

end Mesh
